import Mathlib

/-!
# Verification of the `graphlib_rust` graph core

A shallow embedding of the graph data type and depth-first traversal engine
of `graphlib_rust-0.0.3` (files `src/graph.rs`, `src/algo/dfs.rs`,
`src/algo/preorder.rs`, `src/algo/postorder.rs`).

Conventions of the embedding:
* The Rust `OrderedHashMap<String, V>` (insertion-ordered map, `insert` on an
  existing key updates the value in place) is modelled by `AList V`, a list of
  key/value pairs with first-occurrence lookup.
* Node/edge labels are instantiated at `String` (the Rust code is generic in
  the three label types; no behaviour observed by the claims depends on them).
* Mutating methods taking `&mut self` become state-passing functions
  `Graph → … → Graph`; methods returning `Result` additionally return an
  `Option String` error message, and methods whose Rust body can fail to
  terminate (the ancestor walk of `set_parent`, `find_parent`) return
  `Option …` with `none` for divergence, driven by fuel that suffices
  whenever the Rust loop terminates.
* A Rust `panic` (out-of-bounds `unwrap`) is a distinguished result
  constructor, never conflated with a normal return.
-/

set_option autoImplicit false

namespace GraphlibRust

/-- Insertion-ordered association list with `String` keys: the model of the
`ordered_hashmap::OrderedHashMap<String, V>` used throughout `graph.rs`. -/
abbrev AList (V : Type) : Type := List (String × V)

/-- First-occurrence lookup: `OrderedHashMap::get`. -/
def alGet {V : Type} : AList V → String → Option V
  | [], _ => none
  | (k, v) :: t, q => if k = q then some v else alGet t q

/-- `OrderedHashMap::contains_key`. -/
def alContains {V : Type} (m : AList V) (k : String) : Bool :=
  (alGet m k).isSome

/-- `OrderedHashMap::insert`: update the value in place when the key is
present, append the pair at the end otherwise. -/
def alInsert {V : Type} : AList V → String → V → AList V
  | [], k, v => [(k, v)]
  | (k', v') :: t, k, v =>
      if k' = k then (k, v) :: t else (k', v') :: alInsert t k v

/-- `OrderedHashMap::remove`: drop the (first) entry with the given key. -/
def alRemove {V : Type} : AList V → String → AList V
  | [], _ => []
  | (k', v') :: t, k => if k' = k then t else (k', v') :: alRemove t k

/-- Apply `f` to the value stored under `k` (the `get_mut` + in-place update
pattern); identity when the key is absent. -/
def alAdjust {V : Type} : AList V → String → (V → V) → AList V
  | [], _, _ => []
  | (k', v') :: t, k, f =>
      if k' = k then (k, f v') :: t else (k', v') :: alAdjust t k f

/-- The `entry(k).or_insert(dflt)` followed by an in-place modification `f`
of the obtained reference. -/
def alEntryMod {V : Type} (m : AList V) (k : String) (dflt : V) (f : V → V) : AList V :=
  match alGet m k with
  | some _ => alAdjust m k f
  | none => alInsert m k (f dflt)

/-- `OrderedHashMap::keys` in stored order. -/
def alKeys {V : Type} (m : AList V) : List String :=
  m.map Prod.fst

/-- `OrderedHashMap::values` in stored order. -/
def alValues {V : Type} (m : AList V) : List V :=
  m.map Prod.snd

/-! ## Edge identity (`graph.rs` constants and free functions) -/

/-- `pub const DEFAULT_EDGE_NAME: &str = "\x00"`. -/
def DEFAULT_EDGE_NAME : String := "\x00"

/-- `pub const GRAPH_NODE: &str = "\x00"` — the root sentinel of the
compound hierarchy. -/
def GRAPH_NODE : String := "\x00"

/-- `pub const EDGE_KEY_DELIM: &str = "\x01"`. -/
def EDGE_KEY_DELIM : String := "\x01"

/-- The `Edge` record `{ v, w, name }` of `graph.rs`. -/
structure Edge where
  v : String
  w : String
  name : Option String
deriving DecidableEq, Repr

/-- `edge_args_to_id`: canonical string key of an edge.  For an undirected
graph the endpoints are swapped into lexicographic order first (Rust uses
`w.cmp(v) == Ordering::Less`, modelled by `String`'s linear order). -/
def edge_args_to_id (is_directed : Bool) (v0 w0 : String) (name : Option String) : String :=
  let p : String × String := if ¬ is_directed ∧ w0 < v0 then (w0, v0) else (v0, w0)
  p.1 ++ EDGE_KEY_DELIM ++ p.2 ++ EDGE_KEY_DELIM ++
    (match name with
     | some nm => nm
     | none => DEFAULT_EDGE_NAME)

/-- `edge_args_to_obj`: the normalized `Edge` record, swapping endpoints the
same way as `edge_args_to_id`. -/
def edge_args_to_obj (is_directed : Bool) (v0 w0 : String) (name : Option String) : Edge :=
  let p : String × String := if ¬ is_directed ∧ w0 < v0 then (w0, v0) else (v0, w0)
  { v := p.1, w := p.2, name := name }

/-- `edge_obj_to_id`. -/
def edge_obj_to_id (is_directed : Bool) (e : Edge) : String :=
  edge_args_to_id is_directed e.v e.w e.name

/-! ## The graph store (`struct Graph` of `graph.rs`) -/

/-- The `DefaultNodeLabel<N>` / `DefaultEdgeLabel<E>` sum: a fixed optional
value or a per-id generator function. -/
inductive DefaultLabel where
  | val : Option String → DefaultLabel
  | func : (String → Option String) → DefaultLabel

/-- The graph store, with label types instantiated at `String`.  Field names
follow `struct Graph` in `graph.rs`. -/
structure Graph where
  _is_directed : Bool
  _is_multigraph : Bool
  _is_compound : Bool
  _label : String
  _default_node_label_fn : DefaultLabel
  _default_edge_label_fn : DefaultLabel
  _nodes : AList String
  _in : AList (AList Edge)
  _preds : AList (AList Nat)
  _out : AList (AList Edge)
  _sucs : AList (AList Nat)
  _edge_objs : AList Edge
  _edge_labels : AList String
  _node_count : Nat
  _edge_count : Nat
  _parent : AList String
  _children : AList (AList Bool)

/-- `impl Default for Graph`. -/
def Graph.mkDefault : Graph where
  _is_directed := true
  _is_multigraph := false
  _is_compound := false
  _label := ""
  _default_node_label_fn := .val none
  _default_edge_label_fn := .val none
  _nodes := []
  _in := []
  _preds := []
  _out := []
  _sucs := []
  _edge_objs := []
  _edge_labels := []
  _node_count := 0
  _edge_count := 0
  _parent := []
  _children := []

/-- `pub struct GraphOption` (all fields optional). -/
structure GraphOption where
  directed : Option Bool
  multigraph : Option Bool
  compound : Option Bool

/-- `Graph::new(opts)`. -/
def Graph.new (opts : Option GraphOption) : Graph :=
  let g := Graph.mkDefault
  let g := match opts with
    | some o =>
        { g with
          _is_directed := o.directed.getD true
          _is_multigraph := o.multigraph.getD false
          _is_compound := o.compound.getD false }
    | none => g
  if g._is_compound then
    { g with _parent := [], _children := alInsert [] GRAPH_NODE [] }
  else g

/-- `is_directed`. -/
def Graph.is_directed (g : Graph) : Bool := g._is_directed

/-- `is_multigraph`. -/
def Graph.is_multigraph (g : Graph) : Bool := g._is_multigraph

/-- `is_compound`. -/
def Graph.is_compound (g : Graph) : Bool := g._is_compound

/-- `set_graph`: set the graph label. -/
def Graph.set_graph (g : Graph) (label : String) : Graph :=
  { g with _label := label }

/-- `set_default_node_label`. -/
def Graph.set_default_node_label (g : Graph) (new_default : DefaultLabel) : Graph :=
  { g with _default_node_label_fn := new_default }

/-- `set_default_edge_label`. -/
def Graph.set_default_edge_label (g : Graph) (new_default : DefaultLabel) : Graph :=
  { g with _default_edge_label_fn := new_default }

/-- `default_node_label(node_id)`: produce the label a freshly created node
receives (the `Func` case unwraps the generator's result; `Val(None)` falls
back to `N::default()`, i.e. `""` at `N = String`). -/
def Graph.default_node_label (g : Graph) (node_id : String) : String :=
  match g._default_node_label_fn with
  | .func f => (f node_id).get!
  | .val (some v) => v
  | .val none => ""

/-- `default_edge_label(edge_id)`. -/
def Graph.default_edge_label (g : Graph) (edge_id : String) : String :=
  match g._default_edge_label_fn with
  | .func f => (f edge_id).get!
  | .val (some v) => v
  | .val none => ""

/-- `node_count`. -/
def Graph.node_count (g : Graph) : Nat := g._node_count

/-- `nodes()`: keys of `_nodes` in insertion order. -/
def Graph.nodes (g : Graph) : List String := alKeys g._nodes

/-- `node(v)`. -/
def Graph.node (g : Graph) (v : String) : Option String := alGet g._nodes v

/-- `has_node(v)`. -/
def Graph.has_node (g : Graph) (v : String) : Bool := alContains g._nodes v

/-- `set_node(v, value)` (`graph.rs` lines 313–346). -/
def Graph.set_node (g : Graph) (v : String) (value : Option String) : Graph :=
  if (alGet g._nodes v).isSome then
    match value with
    | some val => { g with _nodes := alInsert g._nodes v val }
    | none => g
  else
    let g :=
      match value with
      | some val => { g with _nodes := alInsert g._nodes v val }
      | none => { g with _nodes := alInsert g._nodes v (g.default_node_label v) }
    let g :=
      if g._is_compound then
        { g with
          _parent := alInsert g._parent v GRAPH_NODE
          _children :=
            alEntryMod (alInsert g._children v []) GRAPH_NODE []
              (fun m => if alContains m v then m else alInsert m v true) }
      else g
    { g with
      _in := alInsert g._in v []
      _preds := alInsert g._preds v []
      _out := alInsert g._out v []
      _sucs := alInsert g._sucs v []
      _node_count := g._node_count + 1 }

/-- `set_nodes(node_ids, value)`. -/
def Graph.set_nodes (g : Graph) (node_ids : List String) (value : Option String) : Graph :=
  node_ids.foldl (fun g id => g.set_node id value) g

/-- `parent(v)` (`graph.rs` lines 480–490): `None` for non-compound graphs
and when the stored parent is the root sentinel. -/
def Graph.parent (g : Graph) (v : String) : Option String :=
  if g._is_compound then
    match alGet g._parent v with
    | some p => if p ≠ GRAPH_NODE then some p else none
    | none => none
  else none

/-- `children(v)` (`graph.rs` lines 496–507). -/
def Graph.children (g : Graph) (v : String) : List String :=
  if g._is_compound then
    match alGet g._children v with
    | some m => alKeys m
    | none => []
  else if v = GRAPH_NODE then alKeys g._nodes
  else []

/-- `_remove_from_parents_child_list(v)`. -/
def Graph._remove_from_parents_child_list (g : Graph) (v : String) : Graph :=
  match alGet g._parent v with
  | some parent =>
      match alGet g._children parent with
      | some _ => { g with _children := alAdjust g._children parent (fun m => alRemove m v) }
      | none => g
  | none => g

/-- `predecessors(v)` (`graph.rs` lines 514–520). -/
def Graph.predecessors (g : Graph) (v : String) : Option (List String) :=
  match alGet g._preds v with
  | some preds => some (alKeys preds)
  | none => none

/-- `successors(v)` (`graph.rs` lines 527–533). -/
def Graph.successors (g : Graph) (v : String) : Option (List String) :=
  match alGet g._sucs v with
  | some sucs => some (alKeys sucs)
  | none => none

/-- `neighbors(v)`: set union of predecessors and successors.  The Rust code
accumulates into a `HashSet` whose iteration order is unspecified; the model
fixes first-insertion order (predecessors first, then unseen successors),
which is one admissible order. -/
def Graph.neighbors (g : Graph) (v : String) : Option (List String) :=
  match g.predecessors v with
  | some preds =>
      let base := preds.foldl (fun acc p => if p ∈ acc then acc else acc ++ [p]) []
      match g.successors v with
      | some sucs =>
          some (sucs.foldl (fun acc s => if s ∈ acc then acc else acc ++ [s]) base)
      | none => some base
  | none => none

/-- `increment_or_init_entry` (`graph.rs` lines 896–902). -/
def increment_or_init_entry (map : AList Nat) (k : String) : AList Nat :=
  match alGet map k with
  | some _ => alAdjust map k (fun n => n + 1)
  | none => alInsert map k 1

/-- `decrement_or_remove_entry` (`graph.rs` lines 904–911): decrement and
drop the entry when it reaches zero. -/
def decrement_or_remove_entry (map : AList Nat) (k : String) : AList Nat :=
  match alGet map k with
  | some n => if n - 1 ≤ 0 then alRemove map k else alAdjust map k (fun m => m - 1)
  | none => map

/-- `edge_count`. -/
def Graph.edge_count (g : Graph) : Nat := g._edge_count

/-- `edges()`: the stored `Edge` records in insertion order. -/
def Graph.edges (g : Graph) : List Edge := alValues g._edge_objs

/-- `edge(v, w, name)`. -/
def Graph.edge (g : Graph) (v w : String) (name : Option String) : Option String :=
  alGet g._edge_labels (edge_args_to_id g._is_directed v w name)

/-- `edge_with_obj(edge)`. -/
def Graph.edge_with_obj (g : Graph) (e : Edge) : Option String :=
  alGet g._edge_labels (edge_obj_to_id g._is_directed e)

/-- `has_edge(v, w, name)`. -/
def Graph.has_edge (g : Graph) (v w : String) (name : Option String) : Bool :=
  alContains g._edge_labels (edge_args_to_id g._is_directed v w name)

/-- The edge-record installation part of `set_edge` (`graph.rs` lines
706–739): store the label (or the default), store the normalized record,
bump the `preds`/`sucs` counters, insert into the `in`/`out` rows and bump
the edge count.  `e` and `eo` are the canonical key and normalized record
already computed by `set_edge` (the graph's `_is_directed` flag, which the
source rereads there, is unchanged by the preceding `set_node` calls). -/
def setEdgeCreate (g0 : Graph) (e : String) (eo : Edge)
    (edge_label : Option String) : Graph :=
  let g :=
    match edge_label with
    | some lbl => { g0 with _edge_labels := alInsert g0._edge_labels e lbl }
    | none => { g0 with _edge_labels := alInsert g0._edge_labels e (g0.default_edge_label e) }
  let g := { g with _edge_objs := alInsert g._edge_objs e eo }
  let g :=
    if alContains g._preds eo.w then
      { g with _preds := alAdjust g._preds eo.w (fun m => increment_or_init_entry m eo.v) }
    else g
  let g :=
    if alContains g._sucs eo.v then
      { g with _sucs := alAdjust g._sucs eo.v (fun m => increment_or_init_entry m eo.w) }
    else g
  let g := { g with _in := alEntryMod g._in eo.w [] (fun m => alInsert m e eo) }
  let g := { g with _out := alEntryMod g._out eo.v [] (fun m => alInsert m e eo) }
  { g with _edge_count := g._edge_count + 1 }

/-- `set_edge(v, w, edge_label, name)` (`graph.rs` lines 682–740).  The
second component is the error message of the `Err` case; both error returns
happen before any state is touched, so the graph is returned unchanged
there. -/
def Graph.set_edge (g : Graph) (v w : String) (edge_label : Option String)
    (name : Option String) : Graph × Option String :=
  let e := edge_args_to_id g._is_directed v w name
  if alContains g._edge_labels e then
    match edge_label with
    | some lbl => ({ g with _edge_labels := alInsert g._edge_labels e lbl }, none)
    | none => (g, none)
  else if name.isSome ∧ ¬ g._is_multigraph then
    (g, some "Cannot set a named edge when isMultigraph = false")
  else
    let g := g.set_node v none
    let g := g.set_node w none
    let eo := edge_args_to_obj g._is_directed v w name
    (setEdgeCreate g e eo edge_label, none)

/-- `set_edge_with_obj(e, edge_label)` (`graph.rs` lines 742–748): forwards
to `set_edge` with `name = None`, discarding `e.name`. -/
def Graph.set_edge_with_obj (g : Graph) (e : Edge) (edge_label : Option String) :
    Graph × Option String :=
  g.set_edge e.v e.w edge_label none

/-- Auxiliary loop of `set_path`: the Rust `vs.iter().reduce(...)`. -/
def set_path_aux (value : Option String) : Graph → String → List String → Graph
  | g, _, [] => g
  | g, v1, v2 :: rest => set_path_aux value (g.set_edge v1 v2 value none).1 v2 rest

/-- `set_path(vs, value)`. -/
def Graph.set_path (g : Graph) (vs : List String) (value : Option String) : Graph :=
  match vs with
  | [] => g
  | v :: rest => set_path_aux value g v rest

/-- `remove_edge(v, w, name)` (`graph.rs` lines 804–829). -/
def Graph.remove_edge (g : Graph) (v w : String) (name : Option String) : Graph :=
  let e := edge_args_to_id g._is_directed v w name
  match alGet g._edge_objs e with
  | none => g
  | some edge =>
    let ev := edge.v
    let ew := edge.w
    let g := { g with
      _edge_labels := alRemove g._edge_labels e
      _edge_objs := alRemove g._edge_objs e }
    let g :=
      if alContains g._preds ew then
        { g with _preds := alAdjust g._preds ew (fun m => decrement_or_remove_entry m ev) }
      else g
    let g :=
      if alContains g._sucs ev then
        { g with _sucs := alAdjust g._sucs ev (fun m => decrement_or_remove_entry m ew) }
      else g
    let g :=
      if alContains g._in ew then
        { g with _in := alAdjust g._in ew (fun m => alRemove m e) }
      else g
    let g :=
      if alContains g._out ev then
        { g with _out := alAdjust g._out ev (fun m => alRemove m e) }
      else g
    { g with _edge_count := g._edge_count - 1 }

/-- `remove_edge_with_obj(e)`. -/
def Graph.remove_edge_with_obj (g : Graph) (e : Edge) : Graph :=
  g.remove_edge e.v e.w e.name

/-- `in_edges(v, u)`. -/
def Graph.in_edges (g : Graph) (v : String) (u : Option String) : Option (List Edge) :=
  match alGet g._in v with
  | some inEdges =>
      let l := alValues inEdges
      match u with
      | none => some l
      | some u0 => some (l.filter (fun e => e.v = u0))
  | none => none

/-- `out_edges(v, w)`. -/
def Graph.out_edges (g : Graph) (v : String) (w : Option String) : Option (List Edge) :=
  match alGet g._out v with
  | some outEdges =>
      let l := alValues outEdges
      match w with
      | none => some l
      | some w0 => some (l.filter (fun e => e.w = w0))
  | none => none

/-- `node_edges(v, w)`: in-edges followed by out-edges, no deduplication. -/
def Graph.node_edges (g : Graph) (v : String) (w : Option String) : Option (List Edge) :=
  match g.in_edges v w with
  | some inE =>
      match g.out_edges v w with
      | some outE => some (inE ++ outE)
      | none => some inE
  | none => none

/-- `is_leaf(v)`. -/
def Graph.is_leaf (g : Graph) (v : String) : Bool :=
  let nbs := if g.is_directed then g.successors v else g.neighbors v
  match nbs with
  | none => true
  | some l => l.length = 0

/-- `sources()`. -/
def Graph.sources (g : Graph) : List String :=
  g.nodes.filter (fun n =>
    match alGet g._in n with
    | some inEdges => inEdges.length = 0
    | none => true)

/-- `sinks()`. -/
def Graph.sinks (g : Graph) : List String :=
  g.nodes.filter (fun n =>
    match alGet g._out n with
    | some outEdges => outEdges.length = 0
    | none => true)

/-! ## Compound hierarchy: `set_parent` and `remove_node` -/

/-- The ancestor walk of `set_parent` (`graph.rs` lines 442–453):
`some true` when `v` is found strictly above the start, `some false` when the
chain ends at the root, `none` when the fuel runs out — which only happens
when the Rust `while let` loop runs forever on an already-cyclic parent
chain.  In an acyclic state a chain visits pairwise distinct keys of
`_parent`, so `g._parent.length + 1` fuel always suffices. -/
def ancestorWalk (g : Graph) (v : String) : Nat → String → Option Bool
  | 0, _ => none
  | fuel + 1, ancestor =>
      match g.parent ancestor with
      | some newAncestor =>
          if newAncestor = v then some true else ancestorWalk g v fuel newAncestor
      | none => some false

/-- The unconditional tail of `set_parent` (`graph.rs` lines 458–465): ensure
`v` exists, detach it from its current parent's child list, store the new
parent and child links. -/
def setParentCore (g : Graph) (v p : String) : Graph :=
  let g := g.set_node v none
  let g := g._remove_from_parents_child_list v
  let g := { g with _parent := alInsert g._parent v p }
  { g with _children := alEntryMod g._children p [] (fun m => alInsert m v true) }

/-- `set_parent(v, parent)` (`graph.rs` lines 427–466).  Result `none` models
the non-terminating ancestor walk; otherwise the pair carries the resulting
graph and the optional error message. -/
def Graph.set_parent (g : Graph) (v : String) (parent : Option String) :
    Option (Graph × Option String) :=
  if ¬ g._is_compound then
    some (g, some "Cannot set parent in a non-compound graph")
  else
    match parent with
    | none => some (setParentCore g v GRAPH_NODE, none)
    | some p0 =>
        match ancestorWalk g v (g._parent.length + 1) p0 with
        | none => none
        | some true =>
            some (g, some ("Setting " ++ p0 ++ " as parent of " ++ v ++
              " would create a cycle"))
        | some false =>
            let g := g.set_node p0 none
            some (setParentCore g v p0, none)

/-- The two incident-edge loops of `remove_node`: look each edge id up in
`_edge_objs` and cascade through `remove_edge_with_obj`. -/
def removeIncidentFold (ids : List String) (g : Graph) : Graph :=
  ids.foldl (fun g eid =>
    match alGet g._edge_objs eid with
    | some edge => g.remove_edge_with_obj edge
    | none => g) g

/-- One step of the orphaned-children loop of `remove_node` (`graph.rs`
line 388): re-parent a child to the root, keeping the state on error. -/
def spFoldFn (gg : Graph) (child : String) : Graph :=
  match gg.set_parent child none with
  | some pr => pr.1
  | none => gg

/-- The first half of the compound block of `remove_node` (`graph.rs` lines
382–386): drop `v` from its parent's child list and from `_parent`. -/
def rncHier (g : Graph) (v : String) : Graph :=
  if alContains (g._remove_from_parents_child_list v)._parent v then
    { g._remove_from_parents_child_list v with
      _parent := alRemove (g._remove_from_parents_child_list v)._parent v }
  else g._remove_from_parents_child_list v

/-- The compound block of `remove_node` (`graph.rs` lines 381–391). -/
def removeNodeCompound (g : Graph) (v : String) : Graph :=
  { ((rncHier g v).children v).foldl spFoldFn (rncHier g v) with
    _children :=
      alRemove (((rncHier g v).children v).foldl spFoldFn (rncHier g v))._children v }

/-- The compound block of `remove_node` runs only on compound graphs
(`graph.rs` line 381). -/
def rnStage2 (g : Graph) (v : String) : Graph :=
  if g._is_compound then removeNodeCompound g v else g

/-- The in-edge loop of `remove_node` (`graph.rs` lines 394–400). -/
def rnEdgesIn (g : Graph) (v : String) : Graph :=
  match alGet g._in v with
  | some inEdges =>
      { removeIncidentFold (alKeys inEdges) g with
        _in := alRemove (removeIncidentFold (alKeys inEdges) g)._in v }
  | none => g

/-- In-edge loop followed by the `_preds` row removal (`graph.rs` line 401). -/
def rnPhaseIn (g : Graph) (v : String) : Graph :=
  { rnEdgesIn g v with _preds := alRemove (rnEdgesIn g v)._preds v }

/-- The out-edge loop of `remove_node` (`graph.rs` lines 403–409). -/
def rnEdgesOut (g : Graph) (v : String) : Graph :=
  match alGet g._out v with
  | some outEdges =>
      { removeIncidentFold (alKeys outEdges) g with
        _out := alRemove (removeIncidentFold (alKeys outEdges) g)._out v }
  | none => g

/-- Out-edge loop followed by the `_sucs` row removal (`graph.rs` line 410). -/
def rnPhaseOut (g : Graph) (v : String) : Graph :=
  { rnEdgesOut g v with _sucs := alRemove (rnEdgesOut g v)._sucs v }

/-- The full mutation pipeline of `remove_node` on a present node: drop the
`_nodes` entry, run the compound block, then the two incident-edge phases. -/
def rnBody (g : Graph) (v : String) : Graph :=
  rnPhaseOut (rnPhaseIn (rnStage2 { g with _nodes := alRemove g._nodes v } v) v) v

/-- `remove_node(v)` (`graph.rs` lines 377–419). -/
def Graph.remove_node (g : Graph) (v : String) : Graph :=
  if alContains g._nodes v then
    { rnBody g v with _node_count := (rnBody g v)._node_count - 1 }
  else g

/-! ## `filter_nodes` -/

/-- `find_parent` (`graph.rs` lines 948–970): walk up the original parent
chain to the nearest ancestor surviving in `copy`, memoizing in `parents`.
`none` models the unbounded recursion on a cyclic original parent chain. -/
def find_parent (g : Graph) : Nat → String → AList String → Graph →
    Option (Option String × AList String)
  | 0, _, _, _ => none
  | fuel + 1, v, parents, copy =>
      match g.parent v with
      | none => some (none, parents)
      | some p =>
          if alContains copy._nodes p then
            some (some p, alInsert parents v p)
          else
            match alGet parents p with
            | some pv => some (some pv, parents)
            | none => find_parent g fuel p parents copy

/-- The compound loop of `filter_nodes`: resolve and set the parent of each
surviving node in order. -/
def filterParentsFold (g : Graph) : List String → AList String → Graph → Option Graph
  | [], _, copy => some copy
  | v :: rest, parents, copy =>
      match find_parent g (g._parent.length + 1) v parents copy with
      | none => none
      | some (p, parents') =>
          match copy.set_parent v p with
          | none => none
          | some pr => filterParentsFold g rest parents' pr.1

/-- `filter_nodes(filter)` (`graph.rs` lines 579–614).  `none` models the
divergence of `find_parent`/`set_parent` on cyclic parent chains; on every
acyclic input the result is `some`. -/
def Graph.filter_nodes (g : Graph) (filter : String → Bool) : Option Graph :=
  let copy := Graph.new (some
    { directed := some g._is_directed
      multigraph := some g._is_multigraph
      compound := some g._is_compound })
  let copy := g._nodes.foldl
    (fun c p => if filter p.1 then c.set_node p.1 (some p.2) else c) copy
  let copy := g._edge_objs.foldl
    (fun c p =>
      if alContains c._nodes p.2.v ∧ alContains c._nodes p.2.w then
        match g.edge_with_obj p.2 with
        | some lbl => (c.set_edge_with_obj p.2 (some lbl)).1
        | none => c
      else c) copy
  if g._is_compound then
    filterParentsFold g (alKeys copy._nodes) [] copy
  else some copy

/-! ## Traversal engine (`algo/dfs.rs`, `algo/preorder.rs`, `algo/postorder.rs`) -/

/-- Result of a traversal run.  `panicked` is an out-of-bounds
`unwrap` inside the Rust loop; `fuelOut` marks exhausted fuel of the model
(never hit by any run whose Rust loop terminates, given enough fuel). -/
inductive DfsRes (α : Type) where
  | ok : α → DfsRes α
  | err : String → DfsRes α
  | panicked : DfsRes α
  | fuelOut : DfsRes α
deriving DecidableEq, Repr

/-- The navigation strategy chosen at the top of `dfs`: successors for a
directed graph, neighbors otherwise, defaulting to `[]` for absent nodes. -/
def navigation (g : Graph) (v : String) : List String :=
  if g.is_directed then (g.successors v).getD [] else (g.neighbors v).getD []

/-- The neighbor-pushing loop of `pre_order_dfs` (`dfs.rs` lines 83–87):
`idx` starts at `navs.len()` and the loop body reads `navs.get(idx).unwrap()`
while `idx >= 0`.  The counter argument is the number of remaining
iterations (`idx + 1`); the first iteration reads index `navs.length`. -/
def prePushAll (navs : List String) : Nat → List String → Option (List String)
  | 0, st => some st
  | c + 1, st =>
      match navs.get? c with
      | some nv => prePushAll navs c (nv :: st)
      | none => none

/-- The `while stack.len() > 0` loop of `pre_order_dfs` (`dfs.rs` lines
69–90).  The stack has its top at the head. -/
def preOrderLoop (g : Graph) : Nat → List String → List String → List String →
    DfsRes (List String × List String)
  | 0, _, _, _ => .fuelOut
  | _ + 1, [], visited, acc => .ok (visited, acc)
  | fuel + 1, curr :: rest, visited, acc =>
      if curr ∈ visited then preOrderLoop g fuel rest visited acc
      else
        let navs := navigation g curr
        match prePushAll navs (navs.length + 1) rest with
        | some st => preOrderLoop g fuel st (visited ++ [curr]) (acc ++ [curr])
        | none => .panicked

/-- The neighbor-pushing loop of `post_order_dfs` (`dfs.rs` lines 58–63):
`idx` starts at `navs.len()`, runs while `idx > 0` and reads index
`idx - 1`; all reads are in bounds. -/
def postPushAll (navs : List String) : Nat → List (String × Bool) →
    Option (List (String × Bool))
  | 0, st => some st
  | idx + 1, st =>
      match navs.get? idx with
      | some nv => postPushAll navs idx ((nv, false) :: st)
      | none => none

/-- The `while stack.len() > 0` loop of `post_order_dfs` (`dfs.rs` lines
41–67), with the two-phase `(node, emitted?)` tagging. -/
def postOrderLoop (g : Graph) : Nat → List (String × Bool) → List String → List String →
    DfsRes (List String × List String)
  | 0, _, _, _ => .fuelOut
  | _ + 1, [], visited, acc => .ok (visited, acc)
  | fuel + 1, (curr, flag) :: rest, visited, acc =>
      if flag then postOrderLoop g fuel rest visited (acc ++ [curr])
      else if curr ∈ visited then postOrderLoop g fuel rest visited acc
      else
        let navs := navigation g curr
        match postPushAll navs navs.length ((curr, true) :: rest) with
        | some st => postOrderLoop g fuel st (visited ++ [curr]) acc
        | none => .panicked

/-- Fuel that is ample for every terminating run: each visited node pushes at
most `1 + |navigation|` entries, so total pops are bounded well below this. -/
def dfsFuel (g : Graph) (vs : List String) : Nat :=
  (g._nodes.length + g._edge_objs.length + vs.length + 2) * 4

/-- The per-seed loop of `dfs` (`dfs.rs` lines 30–36): reject the first seed
that is not a node, otherwise run the order function, sharing `visited` and
`acc` across seeds. -/
def dfsSeeds (g : Graph) (order : String) (fuel : Nat) :
    List String → List String → List String → DfsRes (List String)
  | [], _, acc => .ok acc
  | v :: vs, visited, acc =>
      if ¬ g.has_node v then .err ("Graph does not have node: " ++ v)
      else
        match
          (if order = "post" then postOrderLoop g fuel [(v, false)] visited acc
           else preOrderLoop g fuel [v] visited acc) with
        | .ok pr => dfsSeeds g order fuel vs pr.1 pr.2
        | .err e => .err e
        | .panicked => .panicked
        | .fuelOut => .fuelOut

/-- `dfs(g, vs, order)` (`dfs.rs` lines 14–39). -/
def dfs (g : Graph) (vs : List String) (order : String) : DfsRes (List String) :=
  dfsSeeds g order (dfsFuel g vs) vs [] []

/-- `preorder(g, vs)` (`preorder.rs`): forwards to `dfs` with order `"pre"`,
mapping `Err` — and only `Err` — to the empty sequence; a panic unwinds
through it. -/
def preorder (g : Graph) (vs : List String) : DfsRes (List String) :=
  match dfs g vs "pre" with
  | .ok t => .ok t
  | .err _ => .ok []
  | .panicked => .panicked
  | .fuelOut => .fuelOut

/-- `postorder(g, vs)` (`postorder.rs`): forwards to `dfs` with order
`"post"`, mapping `Err` to the empty sequence. -/
def postorder (g : Graph) (vs : List String) : DfsRes (List String) :=
  match dfs g vs "post" with
  | .ok t => .ok t
  | .err _ => .ok []
  | .panicked => .panicked
  | .fuelOut => .fuelOut

/-! ## Concrete scenarios used by the claims -/

/-- The spec's traversal scenario: a default (directed, simple) graph with
edges `A→B`, `A→C`, `B→D`, `C→D` inserted in that order, no labels and no
names. -/
def scenarioGraph : Graph :=
  let g := Graph.new none
  let g := (g.set_edge "A" "B" none none).1
  let g := (g.set_edge "A" "C" none none).1
  let g := (g.set_edge "B" "D" none none).1
  (g.set_edge "C" "D" none none).1

/-- A default directed graph holding the single node `A`. -/
def singleNodeGraph : Graph :=
  (Graph.new none).set_node "A" none

/-- A directed multigraph with two named parallel edges
`("x","y","e1")` and `("x","y","e2")`. -/
def multiEdgeGraph : Graph :=
  let g := Graph.new (some
    { directed := some true, multigraph := some true, compound := some false })
  let g := (g.set_edge "x" "y" none (some "e1")).1
  (g.set_edge "x" "y" none (some "e2")).1

/-- A compound graph holding the single node `a`. -/
def compoundGraphA : Graph :=
  (Graph.new (some
    { directed := none, multigraph := none, compound := some true })).set_node "a" none

/-- Create `ns.length` parallel edges from `v` to `w` carrying the names of
`ns`, starting from a fresh directed multigraph (claim C8's build phase). -/
def buildParallel (v w : String) (ns : List String) : Graph :=
  ns.foldl (fun g nm => (g.set_edge v w none (some nm)).1)
    (Graph.new (some
      { directed := some true, multigraph := some true, compound := some false }))

/-- Remove the named parallel edges of `rem` between `v` and `w` (claim C8's
removal phase). -/
def removeParallel (v w : String) (rem : List String) (g : Graph) : Graph :=
  rem.foldl (fun g nm => g.remove_edge v w (some nm)) g

/-- Canonical key of a named directed edge `v→w` named `nm`. -/
def parKey (v w nm : String) : String :=
  v ++ EDGE_KEY_DELIM ++ w ++ EDGE_KEY_DELIM ++ nm

/-- The stored record of a named directed edge. -/
def parObj (v w nm : String) : Edge :=
  { v := v, w := w, name := some nm }

/-- The graph state reached from a fresh directed multigraph after creating
parallel edges `v→w` named by `present` (in that order), used to
characterize claim C8's experiment; `present = []` describes the state after
all parallel edges have been removed again. -/
def parState (v w : String) (present : List String) : Graph where
  _is_directed := true
  _is_multigraph := true
  _is_compound := false
  _label := ""
  _default_node_label_fn := .val none
  _default_edge_label_fn := .val none
  _nodes := [(v, ""), (w, "")]
  _in := [(v, []), (w, present.map (fun nm => (parKey v w nm, parObj v w nm)))]
  _preds := [(v, []), (w, if present.length = 0 then [] else [(v, present.length)])]
  _out := [(v, present.map (fun nm => (parKey v w nm, parObj v w nm))), (w, [])]
  _sucs := [(v, if present.length = 0 then [] else [(w, present.length)]), (w, [])]
  _edge_objs := present.map (fun nm => (parKey v w nm, parObj v w nm))
  _edge_labels := present.map (fun nm => (parKey v w nm, ""))
  _node_count := 2
  _edge_count := present.length
  _parent := []
  _children := []

/-! ## State invariant of the graph store -/

/-- The number of stored edge records running from `u` to `x`. -/
def edgeCount (objs : AList Edge) (u x : String) : Nat :=
  objs.countP (fun p => p.2.v == u && p.2.w == x)

/-- The reference count stored for `n` parallel edges: absent when zero. -/
def natToCount (n : Nat) : Option Nat :=
  if n = 0 then none else some n

/-- Well-formedness invariant of a graph state, maintained by every public
operation: all maps carry pairwise distinct keys; `_preds`/`_sucs`/`_in`/
`_out` have exactly the nodes as keys; the counter maps record exactly the
number of stored parallel edges per ordered endpoint pair; the `_in`/`_out`
rows index exactly the incident stored edges; `_edge_labels` and
`_edge_objs` share their key set; stored records canonicalize back to their
key and have node endpoints; and child-list membership points back to the
`_parent` entry, whose keys are nodes. -/
structure Inv (g : Graph) : Prop where
  wf_nodes : (alKeys g._nodes).Nodup
  wf_preds : (alKeys g._preds).Nodup
  wf_sucs : (alKeys g._sucs).Nodup
  wf_in : (alKeys g._in).Nodup
  wf_out : (alKeys g._out).Nodup
  wf_objs : (alKeys g._edge_objs).Nodup
  wf_labels : (alKeys g._edge_labels).Nodup
  wf_parent : (alKeys g._parent).Nodup
  wf_children : (alKeys g._children).Nodup
  wf_preds_inner : ∀ x m, alGet g._preds x = some m → (alKeys m).Nodup
  wf_sucs_inner : ∀ x m, alGet g._sucs x = some m → (alKeys m).Nodup
  wf_in_inner : ∀ x m, alGet g._in x = some m → (alKeys m).Nodup
  wf_out_inner : ∀ x m, alGet g._out x = some m → (alKeys m).Nodup
  wf_children_inner : ∀ x m, alGet g._children x = some m → (alKeys m).Nodup
  contains_preds : ∀ x, alContains g._preds x = alContains g._nodes x
  contains_sucs : ∀ x, alContains g._sucs x = alContains g._nodes x
  contains_in : ∀ x, alContains g._in x = alContains g._nodes x
  contains_out : ∀ x, alContains g._out x = alContains g._nodes x
  preds_val : ∀ x m u, alGet g._preds x = some m →
    alGet m u = natToCount (edgeCount g._edge_objs u x)
  sucs_val : ∀ x m u, alGet g._sucs x = some m →
    alGet m u = natToCount (edgeCount g._edge_objs x u)
  in_mem : ∀ x m k, alGet g._in x = some m →
    (alContains m k = true ↔ ∃ e, alGet g._edge_objs k = some e ∧ e.w = x)
  out_mem : ∀ x m k, alGet g._out x = some m →
    (alContains m k = true ↔ ∃ e, alGet g._edge_objs k = some e ∧ e.v = x)
  labels_objs : ∀ k, alContains g._edge_labels k = alContains g._edge_objs k
  obj_key : ∀ k e, alGet g._edge_objs k = some e →
    edge_args_to_id g._is_directed e.v e.w e.name = k
  obj_nodes : ∀ k e, alGet g._edge_objs k = some e →
    alContains g._nodes e.v = true ∧ alContains g._nodes e.w = true
  childparent : ∀ p m x, alGet g._children p = some m → alContains m x = true →
    alGet g._parent x = some p
  parent_nodes : ∀ x p, alGet g._parent x = some p → alContains g._nodes x = true
  noncompound : g._is_compound = false → g._parent = [] ∧ g._children = []

/-- The edge-component fragment of `Inv` that is stable through the
incident-edge removal cascade of `remove_node`, where `_nodes` is already
out of sync.  `obj_rows` replaces the node-membership of endpoints by the
existence of their adjacency rows. -/
structure InvE (g : Graph) : Prop where
  wf_objs : (alKeys g._edge_objs).Nodup
  wf_labels : (alKeys g._edge_labels).Nodup
  wf_preds_inner : ∀ x m, alGet g._preds x = some m → (alKeys m).Nodup
  wf_sucs_inner : ∀ x m, alGet g._sucs x = some m → (alKeys m).Nodup
  wf_in_inner : ∀ x m, alGet g._in x = some m → (alKeys m).Nodup
  wf_out_inner : ∀ x m, alGet g._out x = some m → (alKeys m).Nodup
  preds_val : ∀ x m u, alGet g._preds x = some m →
    alGet m u = natToCount (edgeCount g._edge_objs u x)
  sucs_val : ∀ x m u, alGet g._sucs x = some m →
    alGet m u = natToCount (edgeCount g._edge_objs x u)
  in_mem : ∀ x m k, alGet g._in x = some m →
    (alContains m k = true ↔ ∃ e, alGet g._edge_objs k = some e ∧ e.w = x)
  out_mem : ∀ x m k, alGet g._out x = some m →
    (alContains m k = true ↔ ∃ e, alGet g._edge_objs k = some e ∧ e.v = x)
  labels_objs : ∀ k, alContains g._edge_labels k = alContains g._edge_objs k
  obj_key : ∀ k e, alGet g._edge_objs k = some e →
    edge_args_to_id g._is_directed e.v e.w e.name = k
  obj_rows : ∀ k e, alGet g._edge_objs k = some e →
    alContains g._preds e.w = true ∧ alContains g._sucs e.v = true ∧
    alContains g._in e.w = true ∧ alContains g._out e.v = true

/-- The hierarchy fragment of `Inv`, relative to a fixed node universe `N`:
used to track the compound phase of `remove_node`, where `_nodes` is already
out of sync with the adjacency maps. -/
structure HInv (N : AList String) (g : Graph) : Prop where
  wfp : (alKeys g._parent).Nodup
  wfc : (alKeys g._children).Nodup
  wfci : ∀ x m, alGet g._children x = some m → (alKeys m).Nodup
  cp : ∀ p m x, alGet g._children p = some m → alContains m x = true →
    alGet g._parent x = some p
  pn : ∀ x p, alGet g._parent x = some p → alContains N x = true

/-- Equality of everything except the two hierarchy maps. -/
def nonHierFrame (g' g : Graph) : Prop :=
  g'._nodes = g._nodes ∧ g'._in = g._in ∧ g'._preds = g._preds ∧
  g'._out = g._out ∧ g'._sucs = g._sucs ∧ g'._edge_objs = g._edge_objs ∧
  g'._edge_labels = g._edge_labels ∧ g'._is_directed = g._is_directed ∧
  g'._is_multigraph = g._is_multigraph ∧ g'._is_compound = g._is_compound ∧
  g'._node_count = g._node_count ∧ g'._edge_count = g._edge_count

/-- Graph states reachable through the public mutation surface. -/
inductive Reachable : Graph → Prop where
  | new (opts : Option GraphOption) : Reachable (Graph.new opts)
  | set_node {g : Graph} (v : String) (val : Option String) :
      Reachable g → Reachable (g.set_node v val)
  | set_nodes {g : Graph} (vs : List String) (val : Option String) :
      Reachable g → Reachable (g.set_nodes vs val)
  | remove_node {g : Graph} (v : String) :
      Reachable g → Reachable (g.remove_node v)
  | set_edge {g : Graph} (v w : String) (lbl nm : Option String) :
      Reachable g → Reachable (g.set_edge v w lbl nm).1
  | set_edge_with_obj {g : Graph} (e : Edge) (lbl : Option String) :
      Reachable g → Reachable (g.set_edge_with_obj e lbl).1
  | remove_edge {g : Graph} (v w : String) (nm : Option String) :
      Reachable g → Reachable (g.remove_edge v w nm)
  | remove_edge_with_obj {g : Graph} (e : Edge) :
      Reachable g → Reachable (g.remove_edge_with_obj e)
  | set_path {g : Graph} (vs : List String) (lbl : Option String) :
      Reachable g → Reachable (g.set_path vs lbl)
  | set_parent {g g' : Graph} {r : Option String} (v : String) (p : Option String) :
      Reachable g → g.set_parent v p = some (g', r) → Reachable g'
  | set_graph {g : Graph} (lbl : String) :
      Reachable g → Reachable (g.set_graph lbl)
  | set_default_node_label {g : Graph} (d : DefaultLabel) :
      Reachable g → Reachable (g.set_default_node_label d)
  | set_default_edge_label {g : Graph} (d : DefaultLabel) :
      Reachable g → Reachable (g.set_default_edge_label d)
  | filter_nodes {g g' : Graph} (f : String → Bool) :
      Reachable g → g.filter_nodes f = some g' → Reachable g'

/-! ## Lemmas about the association-list model -/

@[simp] theorem alGet_nil {V : Type} (q : String) : alGet ([] : AList V) q = none := rfl

@[simp] theorem alGet_cons {V : Type} (k : String) (v : V) (t : AList V) (q : String) :
    alGet ((k, v) :: t) q = if k = q then some v else alGet t q := rfl

@[simp] theorem alKeys_nil {V : Type} : alKeys ([] : AList V) = [] := rfl

@[simp] theorem alKeys_cons {V : Type} (k : String) (v : V) (t : AList V) :
    alKeys ((k, v) :: t) = k :: alKeys t := rfl

theorem alGet_eq_none_iff {V : Type} (m : AList V) (q : String) :
    alGet m q = none ↔ q ∉ alKeys m := by
  induction m with
  | nil => simp
  | cons p t ih =>
    obtain ⟨k, v⟩ := p
    by_cases h : k = q
    · subst h; simp
    · have h' : ¬ q = k := fun hh => h hh.symm
      simp [h, h', ih]

theorem alGet_isSome_iff {V : Type} (m : AList V) (q : String) :
    (alGet m q).isSome = true ↔ q ∈ alKeys m := by
  rw [Option.isSome_iff_ne_none, ne_eq, alGet_eq_none_iff, not_not]

theorem alContains_iff_mem {V : Type} (m : AList V) (q : String) :
    alContains m q = true ↔ q ∈ alKeys m :=
  alGet_isSome_iff m q

theorem alContains_eq_false_iff {V : Type} (m : AList V) (q : String) :
    alContains m q = false ↔ q ∉ alKeys m := by
  rw [← Bool.not_eq_true, alContains_iff_mem]

theorem alGet_alInsert {V : Type} (m : AList V) (k : String) (v : V) (q : String) :
    alGet (alInsert m k v) q = if k = q then some v else alGet m q := by
  induction m with
  | nil => simp [alInsert]
  | cons p t ih =>
    obtain ⟨k', v'⟩ := p
    by_cases hk : k' = k
    · subst hk
      by_cases hq : k' = q <;> simp [alInsert, hq]
    · by_cases hq : k' = q
      · subst hq
        have : ¬ k = k' := fun h => hk h.symm
        simp [alInsert, hk, this]
      · simp [alInsert, hk, hq, ih]

theorem alGet_alAdjust {V : Type} (m : AList V) (k : String) (f : V → V) (q : String) :
    alGet (alAdjust m k f) q = if k = q then (alGet m q).map f else alGet m q := by
  induction m with
  | nil => simp [alAdjust]
  | cons p t ih =>
    obtain ⟨k', v'⟩ := p
    by_cases hk : k' = k
    · subst hk
      by_cases hq : k' = q <;> simp [alAdjust, hq]
    · by_cases hq : k' = q
      · subst hq
        have : ¬ k = k' := fun h => hk h.symm
        simp [alAdjust, hk, this]
      · simp [alAdjust, hk, hq, ih]

theorem alGet_alRemove_ne {V : Type} (m : AList V) (k q : String) (h : k ≠ q) :
    alGet (alRemove m k) q = alGet m q := by
  induction m with
  | nil => simp [alRemove]
  | cons p t ih =>
    obtain ⟨k', v'⟩ := p
    by_cases hk : k' = k
    · subst hk
      have h2 : ¬ k' = q := fun hq => h hq
      simp [alRemove, h2]
    · by_cases hq : k' = q
      · subst hq
        simp [alRemove, hk]
      · simp [alRemove, hk, hq, ih]

theorem alGet_alRemove_self {V : Type} (m : AList V) (k : String)
    (h : (alKeys m).Nodup) : alGet (alRemove m k) k = none := by
  induction m with
  | nil => simp [alRemove]
  | cons p t ih =>
    obtain ⟨k', v'⟩ := p
    simp only [alKeys_cons, List.nodup_cons] at h
    by_cases hk : k' = k
    · subst hk
      rw [alRemove, if_pos rfl, alGet_eq_none_iff]
      exact h.1
    · simp [alRemove, hk, ih h.2]

theorem alGet_alRemove {V : Type} (m : AList V) (k q : String)
    (h : (alKeys m).Nodup) :
    alGet (alRemove m k) q = if k = q then none else alGet m q := by
  by_cases hq : k = q
  · subst hq
    simp [alGet_alRemove_self m k h]
  · simp [hq, alGet_alRemove_ne m k q hq]

theorem alKeys_alInsert_mem {V : Type} (m : AList V) (k : String) (v : V)
    (h : k ∈ alKeys m) : alKeys (alInsert m k v) = alKeys m := by
  induction m with
  | nil => simp at h
  | cons p t ih =>
    obtain ⟨k', v'⟩ := p
    by_cases hk : k' = k
    · subst hk
      simp [alInsert]
    · simp only [alKeys_cons, List.mem_cons] at h
      rcases h with h | h

      · exact absurd h.symm hk
      · simp [alInsert, hk, ih h]

theorem alKeys_alInsert_not_mem {V : Type} (m : AList V) (k : String) (v : V)
    (h : k ∉ alKeys m) : alKeys (alInsert m k v) = alKeys m ++ [k] := by
  induction m with
  | nil => simp [alInsert]
  | cons p t ih =>
    obtain ⟨k', v'⟩ := p
    simp only [alKeys_cons, List.mem_cons] at h
    push_neg at h
    have hk : ¬ k' = k := fun hh => h.1 hh.symm
    simp [alInsert, hk, ih h.2]

theorem alKeys_alAdjust {V : Type} (m : AList V) (k : String) (f : V → V) :
    alKeys (alAdjust m k f) = alKeys m := by
  induction m with
  | nil => simp [alAdjust]
  | cons p t ih =>
    obtain ⟨k', v'⟩ := p
    by_cases hk : k' = k
    · subst hk
      simp [alAdjust]
    · simp [alAdjust, hk, ih]

theorem alKeys_alRemove {V : Type} (m : AList V) (k : String) :
    alKeys (alRemove m k) = (alKeys m).erase k := by
  induction m with
  | nil => simp [alRemove]
  | cons p t ih =>
    obtain ⟨k', v'⟩ := p
    by_cases hk : k' = k
    · subst hk
      simp [alRemove, List.erase_cons]
    · simp [alRemove, hk, ih, List.erase_cons]

theorem alNodup_alInsert {V : Type} (m : AList V) (k : String) (v : V)
    (h : (alKeys m).Nodup) : (alKeys (alInsert m k v)).Nodup := by
  by_cases hk : k ∈ alKeys m
  · rw [alKeys_alInsert_mem m k v hk]; exact h
  · rw [alKeys_alInsert_not_mem m k v hk]
    simp [List.nodup_append, h, hk]

theorem alNodup_alAdjust {V : Type} (m : AList V) (k : String) (f : V → V)
    (h : (alKeys m).Nodup) : (alKeys (alAdjust m k f)).Nodup := by
  rw [alKeys_alAdjust]; exact h

theorem alNodup_alRemove {V : Type} (m : AList V) (k : String)
    (h : (alKeys m).Nodup) : (alKeys (alRemove m k)).Nodup := by
  rw [alKeys_alRemove]; exact h.erase k

theorem alGet_alEntryMod {V : Type} (m : AList V) (k : String) (dflt : V)
    (f : V → V) (q : String) :
    alGet (alEntryMod m k dflt f) q =
      if k = q then some (f ((alGet m k).getD dflt)) else alGet m q := by
  unfold alEntryMod
  rcases hm : alGet m k with _ | v
  · rw [alGet_alInsert]
    simp
  · rw [alGet_alAdjust]
    by_cases hq : k = q
    · subst hq; simp [hm]
    · simp [hq]

theorem alKeys_alEntryMod_mem {V : Type} (m : AList V) (k : String) (dflt : V)
    (f : V → V) (h : k ∈ alKeys m) :
    alKeys (alEntryMod m k dflt f) = alKeys m := by
  unfold alEntryMod
  rcases hm : alGet m k with _ | v
  · rw [alGet_eq_none_iff] at hm; exact absurd h hm
  · exact alKeys_alAdjust m k f

theorem alNodup_alEntryMod {V : Type} (m : AList V) (k : String) (dflt : V)
    (f : V → V) (h : (alKeys m).Nodup) :
    (alKeys (alEntryMod m k dflt f)).Nodup := by
  unfold alEntryMod
  rcases alGet m k with _ | v
  · exact alNodup_alInsert m k _ h
  · exact alNodup_alAdjust m k f h

theorem alGet_mem {V : Type} (m : AList V) (k : String) (v : V)
    (h : alGet m k = some v) : (k, v) ∈ m := by
  induction m with
  | nil => simp at h
  | cons p t ih =>
    obtain ⟨k', v'⟩ := p
    by_cases hk : k' = k
    · subst hk
      rw [alGet_cons, if_pos rfl] at h
      injection h with h
      subst h
      exact List.mem_cons_self _ _
    · rw [alGet_cons, if_neg hk] at h
      exact List.mem_cons_of_mem _ (ih h)

/-! ## Lemmas about edge identity -/

/-- Recomputing the canonical key from the normalized record gives back the
original key (the swap is idempotent). -/
theorem edge_id_of_obj (d : Bool) (v0 w0 : String) (nm : Option String) :
    edge_obj_to_id d (edge_args_to_obj d v0 w0 nm) = edge_args_to_id d v0 w0 nm := by
  unfold edge_obj_to_id edge_args_to_obj edge_args_to_id
  by_cases h : ¬ d = true ∧ w0 < v0
  · have hlt : ¬ (v0 < w0) := lt_asymm h.2
    simp only [if_pos h]
    simp [h.1, hlt]
  · simp only [if_neg h]

/-- Unfolded form of `edge_id_of_obj`. -/
theorem edge_id_of_obj_unfolded (d : Bool) (v0 w0 : String) (nm : Option String) :
    edge_args_to_id d (edge_args_to_obj d v0 w0 nm).v
      (edge_args_to_obj d v0 w0 nm).w (edge_args_to_obj d v0 w0 nm).name =
      edge_args_to_id d v0 w0 nm :=
  edge_id_of_obj d v0 w0 nm

/-! ## Claim theorems: traversal scenarios -/

/-- **C1.** The claim states that `preorder(["A"])` on the scenario graph
returns `[A, B, D, C]`.  In fact `pre_order_dfs` starts its neighbor-push
loop at `idx = navigation.len()` and reads `get(idx).unwrap()`, which is out
of bounds on the very first iteration, so the call panics instead of
returning any sequence. -/
theorem c1_preorder_scenario_panics :
    preorder scenarioGraph ["A"] = DfsRes.panicked := by decide

/-- **C5.** `postorder(["A"])` on the scenario graph returns exactly
`[D, B, C, A]`. -/
theorem c5_postorder_scenario :
    postorder scenarioGraph ["A"] = DfsRes.ok ["D", "B", "C", "A"] := by decide

/-- **C2.** The claim states that pre-order `dfs` is total on valid seeds,
with every index access into the navigation-neighbor list in bounds.  On the
graph holding the single node `A` with seed `A`, the first loop iteration
reads index `navigation.len()` of the neighbor list, which is out of range,
and the call panics rather than returning `Ok`. -/
theorem c2_preorder_dfs_panics_on_single_node :
    dfs singleNodeGraph ["A"] "pre" = DfsRes.panicked := by decide

/-- **C6.** The claim states that `dfs` with any seed list containing an
unknown identifier returns the unknown-node error and that `preorder`
swallows it, returning `[]`.  With seeds `["A", "Z"]` (`Z` unknown) on the
scenario graph the pre-order run panics while traversing the valid seed `A`
before the check on `Z` is ever reached, so neither the error nor the empty
sequence is produced; the post-order entry points do behave as claimed. -/
theorem c6_preorder_panics_before_unknown_seed_check :
    dfs scenarioGraph ["A", "Z"] "pre" = DfsRes.panicked ∧
    preorder scenarioGraph ["A", "Z"] = DfsRes.panicked ∧
    dfs scenarioGraph ["A", "Z"] "post" =
      DfsRes.err "Graph does not have node: Z" ∧
    postorder scenarioGraph ["A", "Z"] = DfsRes.ok [] := by decide

/-! ## Claim theorems: `filter_nodes` and `set_parent` -/

/-- **C3.** The claim states that `filter_nodes` with the always-true
predicate reproduces `edges()` including edge names.  On a multigraph with
two named parallel edges the copy loses both names (`set_edge_with_obj`
forwards `name = None`), collapsing them into one unnamed edge. -/
theorem c3_filter_nodes_drops_edge_names :
    (multiEdgeGraph.filter_nodes (fun _ => true)).map Graph.edges =
      some [{ v := "x", w := "y", name := none }] ∧
    multiEdgeGraph.edges =
      [{ v := "x", w := "y", name := some "e1" },
       { v := "x", w := "y", name := some "e2" }] ∧
    (multiEdgeGraph.filter_nodes (fun _ => true)).map Graph.nodes =
      some multiEdgeGraph.nodes := by decide

/-- **C4.** The claim states that `set_parent(v, Some(p))` fails with the
would-create-cycle error whenever `v` occurs in the ancestor chain of `p`,
including `p = v`.  The code walks the chain starting at `parent(p)`, never
comparing `p` itself with `v`, so `set_parent("a", Some("a"))` succeeds and
creates the cycle `parent("a") = "a"`. -/
theorem c4_set_parent_self_cycle_accepted :
    (compoundGraphA.set_parent "a" (some "a")).map
      (fun pr => (pr.2, pr.1.parent "a", pr.1.children "a")) =
      some (none, some "a", ["a"]) := by decide

/-! ## Claim theorems: error handling and frame conditions -/

/-- **C7.** On a graph with `multigraph = false`, `set_edge` with a supplied
name whose canonical key is not yet present fails with the
named-edge-on-simple-graph error and returns the graph completely unchanged:
the two error returns of `set_edge` precede every mutation. -/
theorem c7_named_edge_on_simple_graph (g : Graph) (v w : String)
    (lbl : Option String) (nm : String)
    (hmulti : g._is_multigraph = false)
    (habs : alContains g._edge_labels
      (edge_args_to_id g._is_directed v w (some nm)) = false) :
    g.set_edge v w lbl (some nm) =
      (g, some "Cannot set a named edge when isMultigraph = false") := by
  simp [Graph.set_edge, habs, hmulti]

/-- Witness for C7 at a concrete input: a fresh simple graph, edge
`("a","b")` named `"n"`. -/
theorem c7_named_edge_on_simple_graph_witness :
    (Graph.new none)._is_multigraph = false ∧
    alContains (Graph.new none)._edge_labels
      (edge_args_to_id (Graph.new none)._is_directed "a" "b" (some "n")) = false ∧
    (Graph.new none).set_edge "a" "b" none (some "n") =
      (Graph.new none, some "Cannot set a named edge when isMultigraph = false") :=
  ⟨by decide, by decide,
    c7_named_edge_on_simple_graph (Graph.new none) "a" "b" none "n"
      (by decide) (by decide)⟩

/-- **C10.** `remove_node` on an identifier that is not a node leaves the
whole graph state unchanged: the body is guarded by
`if self._nodes.contains_key(v)`. -/
theorem c10_remove_node_absent_noop (g : Graph) (v : String)
    (h : g.has_node v = false) : g.remove_node v = g := by
  unfold Graph.remove_node
  rw [show alContains g._nodes v = false from h]
  simp

/-- Witness for C10 at a concrete input: removing the absent `"Z"` from the
scenario graph. -/
theorem c10_remove_node_absent_noop_witness :
    scenarioGraph.has_node "Z" = false ∧
    scenarioGraph.remove_node "Z" = scenarioGraph :=
  ⟨by decide, c10_remove_node_absent_noop scenarioGraph "Z" (by decide)⟩

/-! ## Claim C8: multigraph counters for parallel edges -/

theorem string_append_left_cancel (p a b : String) (h : p ++ a = p ++ b) :
    a = b := by
  have hd := congrArg String.data h
  simp only [String.data_append] at hd
  exact String.ext (List.append_cancel_left hd)

theorem parKey_inj (v w : String) (a b : String) (h : parKey v w a = parKey v w b) :
    a = b :=
  string_append_left_cancel (v ++ EDGE_KEY_DELIM ++ w ++ EDGE_KEY_DELIM) a b h

theorem alGet_map_key {β : Type} (key : String → String)
    (hinj : ∀ a b, key a = key b → a = b) (f : String → β) (l : List String)
    (nm : String) :
    alGet (l.map (fun x => (key x, f x))) (key nm) =
      if nm ∈ l then some (f nm) else none := by
  induction l with
  | nil => simp
  | cons a t ih =>
    by_cases ha : key a = key nm
    · have : a = nm := hinj a nm ha
      subst this
      simp
    · have hne : ¬ a = nm := fun hh => ha (hh ▸ rfl)
      have hne' : ¬ nm = a := fun hh => hne hh.symm
      simp [ha, ih, hne']

theorem alRemove_map_key {β : Type} (key : String → String)
    (hinj : ∀ a b, key a = key b → a = b) (f : String → β) (l : List String)
    (nm : String) :
    alRemove (l.map (fun x => (key x, f x))) (key nm) =
      (l.erase nm).map (fun x => (key x, f x)) := by
  induction l with
  | nil => simp [alRemove]
  | cons a t ih =>
    by_cases ha : key a = key nm
    · have : a = nm := hinj a nm ha
      subst this
      simp [alRemove, List.erase_cons]
    · have hne : ¬ a = nm := fun hh => ha (hh ▸ rfl)
      simp [alRemove, List.erase_cons, ha, hne, ih]

theorem alInsert_append {V : Type} (m : AList V) (k : String) (v : V)
    (h : k ∉ alKeys m) : alInsert m k v = m ++ [(k, v)] := by
  induction m with
  | nil => simp [alInsert]
  | cons p t ih =>
    obtain ⟨k', v'⟩ := p
    simp only [alKeys_cons, List.mem_cons] at h
    push_neg at h
    have hk : ¬ k' = k := fun hh => h.1 hh.symm
    simp [alInsert, hk, ih h.2]

theorem edge_id_directed (v w nm : String) :
    edge_args_to_id true v w (some nm) = parKey v w nm := by
  simp [edge_args_to_id, parKey]

theorem edge_obj_directed (v w nm : String) :
    edge_args_to_obj true v w (some nm) = parObj v w nm := by
  simp [edge_args_to_obj, parObj]

theorem parObj_v (v w nm : String) : (parObj v w nm).v = v := rfl

theorem parObj_w (v w nm : String) : (parObj v w nm).w = w := rfl

theorem parObj_name (v w nm : String) : (parObj v w nm).name = some nm := rfl

/-- Creating the first named parallel edge from the fresh directed
multigraph produces `parState v w [nm]`. -/
theorem set_edge_fresh_first (v w nm : String) (hvw : v ≠ w) :
    ((Graph.new (some
      { directed := some true, multigraph := some true, compound := some false
      })).set_edge v w none (some nm)).1 = parState v w [nm] := by
  have hwv : ¬ w = v := fun hh => hvw hh.symm
  simp [Graph.new, Graph.mkDefault, Graph.set_edge, setEdgeCreate, Graph.set_node,
    Graph.default_node_label, Graph.default_edge_label, edge_id_directed,
    edge_obj_directed, parState, parObj, alContains, alInsert, alEntryMod,
    alAdjust, increment_or_init_entry, hvw, hwv]

/-- Creating a further fresh-named parallel edge on `parState v w present`
appends it. -/
theorem set_edge_fresh_step (v w nm : String) (present : List String)
    (hvw : v ≠ w) (hnm : nm ∉ present) :
    ((parState v w present).set_edge v w none (some nm)).1 =
      parState v w (present ++ [nm]) := by
  have hwv : ¬ w = v := fun hh => hvw hh.symm
  have hlbl : alGet (present.map (fun x => (parKey v w x, ("" : String))))
      (parKey v w nm) = none := by
    rw [alGet_map_key (parKey v w) (parKey_inj v w) _ present nm, if_neg hnm]
  have hobj : alGet (present.map (fun x => (parKey v w x, parObj v w x)))
      (parKey v w nm) = none := by
    rw [alGet_map_key (parKey v w) (parKey_inj v w) _ present nm, if_neg hnm]
  have hkeysO : parKey v w nm ∉
      alKeys (present.map (fun x => (parKey v w x, parObj v w x))) := by
    rw [← alGet_eq_none_iff]; exact hobj
  have hkeysL : parKey v w nm ∉
      alKeys (present.map (fun x => (parKey v w x, ("" : String)))) := by
    rw [← alGet_eq_none_iff]; exact hlbl
  have hinsL : ∀ s : String,
      alInsert (present.map (fun x => (parKey v w x, ("" : String))))
        (parKey v w nm) s =
      present.map (fun x => (parKey v w x, ("" : String))) ++ [(parKey v w nm, s)] :=
    fun s => alInsert_append _ _ s hkeysL
  have hinsO : ∀ e : Edge,
      alInsert (present.map (fun x => (parKey v w x, parObj v w x)))
        (parKey v w nm) e =
      present.map (fun x => (parKey v w x, parObj v w x)) ++ [(parKey v w nm, e)] :=
    fun e => alInsert_append _ _ e hkeysO
  by_cases h0 : present.length = 0
  · rw [List.length_eq_zero] at h0
    subst h0
    simp [Graph.set_edge, setEdgeCreate, Graph.set_node, Graph.default_edge_label,
      edge_id_directed, edge_obj_directed, parState, parObj_v, parObj_w,
      parObj_name, alContains, alInsert, alEntryMod, alAdjust,
      increment_or_init_entry, hvw, hwv, hlbl]
  · simp [Graph.set_edge, setEdgeCreate, Graph.set_node, Graph.default_edge_label,
      edge_id_directed, edge_obj_directed, parState, parObj_v, parObj_w,
      parObj_name, alContains,
      alEntryMod, alAdjust, increment_or_init_entry, hvw, hwv, hlbl, hobj,
      hinsL, hinsO, h0, List.length_append]

/-- Folding further fresh edge creations over `parState`. -/
theorem foldInsert_parState (v w : String) (ns : List String) :
    ∀ (present : List String), v ≠ w → (∀ x ∈ ns, x ∉ present) → ns.Nodup →
    ns.foldl (fun g nm => (g.set_edge v w none (some nm)).1) (parState v w present) =
      parState v w (present ++ ns) := by
  induction ns with
  | nil => intro present _ _ _; simp
  | cons nm t ih =>
    intro present hvw hfresh hnodup
    rw [List.foldl_cons, set_edge_fresh_step v w nm present hvw
      (hfresh nm (List.mem_cons_self nm t))]
    rw [ih (present ++ [nm]) hvw ?_ (List.Nodup.of_cons hnodup)]
    · simp
    · intro x hx
      simp only [List.mem_append, List.mem_singleton]
      push_neg
      refine ⟨hfresh x (List.mem_cons_of_mem nm hx), ?_⟩
      intro hxnm
      subst hxnm
      exact (List.nodup_cons.mp hnodup).1 hx

/-- `buildParallel` lands in the characterized state. -/
theorem buildParallel_eq (v w : String) (ns : List String) (hvw : v ≠ w)
    (hns : ns.Nodup) (hne : ns ≠ []) : buildParallel v w ns = parState v w ns := by
  rcases ns with _ | ⟨nm, t⟩
  · exact absurd rfl hne
  · unfold buildParallel
    rw [List.foldl_cons, set_edge_fresh_first v w nm hvw]
    rw [foldInsert_parState v w t [nm] hvw ?_ (List.Nodup.of_cons hns)]
    · simp
    · intro x hx
      simp only [List.mem_singleton]
      intro hxnm
      subst hxnm
      exact (List.nodup_cons.mp hns).1 hx

/-- Removing one named parallel edge from `parState` erases it (a no-op when
the name is no longer present). -/
theorem remove_edge_parState (v w nm : String) (present : List String)
    (hvw : v ≠ w) :
    (parState v w present).remove_edge v w (some nm) =
      parState v w (present.erase nm) := by
  have hwv : ¬ w = v := fun hh => hvw hh.symm
  have hremL : alRemove (present.map (fun x => (parKey v w x, ("" : String))))
      (parKey v w nm) =
      (present.erase nm).map (fun x => (parKey v w x, ("" : String))) :=
    alRemove_map_key (parKey v w) (parKey_inj v w) _ present nm
  have hremO : alRemove (present.map (fun x => (parKey v w x, parObj v w x)))
      (parKey v w nm) =
      (present.erase nm).map (fun x => (parKey v w x, parObj v w x)) :=
    alRemove_map_key (parKey v w) (parKey_inj v w) _ present nm
  by_cases hin : nm ∈ present
  · have hobj : alGet (present.map (fun x => (parKey v w x, parObj v w x)))
        (parKey v w nm) = some (parObj v w nm) := by
      rw [alGet_map_key (parKey v w) (parKey_inj v w) _ present nm, if_pos hin]
    have hlen : present.length ≠ 0 := by
      intro h0
      rw [List.length_eq_zero] at h0
      subst h0
      simp at hin
    have herase : (present.erase nm).length = present.length - 1 :=
      List.length_erase_of_mem hin
    rcases hlenc : present.length with _ | n
    · exact absurd hlenc hlen
    · rw [hlenc] at herase
      by_cases hone : n = 0
      · subst hone
        -- exactly one edge present: the counter entries disappear
        simp [Graph.remove_edge, edge_id_directed, hobj, parState, hlenc,
          parObj_v, parObj_w, parObj_name, alContains, alAdjust,
          decrement_or_remove_entry,
          alRemove, hvw, hwv, herase, hremL, hremO]
      · simp [Graph.remove_edge, edge_id_directed, hobj, parState, hlenc,
          parObj_v, parObj_w, parObj_name, alContains, alAdjust,
          decrement_or_remove_entry,
          alRemove, hvw, hwv, herase, hremL, hremO, hone]
  · have hobj : alGet (present.map (fun x => (parKey v w x, parObj v w x)))
        (parKey v w nm) = none := by
      rw [alGet_map_key (parKey v w) (parKey_inj v w) _ present nm, if_neg hin]
    rw [List.erase_of_not_mem hin]
    simp only [Graph.remove_edge, edge_id_directed, parState, hobj]

/-- Folding the removals. -/
theorem removeParallel_parState (v w : String) (rem : List String) :
    ∀ (present : List String), v ≠ w →
    removeParallel v w rem (parState v w present) =
      parState v w (present.diff rem) := by
  induction rem with
  | nil => intro present _; simp [removeParallel]
  | cons nm t ih =>
    intro present hvw
    show removeParallel v w (nm :: t) (parState v w present) = _
    unfold removeParallel
    rw [List.foldl_cons, remove_edge_parState v w nm present hvw]
    have := ih (present.erase nm) hvw
    unfold removeParallel at this
    rw [this, List.diff_cons]

theorem length_diff_of_sub (rem : List String) :
    ∀ (ns : List String), rem.Nodup → (∀ x ∈ rem, x ∈ ns) →
    (ns.diff rem).length = ns.length - rem.length := by
  induction rem with
  | nil => intro ns _ _; simp
  | cons a t ih =>
    intro ns hnodup hsub
    rw [List.diff_cons]
    rw [ih (ns.erase a) (List.Nodup.of_cons hnodup) ?_]
    · rw [List.length_erase_of_mem (hsub a (List.mem_cons_self a t))]
      simp only [List.length_cons]
      omega
    · intro x hx
      have hxa : x ≠ a := by
        intro hh
        subst hh
        exact (List.nodup_cons.mp hnodup).1 hx
      exact (List.mem_erase_of_ne hxa).mpr (hsub x (List.mem_cons_of_mem a hx))

theorem successors_parState (v w : String) (S : List String) :
    (parState v w S).successors v = some (if S.length = 0 then [] else [w]) := by
  by_cases h : S.length = 0 <;>
    simp [Graph.successors, parState, h]

theorem predecessors_parState (v w : String) (S : List String) (hvw : v ≠ w) :
    (parState v w S).predecessors w = some (if S.length = 0 then [] else [v]) := by
  by_cases h : S.length = 0 <;>
    simp [Graph.predecessors, parState, h, hvw]

/-- **C8.** After creating `ns.length` parallel edges between distinct nodes
`v` and `w` with pairwise distinct names in a fresh directed multigraph and
removing the distinct subset `rem` of them: while some remain,
`successors(v)` lists `w` exactly once and `predecessors(w)` lists `v`
exactly once; once all are removed, neither lists the other. -/
theorem c8_parallel_edge_counters (v w : String) (ns rem : List String)
    (hvw : v ≠ w) (hns : ns.Nodup) (hrem : rem.Nodup)
    (hsub : ∀ x ∈ rem, x ∈ ns) :
    (rem.length < ns.length →
      (removeParallel v w rem (buildParallel v w ns)).successors v = some [w] ∧
      (removeParallel v w rem (buildParallel v w ns)).predecessors w = some [v]) ∧
    (rem.length = ns.length →
      w ∉ ((removeParallel v w rem (buildParallel v w ns)).successors v).getD [] ∧
      v ∉ ((removeParallel v w rem (buildParallel v w ns)).predecessors w).getD []) := by
  rcases hcase : ns with _ | ⟨nm, t⟩
  · subst hcase
    have hremnil : rem = [] := by
      rcases rem with _ | ⟨a, r⟩
      · rfl
      · exact absurd (hsub a (List.mem_cons_self a r)) (List.not_mem_nil a)
    subst hremnil
    refine ⟨fun h => absurd h (by simp), fun _ => ?_⟩
    simp [removeParallel, buildParallel, Graph.successors, Graph.predecessors,
      Graph.new, Graph.mkDefault]
  · have hne : ns ≠ [] := by rw [hcase]; simp
    rw [← hcase]
    rw [buildParallel_eq v w ns hvw hns hne,
      removeParallel_parState v w rem ns hvw]
    have hlen : (ns.diff rem).length = ns.length - rem.length :=
      length_diff_of_sub rem ns hrem hsub
    constructor
    · intro hlt
      have hpos : (ns.diff rem).length ≠ 0 := by omega
      rw [successors_parState, predecessors_parState _ _ _ hvw]
      simp [hpos]
    · intro heq
      have hzero : (ns.diff rem).length = 0 := by omega
      rw [successors_parState, predecessors_parState _ _ _ hvw]
      simp [hzero]

/-- Witness for C8 at a concrete input: two named edges `a`, `b`, first with
one removed, then with both removed. -/
theorem c8_parallel_edge_counters_witness :
    ((removeParallel "v" "w" ["a"] (buildParallel "v" "w" ["a", "b"])).successors "v"
        = some ["w"] ∧
      (removeParallel "v" "w" ["a"] (buildParallel "v" "w" ["a", "b"])).predecessors "w"
        = some ["v"]) ∧
    ("w" ∉ ((removeParallel "v" "w" ["a", "b"] (buildParallel "v" "w" ["a", "b"])).successors "v").getD [] ∧
      "v" ∉ ((removeParallel "v" "w" ["a", "b"] (buildParallel "v" "w" ["a", "b"])).predecessors "w").getD []) := by
  refine ⟨?_, ?_⟩
  · exact (c8_parallel_edge_counters "v" "w" ["a", "b"] ["a"] (by decide)
      (by decide) (by decide) (by decide)).1 (by decide)
  · exact (c8_parallel_edge_counters "v" "w" ["a", "b"] ["a", "b"] (by decide)
      (by decide) (by decide) (by decide)).2 (by decide)

/-! ## Invariant preservation: auxiliary facts -/

theorem alContains_alInsert {V : Type} (m : AList V) (k : String) (v : V) (q : String) :
    alContains (alInsert m k v) q = if k = q then true else alContains m q := by
  unfold alContains
  rw [alGet_alInsert]
  by_cases h : k = q <;> simp [h]

theorem alContains_alAdjust {V : Type} (m : AList V) (k : String) (f : V → V) (q : String) :
    alContains (alAdjust m k f) q = alContains m q := by
  unfold alContains
  rw [alGet_alAdjust]
  by_cases h : k = q
  · subst h
    rcases alGet m k with _ | v <;> simp
  · simp [h]

theorem alContains_alRemove {V : Type} (m : AList V) (k : String) (q : String)
    (h : (alKeys m).Nodup) :
    alContains (alRemove m k) q = if k = q then false else alContains m q := by
  unfold alContains
  rw [alGet_alRemove m k q h]
  by_cases hq : k = q <;> simp [hq]

theorem alContains_alEntryMod {V : Type} (m : AList V) (k : String) (dflt : V)
    (f : V → V) (q : String) :
    alContains (alEntryMod m k dflt f) q = if k = q then true else alContains m q := by
  unfold alContains
  rw [alGet_alEntryMod]
  by_cases h : k = q
  · subst h
    rcases alGet m k with _ | v <;> simp
  · simp [h]

theorem alGet_of_mem_nodup {V : Type} (m : AList V) (k : String) (v : V)
    (hn : (alKeys m).Nodup) (hmem : (k, v) ∈ m) : alGet m k = some v := by
  induction m with
  | nil => simp at hmem
  | cons p t ih =>
    obtain ⟨k', v'⟩ := p
    simp only [alKeys_cons, List.nodup_cons] at hn
    rcases List.mem_cons.mp hmem with h | h
    · injection h with h1 h2
      subst h1; subst h2
      simp
    · have hk : k' ≠ k := by
        intro hh
        subst hh
        exact hn.1 (List.mem_map_of_mem Prod.fst h)
      simp [hk, ih hn.2 h]

theorem edgeCount_alInsert_fresh (objs : AList Edge) (k : String) (e : Edge)
    (h : k ∉ alKeys objs) (u x : String) :
    edgeCount (alInsert objs k e) u x =
      edgeCount objs u x + (if e.v = u ∧ e.w = x then 1 else 0) := by
  rw [alInsert_append objs k e h]
  unfold edgeCount
  rw [List.countP_append, List.countP_cons]
  by_cases hp : e.v = u ∧ e.w = x
  · simp [hp.1, hp.2]
  · rw [Classical.not_and_iff_or_not_not] at hp
    rcases hp with hp | hp <;> simp [hp]

theorem edgeCount_pos (objs : AList Edge) (k : String) (e : Edge) (u x : String)
    (hget : alGet objs k = some e) (hv : e.v = u) (hw : e.w = x) :
    0 < edgeCount objs u x := by
  unfold edgeCount
  rw [List.countP_pos_iff]
  exact ⟨(k, e), alGet_mem objs k e hget, by simp [hv, hw]⟩

theorem edgeCount_alRemove (objs : AList Edge) (k : String) (e : Edge)
    (hn : (alKeys objs).Nodup) (hget : alGet objs k = some e) (u x : String) :
    edgeCount (alRemove objs k) u x =
      edgeCount objs u x - (if e.v = u ∧ e.w = x then 1 else 0) := by
  induction objs with
  | nil => simp at hget
  | cons p t ih =>
    obtain ⟨k', e'⟩ := p
    simp only [alKeys_cons, List.nodup_cons] at hn
    by_cases hk : k' = k
    · subst hk
      rw [alGet_cons, if_pos rfl] at hget
      injection hget with hget
      rw [hget]
      unfold edgeCount
      rw [alRemove, if_pos rfl, List.countP_cons]
      by_cases hp : e.v = u ∧ e.w = x
      · simp [hp.1, hp.2]
      · have hbe : ¬ (e.v == u && e.w == x) = true := by
          rw [Classical.not_and_iff_or_not_not] at hp
          rcases hp with hp | hp <;> simp [hp]
        simp [hbe, hp]
    · rw [alGet_cons, if_neg hk] at hget
      unfold edgeCount
      rw [alRemove, if_neg hk, List.countP_cons, List.countP_cons]
      have hrec := ih hn.2 hget
      unfold edgeCount at hrec
      rw [hrec]
      have hle : (if e.v = u ∧ e.w = x then 1 else 0) ≤
          List.countP (fun p => p.2.v == u && p.2.w == x) t := by
        by_cases hp : e.v = u ∧ e.w = x
        · rw [if_pos hp]
          have hcp := edgeCount_pos t k e u x hget hp.1 hp.2
          unfold edgeCount at hcp
          omega
        · rw [if_neg hp]
          omega
      omega

theorem edgeCount_zero_iff (objs : AList Edge) (u x : String) :
    edgeCount objs u x = 0 ↔ ∀ p ∈ objs, ¬ (p.2.v = u ∧ p.2.w = x) := by
  unfold edgeCount
  rw [List.countP_eq_zero]
  constructor
  · intro h p hp hc
    have := h p hp
    simp [hc.1, hc.2] at this
  · intro h p hp
    have := h p hp
    rw [Classical.not_and_iff_or_not_not] at this
    rcases this with hh | hh <;> simp [hh]

theorem edgeCount_zero_of_not_node_w (g : Graph) (hg : Inv g) (v : String)
    (hnew : alContains g._nodes v = false) (u : String) :
    edgeCount g._edge_objs u v = 0 := by
  rw [edgeCount_zero_iff]
  intro p hp hc
  have hget := alGet_of_mem_nodup _ _ _ hg.wf_objs hp
  have hn := (hg.obj_nodes p.1 p.2 hget).2
  simp [hc.2, hnew] at hn

theorem edgeCount_zero_of_not_node_v (g : Graph) (hg : Inv g) (v : String)
    (hnew : alContains g._nodes v = false) (u : String) :
    edgeCount g._edge_objs v u = 0 := by
  rw [edgeCount_zero_iff]
  intro p hp hc
  have hget := alGet_of_mem_nodup _ _ _ hg.wf_objs hp
  have hn := (hg.obj_nodes p.1 p.2 hget).1
  simp [hc.1, hnew] at hn

theorem no_obj_with_w (g : Graph) (hg : Inv g) (v : String)
    (hnew : alContains g._nodes v = false) (k : String) :
    ¬ ∃ e, alGet g._edge_objs k = some e ∧ e.w = v := by
  rintro ⟨e, hget, hw⟩
  have hn := (hg.obj_nodes k e hget).2
  simp [hw, hnew] at hn

theorem no_obj_with_v (g : Graph) (hg : Inv g) (v : String)
    (hnew : alContains g._nodes v = false) (k : String) :
    ¬ ∃ e, alGet g._edge_objs k = some e ∧ e.v = v := by
  rintro ⟨e, hget, hv⟩
  have hn := (hg.obj_nodes k e hget).1
  simp [hv, hnew] at hn

/-- `set_node` with no value on an existing node is the identity. -/
theorem set_node_exists_none (g : Graph) (x : String)
    (h : alContains g._nodes x = true) : g.set_node x none = g := by
  unfold Graph.set_node
  rw [show (alGet g._nodes x).isSome = true from h]
  simp

/-- Explicit form of `set_node` on a fresh node. -/
theorem set_node_fresh_eq (g : Graph) (v : String) (val : Option String)
    (hnew : (alGet g._nodes v).isSome = false) :
    g.set_node v val = { g with
      _nodes := alInsert g._nodes v
        (match val with | some s => s | none => g.default_node_label v)
      _in := alInsert g._in v []
      _preds := alInsert g._preds v []
      _out := alInsert g._out v []
      _sucs := alInsert g._sucs v []
      _node_count := g._node_count + 1
      _parent := if g._is_compound then alInsert g._parent v GRAPH_NODE
        else g._parent
      _children := if g._is_compound then
          alEntryMod (alInsert g._children v []) GRAPH_NODE []
            (fun m => if alContains m v then m else alInsert m v true)
        else g._children } := by
  unfold Graph.set_node
  simp only [hnew, Bool.false_eq_true, if_false]
  rcases val with _ | s <;> by_cases hcomp : g._is_compound <;> simp [hcomp]

/-- `set_node` preserves the invariant. -/
theorem set_node_inv (g : Graph) (v : String) (val : Option String)
    (hg : Inv g) : Inv (g.set_node v val) := by
  by_cases hex : (alGet g._nodes v).isSome = true
  · -- the node exists: at most the stored label changes
    rcases val with _ | s
    · rw [set_node_exists_none g v hex]
      exact hg
    · unfold Graph.set_node
      rw [if_pos hex]
      have hkv : v ∈ alKeys g._nodes := (alGet_isSome_iff _ _).mp hex
      have hcon : ∀ q, alContains (alInsert g._nodes v s) q = alContains g._nodes q := by
        intro q
        rw [alContains_alInsert]
        by_cases hq : v = q
        · subst hq
          simp [show alContains g._nodes v = true from hex]
        · simp [hq]
      refine ⟨?_, hg.wf_preds, hg.wf_sucs, hg.wf_in, hg.wf_out, hg.wf_objs,
        hg.wf_labels, hg.wf_parent, hg.wf_children, hg.wf_preds_inner,
        hg.wf_sucs_inner, hg.wf_in_inner, hg.wf_out_inner, hg.wf_children_inner,
        ?_, ?_, ?_, ?_, hg.preds_val, hg.sucs_val, hg.in_mem, hg.out_mem,
        hg.labels_objs, hg.obj_key, ?_, hg.childparent, ?_, hg.noncompound⟩
      · show (alKeys (alInsert g._nodes v s)).Nodup
        exact alNodup_alInsert _ _ _ hg.wf_nodes
      · intro x; rw [hg.contains_preds x, hcon x]
      · intro x; rw [hg.contains_sucs x, hcon x]
      · intro x; rw [hg.contains_in x, hcon x]
      · intro x; rw [hg.contains_out x, hcon x]
      · intro k e hke
        rw [hcon, hcon]
        exact hg.obj_nodes k e hke
      · intro x p hxp
        rw [hcon]
        exact hg.parent_nodes x p hxp
  · -- fresh node
    rw [Bool.not_eq_true] at hex
    have hnew : alContains g._nodes v = false := hex
    rw [set_node_fresh_eq g v val hex]
    set lbl := (match val with | some s => s | none => g.default_node_label v) with hlbl
    have hvnotin : v ∉ alKeys g._nodes := by
      rw [← alContains_eq_false_iff]; exact hnew
    have hparent_keyfree : ∀ p, alGet g._parent v = some p → False := by
      intro p hp
      have := hg.parent_nodes v p hp
      simp [hnew] at this
    refine ⟨?_, ?_, ?_, ?_, ?_, ?_, ?_, ?_, ?_, ?_, ?_, ?_, ?_, ?_, ?_, ?_, ?_, ?_, ?_, ?_, ?_, ?_, ?_, ?_, ?_, ?_, ?_, ?_⟩
    · exact alNodup_alInsert _ _ _ hg.wf_nodes
    · exact alNodup_alInsert _ _ _ hg.wf_preds
    · exact alNodup_alInsert _ _ _ hg.wf_sucs
    · exact alNodup_alInsert _ _ _ hg.wf_in
    · exact alNodup_alInsert _ _ _ hg.wf_out
    · exact hg.wf_objs
    · exact hg.wf_labels
    ·
      by_cases hcomp : g._is_compound <;> simp [hcomp]
      · exact alNodup_alInsert _ _ _ hg.wf_parent
      · exact hg.wf_parent
    ·
      by_cases hcomp : g._is_compound <;> simp [hcomp]
      · exact alNodup_alEntryMod _ _ _ _ (alNodup_alInsert _ _ _ hg.wf_children)
      · exact hg.wf_children
    ·
      intro x m hm
      simp only [alGet_alInsert] at hm
      by_cases hx : v = x
      · rw [if_pos hx] at hm
        injection hm with hm
        rw [← hm]; simp
      · rw [if_neg hx] at hm
        exact hg.wf_preds_inner x m hm
    ·
      intro x m hm
      simp only [alGet_alInsert] at hm
      by_cases hx : v = x
      · rw [if_pos hx] at hm
        injection hm with hm
        rw [← hm]; simp
      · rw [if_neg hx] at hm
        exact hg.wf_sucs_inner x m hm
    ·
      intro x m hm
      simp only [alGet_alInsert] at hm
      by_cases hx : v = x
      · rw [if_pos hx] at hm
        injection hm with hm
        rw [← hm]; simp
      · rw [if_neg hx] at hm
        exact hg.wf_in_inner x m hm
    ·
      intro x m hm
      simp only [alGet_alInsert] at hm
      by_cases hx : v = x
      · rw [if_pos hx] at hm
        injection hm with hm
        rw [← hm]; simp
      · rw [if_neg hx] at hm
        exact hg.wf_out_inner x m hm
    ·
      intro x m hm
      by_cases hcomp : g._is_compound
      · simp only [if_pos hcomp, alGet_alEntryMod] at hm
        by_cases hroot : GRAPH_NODE = x
        · rw [if_pos hroot] at hm
          injection hm with hm
          have hB : (alKeys ((alGet (alInsert g._children v []) GRAPH_NODE).getD
              ([] : AList Bool))).Nodup := by
            rw [alGet_alInsert]
            by_cases hvg : v = GRAPH_NODE
            · simp [hvg]
            · rw [if_neg hvg]
              rcases hc : alGet g._children GRAPH_NODE with _ | mm
              · simp
              · simp only [Option.getD_some]
                exact hg.wf_children_inner _ _ hc
          rw [← hm]
          by_cases hcv : alContains ((alGet (alInsert g._children v []) GRAPH_NODE).getD
              ([] : AList Bool)) v = true
          · rw [if_pos hcv]; exact hB
          · rw [if_neg hcv]; exact alNodup_alInsert _ _ _ hB
        · rw [if_neg hroot, alGet_alInsert] at hm
          by_cases hx : v = x
          · rw [if_pos hx] at hm
            injection hm with hm
            rw [← hm]; simp
          · rw [if_neg hx] at hm
            exact hg.wf_children_inner x m hm
      · simp only [if_neg hcomp] at hm
        exact hg.wf_children_inner x m hm
    ·
      intro x
      rw [alContains_alInsert, alContains_alInsert]
      by_cases hx : v = x <;> simp [hx, hg.contains_preds]
    ·
      intro x
      rw [alContains_alInsert, alContains_alInsert]
      by_cases hx : v = x <;> simp [hx, hg.contains_sucs]
    ·
      intro x
      rw [alContains_alInsert, alContains_alInsert]
      by_cases hx : v = x <;> simp [hx, hg.contains_in]
    ·
      intro x
      rw [alContains_alInsert, alContains_alInsert]
      by_cases hx : v = x <;> simp [hx, hg.contains_out]
    ·
      intro x m u hm
      simp only [alGet_alInsert] at hm
      by_cases hx : v = x
      · rw [if_pos hx] at hm
        injection hm with hm
        rw [← hm, ← hx]
        show (none : Option Nat) = natToCount (edgeCount g._edge_objs u v)
        rw [edgeCount_zero_of_not_node_w g hg v hnew u]
        rfl
      · rw [if_neg hx] at hm
        exact hg.preds_val x m u hm
    ·
      intro x m u hm
      simp only [alGet_alInsert] at hm
      by_cases hx : v = x
      · rw [if_pos hx] at hm
        injection hm with hm
        rw [← hm, ← hx]
        show (none : Option Nat) = natToCount (edgeCount g._edge_objs v u)
        rw [edgeCount_zero_of_not_node_v g hg v hnew u]
        rfl
      · rw [if_neg hx] at hm
        exact hg.sucs_val x m u hm
    ·
      intro x m k hm
      simp only [alGet_alInsert] at hm
      by_cases hx : v = x
      · rw [if_pos hx] at hm
        injection hm with hm
        rw [← hm, ← hx]
        constructor
        · intro hc; simp [alContains] at hc
        · intro hc; exact absurd hc (no_obj_with_w g hg v hnew k)
      · rw [if_neg hx] at hm
        exact hg.in_mem x m k hm
    ·
      intro x m k hm
      simp only [alGet_alInsert] at hm
      by_cases hx : v = x
      · rw [if_pos hx] at hm
        injection hm with hm
        rw [← hm, ← hx]
        constructor
        · intro hc; simp [alContains] at hc
        · intro hc; exact absurd hc (no_obj_with_v g hg v hnew k)
      · rw [if_neg hx] at hm
        exact hg.out_mem x m k hm
    · exact hg.labels_objs
    · exact hg.obj_key
    ·
      intro k e hke
      have h1 := hg.obj_nodes k e hke
      rw [alContains_alInsert, alContains_alInsert]
      constructor
      · by_cases hq : v = e.v <;> simp [hq, h1.1]
      · by_cases hq : v = e.w <;> simp [hq, h1.2]
    ·
      intro p m x hm hxm
      by_cases hcomp : g._is_compound
      · simp only [if_pos hcomp] at hm ⊢
        rw [alGet_alEntryMod] at hm
        by_cases hroot : GRAPH_NODE = p
        · rw [if_pos hroot] at hm
          injection hm with hm
          rw [← hm] at hxm
          by_cases hvg : v = GRAPH_NODE
          · -- setting the sentinel itself as a node
            rw [alGet_alInsert, if_pos hvg] at hxm
            by_cases hx : v = x
            · rw [alGet_alInsert, if_pos hx, hroot]
            · simp [alContains, alInsert, hx] at hxm
          · rw [alGet_alInsert, if_neg (show ¬ v = GRAPH_NODE from hvg)] at hxm
            rcases hbase : alGet g._children GRAPH_NODE with _ | mm
            · rw [hbase] at hxm
              simp only [Option.getD_none] at hxm
              by_cases hx : v = x
              · rw [alGet_alInsert, if_pos hx, ← hroot]
              · simp [alContains, alInsert, hx] at hxm
            · rw [hbase] at hxm
              simp only [Option.getD_some] at hxm
              have hnotm : alContains mm v = false := by
                rw [← Bool.not_eq_true]
                intro hc
                have := hg.childparent GRAPH_NODE mm v hbase hc
                exact hparent_keyfree _ this
              rw [hnotm] at hxm
              simp only [Bool.false_eq_true, if_false] at hxm
              rw [alContains_alInsert] at hxm
              by_cases hx : v = x
              · rw [alGet_alInsert, if_pos hx, ← hroot]
              · rw [if_neg hx] at hxm
                have := hg.childparent GRAPH_NODE mm x hbase hxm
                rw [alGet_alInsert, if_neg hx, this, hroot]
        · rw [if_neg hroot] at hm
          rw [alGet_alInsert] at hm
          by_cases hp : v = p
          · rw [if_pos hp] at hm
            injection hm with hm
            rw [← hm] at hxm
            simp [alContains] at hxm
          · rw [if_neg hp] at hm
            have hxv : ¬ v = x := by
              intro hvx
              have := hg.childparent p m x hm hxm
              rw [← hvx] at this
              exact hparent_keyfree _ this
            rw [alGet_alInsert, if_neg hxv]
            exact hg.childparent p m x hm hxm
      · simp only [if_neg hcomp] at hm ⊢
        exact hg.childparent p m x hm hxm
    ·
      intro x p hxp
      by_cases hcomp : g._is_compound
      · simp only [if_pos hcomp] at hxp
        rw [alGet_alInsert] at hxp
        rw [alContains_alInsert]
        by_cases hx : v = x
        · simp [hx]
        · rw [if_neg hx] at hxp
          simp [hx, hg.parent_nodes x p hxp]
      · simp only [if_neg hcomp] at hxp
        rw [alContains_alInsert]
        by_cases hx : v = x
        · simp [hx]
        · simp [hx, hg.parent_nodes x p hxp]
    ·
      intro hnc
      have hnc2 : g._is_compound = false := hnc
      rw [if_neg (by simp [hnc2]), if_neg (by simp [hnc2])]
      exact hg.noncompound hnc2

theorem natToCount_getD (c : Nat) : (natToCount c).getD 0 = c := by
  unfold natToCount
  by_cases h : c = 0 <;> simp [h]

theorem increment_get (m : AList Nat) (k q : String) :
    alGet (increment_or_init_entry m k) q =
      if k = q then some (((alGet m k).getD 0) + 1) else alGet m q := by
  unfold increment_or_init_entry
  rcases hm : alGet m k with _ | c
  · rw [alGet_alInsert]
    simp
  · rw [alGet_alAdjust]
    by_cases hq : k = q
    · subst hq; simp [hm]
    · simp [hq]

theorem increment_nodup (m : AList Nat) (k : String)
    (h : (alKeys m).Nodup) : (alKeys (increment_or_init_entry m k)).Nodup := by
  unfold increment_or_init_entry
  rcases alGet m k with _ | c
  · exact alNodup_alInsert _ _ _ h
  · exact alNodup_alAdjust _ _ _ h

theorem set_node_frame (g : Graph) (x : String) (val : Option String) :
    (g.set_node x val)._edge_labels = g._edge_labels ∧
    (g.set_node x val)._edge_objs = g._edge_objs ∧
    (g.set_node x val)._is_directed = g._is_directed ∧
    (g.set_node x val)._is_multigraph = g._is_multigraph ∧
    (g.set_node x val)._is_compound = g._is_compound := by
  unfold Graph.set_node
  by_cases hex : (alGet g._nodes x).isSome = true <;>
    rcases val with _ | s <;>
    by_cases hcomp : g._is_compound <;>
    simp [hex, hcomp]

theorem set_node_contains_self (g : Graph) (x : String) (val : Option String) :
    alContains (g.set_node x val)._nodes x = true := by
  unfold Graph.set_node
  by_cases hex : (alGet g._nodes x).isSome = true <;>
    rcases val with _ | s <;>
    by_cases hcomp : g._is_compound <;>
    simp [hex, hcomp, alContains_alInsert] <;>
    exact hex

theorem set_node_contains_mono (g : Graph) (x : String) (val : Option String)
    (q : String) (h : alContains g._nodes q = true) :
    alContains (g.set_node x val)._nodes q = true := by
  unfold Graph.set_node
  by_cases hex : (alGet g._nodes x).isSome = true <;>
    rcases val with _ | s <;>
    by_cases hcomp : g._is_compound <;>
    simp [hex, hcomp, alContains_alInsert] <;>
    by_cases hq : x = q <;>
    simp [hq, h]

/-- The endpoints of the normalized edge record are the given endpoints,
possibly swapped. -/
theorem edge_args_to_obj_endpoints (d : Bool) (v w : String) (nm : Option String) :
    ((edge_args_to_obj d v w nm).v = v ∧ (edge_args_to_obj d v w nm).w = w) ∨
    ((edge_args_to_obj d v w nm).v = w ∧ (edge_args_to_obj d v w nm).w = v) := by
  simp only [edge_args_to_obj]
  by_cases h : ¬ d = true ∧ w < v
  · rw [if_pos h]; right; exact ⟨rfl, rfl⟩
  · rw [if_neg h]; left; exact ⟨rfl, rfl⟩

/-- `setEdgeCreate` installs a fresh edge whose record is consistent with
its key and whose endpoints are nodes, preserving the invariant. -/
theorem setEdgeCreate_inv (gc : Graph) (e : String) (eo : Edge)
    (lbl : Option String) (hinvc : Inv gc)
    (hfresh : alContains gc._edge_objs e = false)
    (hfreshL : alContains gc._edge_labels e = false)
    (hkeyeo : edge_args_to_id gc._is_directed eo.v eo.w eo.name = e)
    (heov : alContains gc._nodes eo.v = true)
    (heow : alContains gc._nodes eo.w = true) :
    Inv (setEdgeCreate gc e eo lbl) := by
  have hpreds : alContains gc._preds eo.w = true := by
    rw [hinvc.contains_preds]; exact heow
  have hsucs : alContains gc._sucs eo.v = true := by
    rw [hinvc.contains_sucs]; exact heov
  have hinw : alContains gc._in eo.w = true := by
    rw [hinvc.contains_in]; exact heow
  have houtv : alContains gc._out eo.v = true := by
    rw [hinvc.contains_out]; exact heov
  have hfreshK : e ∉ alKeys gc._edge_objs := by
    rw [← alContains_eq_false_iff]; exact hfresh
  have hfreshKL : e ∉ alKeys gc._edge_labels := by
    rw [← alContains_eq_false_iff]; exact hfreshL
  have hgetObjE : alGet gc._edge_objs e = none := by
    rw [alGet_eq_none_iff]; exact hfreshK
  have key : ∀ lblv : String, Inv { gc with
      _edge_labels := alInsert gc._edge_labels e lblv
      _edge_objs := alInsert gc._edge_objs e eo
      _preds := alAdjust gc._preds eo.w (fun m => increment_or_init_entry m eo.v)
      _sucs := alAdjust gc._sucs eo.v (fun m => increment_or_init_entry m eo.w)
      _in := alEntryMod gc._in eo.w [] (fun m => alInsert m e eo)
      _out := alEntryMod gc._out eo.v [] (fun m => alInsert m e eo)
      _edge_count := gc._edge_count + 1 } := by
    intro lblv
    refine ⟨?_, ?_, ?_, ?_, ?_, ?_, ?_, ?_, ?_, ?_, ?_, ?_, ?_, ?_, ?_, ?_,
      ?_, ?_, ?_, ?_, ?_, ?_, ?_, ?_, ?_, ?_, ?_, ?_⟩
    · exact hinvc.wf_nodes
    · exact alNodup_alAdjust _ _ _ hinvc.wf_preds
    · exact alNodup_alAdjust _ _ _ hinvc.wf_sucs
    · exact alNodup_alEntryMod _ _ _ _ hinvc.wf_in
    · exact alNodup_alEntryMod _ _ _ _ hinvc.wf_out
    · exact alNodup_alInsert _ _ _ hinvc.wf_objs
    · exact alNodup_alInsert _ _ _ hinvc.wf_labels
    · exact hinvc.wf_parent
    · exact hinvc.wf_children
    · -- wf_preds_inner
      intro x m hm
      rw [alGet_alAdjust] at hm
      by_cases hx : eo.w = x
      · rw [if_pos hx] at hm
        obtain ⟨m0, hget0, hm0⟩ := Option.map_eq_some'.mp hm
        rw [← hm0]
        exact increment_nodup _ _ (hinvc.wf_preds_inner x m0 hget0)
      · rw [if_neg hx] at hm
        exact hinvc.wf_preds_inner x m hm
    · -- wf_sucs_inner
      intro x m hm
      rw [alGet_alAdjust] at hm
      by_cases hx : eo.v = x
      · rw [if_pos hx] at hm
        obtain ⟨m0, hget0, hm0⟩ := Option.map_eq_some'.mp hm
        rw [← hm0]
        exact increment_nodup _ _ (hinvc.wf_sucs_inner x m0 hget0)
      · rw [if_neg hx] at hm
        exact hinvc.wf_sucs_inner x m hm
    · -- wf_in_inner
      intro x m hm
      rw [alGet_alEntryMod] at hm
      by_cases hx : eo.w = x
      · rw [if_pos hx] at hm
        injection hm with hm
        rw [← hm]
        refine alNodup_alInsert _ _ _ ?_
        rcases hB : alGet gc._in eo.w with _ | mB
        · simp [hB]
        · simp only [hB, Option.getD_some]
          exact hinvc.wf_in_inner _ _ hB
      · rw [if_neg hx] at hm
        exact hinvc.wf_in_inner x m hm
    · -- wf_out_inner
      intro x m hm
      rw [alGet_alEntryMod] at hm
      by_cases hx : eo.v = x
      · rw [if_pos hx] at hm
        injection hm with hm
        rw [← hm]
        refine alNodup_alInsert _ _ _ ?_
        rcases hB : alGet gc._out eo.v with _ | mB
        · simp [hB]
        · simp only [hB, Option.getD_some]
          exact hinvc.wf_out_inner _ _ hB
      · rw [if_neg hx] at hm
        exact hinvc.wf_out_inner x m hm
    · exact hinvc.wf_children_inner
    · -- contains_preds
      intro x
      rw [alContains_alAdjust]
      exact hinvc.contains_preds x
    · -- contains_sucs
      intro x
      rw [alContains_alAdjust]
      exact hinvc.contains_sucs x
    · -- contains_in
      intro x
      rw [alContains_alEntryMod]
      by_cases hx : eo.w = x
      · rw [if_pos hx]
        rw [← hx, heow]
      · rw [if_neg hx]
        exact hinvc.contains_in x
    · -- contains_out
      intro x
      rw [alContains_alEntryMod]
      by_cases hx : eo.v = x
      · rw [if_pos hx]
        rw [← hx, heov]
      · rw [if_neg hx]
        exact hinvc.contains_out x
    · -- preds_val
      intro x m u hm
      rw [alGet_alAdjust] at hm
      rw [edgeCount_alInsert_fresh gc._edge_objs e eo hfreshK u x]
      by_cases hx : eo.w = x
      · rw [if_pos hx] at hm
        obtain ⟨m0, hget0, hm0⟩ := Option.map_eq_some'.mp hm
        rw [← hm0, increment_get]
        have hold := hinvc.preds_val x m0 u hget0
        by_cases hu : eo.v = u
        · rw [if_pos hu, hu, hold, natToCount_getD, if_pos ⟨rfl, hx⟩]
          unfold natToCount
          simp
        · rw [if_neg hu, hold, if_neg (fun hc => hu hc.1), Nat.add_zero]
      · rw [if_neg hx] at hm
        rw [hinvc.preds_val x m u hm, if_neg (fun hc => hx hc.2), Nat.add_zero]
    · -- sucs_val
      intro x m u hm
      rw [alGet_alAdjust] at hm
      rw [edgeCount_alInsert_fresh gc._edge_objs e eo hfreshK x u]
      by_cases hx : eo.v = x
      · rw [if_pos hx] at hm
        obtain ⟨m0, hget0, hm0⟩ := Option.map_eq_some'.mp hm
        rw [← hm0, increment_get]
        have hold := hinvc.sucs_val x m0 u hget0
        by_cases hu : eo.w = u
        · rw [if_pos hu, hu, hold, natToCount_getD, if_pos ⟨hx, rfl⟩]
          unfold natToCount
          simp
        · rw [if_neg hu, hold, if_neg (fun hc => hu hc.2), Nat.add_zero]
      · rw [if_neg hx] at hm
        rw [hinvc.sucs_val x m u hm, if_neg (fun hc => hx hc.1), Nat.add_zero]
    · -- in_mem
      intro x m k hm
      rw [alGet_alEntryMod] at hm
      by_cases hx : eo.w = x
      · rw [if_pos hx] at hm
        injection hm with hm
        obtain ⟨mB, hmB⟩ : ∃ mB, alGet gc._in eo.w = some mB := by
          have := hinw
          unfold alContains at this
          rcases hB : alGet gc._in eo.w with _ | mB
          · rw [hB] at this; simp at this
          · exact ⟨mB, rfl⟩
        rw [hmB, Option.getD_some] at hm
        rw [← hm, alContains_alInsert, alGet_alInsert]
        by_cases hk : e = k
        · simp only [if_pos hk]
          constructor
          · intro _; exact ⟨eo, rfl, hx⟩
          · intro _; trivial
        · simp only [if_neg hk]
          rw [← hx]
          exact hinvc.in_mem eo.w mB k hmB
      · rw [if_neg hx] at hm
        rw [alGet_alInsert]
        by_cases hk : e = k
        · rw [if_pos hk]
          constructor
          · intro hc
            have hiff := hinvc.in_mem x m k hm
            rw [hiff] at hc
            obtain ⟨e', hge', _⟩ := hc
            rw [← hk, hgetObjE] at hge'
            exact absurd hge' (by simp)
          · rintro ⟨e', he', hw'⟩
            injection he' with he'
            rw [← he'] at hw'
            exact absurd hw' hx
        · rw [if_neg hk]
          exact hinvc.in_mem x m k hm
    · -- out_mem
      intro x m k hm
      rw [alGet_alEntryMod] at hm
      by_cases hx : eo.v = x
      · rw [if_pos hx] at hm
        injection hm with hm
        obtain ⟨mB, hmB⟩ : ∃ mB, alGet gc._out eo.v = some mB := by
          have := houtv
          unfold alContains at this
          rcases hB : alGet gc._out eo.v with _ | mB
          · rw [hB] at this; simp at this
          · exact ⟨mB, rfl⟩
        rw [hmB, Option.getD_some] at hm
        rw [← hm, alContains_alInsert, alGet_alInsert]
        by_cases hk : e = k
        · simp only [if_pos hk]
          constructor
          · intro _; exact ⟨eo, rfl, hx⟩
          · intro _; trivial
        · simp only [if_neg hk]
          rw [← hx]
          exact hinvc.out_mem eo.v mB k hmB
      · rw [if_neg hx] at hm
        rw [alGet_alInsert]
        by_cases hk : e = k
        · rw [if_pos hk]
          constructor
          · intro hc
            have hiff := hinvc.out_mem x m k hm
            rw [hiff] at hc
            obtain ⟨e', hge', _⟩ := hc
            rw [← hk, hgetObjE] at hge'
            exact absurd hge' (by simp)
          · rintro ⟨e', he', hv'⟩
            injection he' with he'
            rw [← he'] at hv'
            exact absurd hv' hx
        · rw [if_neg hk]
          exact hinvc.out_mem x m k hm
    · -- labels_objs
      intro k
      rw [alContains_alInsert, alContains_alInsert]
      by_cases hk : e = k
      · simp [hk]
      · simp only [if_neg hk]
        exact hinvc.labels_objs k
    · -- obj_key
      intro k e' hke
      rw [alGet_alInsert] at hke
      by_cases hk : e = k
      · rw [if_pos hk] at hke
        injection hke with hke
        rw [← hke, hkeyeo, hk]
      · rw [if_neg hk] at hke
        exact hinvc.obj_key k e' hke
    · -- obj_nodes
      intro k e' hke
      rw [alGet_alInsert] at hke
      by_cases hk : e = k
      · rw [if_pos hk] at hke
        injection hke with hke
        rw [← hke]
        exact ⟨heov, heow⟩
      · rw [if_neg hk] at hke
        exact hinvc.obj_nodes k e' hke
    · exact hinvc.childparent
    · exact hinvc.parent_nodes
    · exact hinvc.noncompound
  unfold setEdgeCreate
  rcases lbl with _ | s
  · simp only [hpreds, hsucs, if_true]
    exact key (gc.default_edge_label e)
  · simp only [hpreds, hsucs, if_true]
    exact key s

/-- `set_edge` preserves the invariant. -/
theorem set_edge_inv (g : Graph) (v w : String) (lbl nm : Option String)
    (hg : Inv g) : Inv (g.set_edge v w lbl nm).1 := by
  unfold Graph.set_edge
  by_cases hcont : alContains g._edge_labels (edge_args_to_id g._is_directed v w nm) = true
  · rw [if_pos hcont]
    rcases lbl with _ | s
    · exact hg
    · set e := edge_args_to_id g._is_directed v w nm with he
      have hke : e ∈ alKeys g._edge_labels := (alContains_iff_mem _ _).mp hcont
      have hculbl : ∀ k, alContains (alInsert g._edge_labels e s) k =
          alContains g._edge_labels k := by
        intro k
        rw [alContains_alInsert]
        by_cases hk : e = k
        · subst hk; simp [hcont]
        · simp [hk]
      exact ⟨hg.wf_nodes, hg.wf_preds, hg.wf_sucs, hg.wf_in, hg.wf_out,
        hg.wf_objs, by simpa [alKeys_alInsert_mem _ _ _ hke] using hg.wf_labels,
        hg.wf_parent, hg.wf_children, hg.wf_preds_inner, hg.wf_sucs_inner,
        hg.wf_in_inner, hg.wf_out_inner, hg.wf_children_inner,
        hg.contains_preds, hg.contains_sucs, hg.contains_in, hg.contains_out,
        hg.preds_val, hg.sucs_val, hg.in_mem, hg.out_mem,
        fun k => by rw [hculbl k]; exact hg.labels_objs k,
        hg.obj_key, hg.obj_nodes, hg.childparent, hg.parent_nodes,
        hg.noncompound⟩
  · rw [if_neg (by simp [hcont])]
    by_cases herr : nm.isSome = true ∧ ¬ g._is_multigraph = true
    · rw [if_pos herr]
      exact hg
    · rw [if_neg herr]
      -- the creation branch
      set e := edge_args_to_id g._is_directed v w nm with he
      set gc := (g.set_node v none).set_node w none with hgc
      have hinvc : Inv gc := set_node_inv _ _ _ (set_node_inv _ _ _ hg)
      have hframe1 := set_node_frame g v none
      have hframe2 := set_node_frame (g.set_node v none) w none
      have hlabc : gc._edge_labels = g._edge_labels := by
        rw [hgc, hframe2.1, hframe1.1]
      have hobjc : gc._edge_objs = g._edge_objs := by
        rw [hgc, hframe2.2.1, hframe1.2.1]
      have hdirc : gc._is_directed = g._is_directed := by
        rw [hgc, hframe2.2.2.1, hframe1.2.2.1]
      have hnodev : alContains gc._nodes v = true := by
        rw [hgc]
        exact set_node_contains_mono _ _ _ _ (set_node_contains_self g v none)
      have hnodew : alContains gc._nodes w = true := by
        rw [hgc]
        exact set_node_contains_self _ w none
      set eo := edge_args_to_obj gc._is_directed v w nm with heo
      have heow : alContains gc._nodes eo.w = true := by
        rcases edge_args_to_obj_endpoints gc._is_directed v w nm with h | h
        · rw [heo, h.2]; exact hnodew
        · rw [heo, h.2]; exact hnodev
      have heov : alContains gc._nodes eo.v = true := by
        rcases edge_args_to_obj_endpoints gc._is_directed v w nm with h | h
        · rw [heo, h.1]; exact hnodev
        · rw [heo, h.1]; exact hnodew
      have hfresh : alContains gc._edge_objs e = false := by
        rw [hobjc, ← hg.labels_objs]
        rw [← Bool.not_eq_true]
        exact hcont
      have hfreshL : alContains gc._edge_labels e = false := by
        rw [hlabc, ← Bool.not_eq_true]
        exact hcont
      have hfreshK : e ∉ alKeys gc._edge_objs := by
        rw [← alContains_eq_false_iff]
        exact hfresh
      have hfreshKL : e ∉ alKeys gc._edge_labels := by
        rw [← alContains_eq_false_iff]
        exact hfreshL
      have hgetObjE : alGet gc._edge_objs e = none := by
        rw [alGet_eq_none_iff]
        exact hfreshK
      have hkeyeo : edge_args_to_id gc._is_directed eo.v eo.w eo.name = e := by
        rw [heo, edge_id_of_obj_unfolded, hdirc, he]
      show Inv (setEdgeCreate gc e eo lbl)
      exact setEdgeCreate_inv gc e eo lbl hinvc hfresh hfreshL hkeyeo heov heow

theorem decrement_nodup (m : AList Nat) (k : String)
    (h : (alKeys m).Nodup) : (alKeys (decrement_or_remove_entry m k)).Nodup := by
  unfold decrement_or_remove_entry
  rcases alGet m k with _ | n
  · exact h
  · show (alKeys (if n - 1 ≤ 0 then alRemove m k
      else alAdjust m k fun c => c - 1)).Nodup
    by_cases h1 : n - 1 ≤ 0
    · rw [if_pos h1]; exact alNodup_alRemove _ _ h
    · rw [if_neg h1]; exact alNodup_alAdjust _ _ _ h

theorem decrement_get_count (m : AList Nat) (k q : String)
    (hn : (alKeys m).Nodup) (c : Nat) (hc : 0 < c)
    (hk : alGet m k = natToCount c) :
    alGet (decrement_or_remove_entry m k) q =
      if k = q then natToCount (c - 1) else alGet m q := by
  have hsome : alGet m k = some c := by
    rw [hk]
    unfold natToCount
    rw [if_neg (by omega)]
  unfold decrement_or_remove_entry
  rw [hsome]
  show alGet (if c - 1 ≤ 0 then alRemove m k else alAdjust m k fun n => n - 1) q =
    if k = q then natToCount (c - 1) else alGet m q
  by_cases h1 : c - 1 ≤ 0
  · rw [if_pos h1, alGet_alRemove m k q hn]
    by_cases hq : k = q
    · rw [if_pos hq, if_pos hq]
      unfold natToCount
      rw [if_pos (by omega)]
    · rw [if_neg hq, if_neg hq]
  · rw [if_neg h1, alGet_alAdjust]
    by_cases hq : k = q
    · rw [if_pos hq, if_pos hq, ← hq, hsome]
      unfold natToCount
      rw [if_neg (by omega)]
      rfl
    · rw [if_neg hq, if_neg hq]

theorem decrement_get_ne (m : AList Nat) (k q : String) (hq : ¬ k = q) :
    alGet (decrement_or_remove_entry m k) q = alGet m q := by
  unfold decrement_or_remove_entry
  rcases alGet m k with _ | n
  · rfl
  · show alGet (if n - 1 ≤ 0 then alRemove m k
      else alAdjust m k fun c => c - 1) q = alGet m q
    by_cases h1 : n - 1 ≤ 0
    · rw [if_pos h1]; exact alGet_alRemove_ne m k q hq
    · rw [if_neg h1, alGet_alAdjust, if_neg hq]

/-- `remove_edge` of an absent edge is a no-op. -/
theorem remove_edge_noop (g : Graph) (v w : String) (nm : Option String)
    (h : alGet g._edge_objs (edge_args_to_id g._is_directed v w nm) = none) :
    g.remove_edge v w nm = g := by
  simp only [Graph.remove_edge, h]

/-- Explicit form of `remove_edge` when the edge is present. -/
theorem remove_edge_eq_of_get (g : Graph) (v w : String) (nm : Option String)
    (edge : Edge)
    (hget : alGet g._edge_objs (edge_args_to_id g._is_directed v w nm) = some edge) :
    g.remove_edge v w nm = { g with
      _edge_labels := alRemove g._edge_labels (edge_args_to_id g._is_directed v w nm)
      _edge_objs := alRemove g._edge_objs (edge_args_to_id g._is_directed v w nm)
      _preds := if alContains g._preds edge.w then
          alAdjust g._preds edge.w (fun m => decrement_or_remove_entry m edge.v)
        else g._preds
      _sucs := if alContains g._sucs edge.v then
          alAdjust g._sucs edge.v (fun m => decrement_or_remove_entry m edge.w)
        else g._sucs
      _in := if alContains g._in edge.w then
          alAdjust g._in edge.w
            (fun m => alRemove m (edge_args_to_id g._is_directed v w nm))
        else g._in
      _out := if alContains g._out edge.v then
          alAdjust g._out edge.v
            (fun m => alRemove m (edge_args_to_id g._is_directed v w nm))
        else g._out
      _edge_count := g._edge_count - 1 } := by
  simp only [Graph.remove_edge, hget]
  by_cases h1 : alContains g._preds edge.w = true <;>
    by_cases h2 : alContains g._sucs edge.v = true <;>
    by_cases h3 : alContains g._in edge.w = true <;>
    by_cases h4 : alContains g._out edge.v = true <;>
    simp [h1, h2, h3, h4]

/-- `remove_edge` leaves nodes, hierarchy, configuration and the key sets of
the four adjacency maps unchanged. -/
theorem remove_edge_frame (g : Graph) (v w : String) (nm : Option String) :
    (g.remove_edge v w nm)._nodes = g._nodes ∧
    (g.remove_edge v w nm)._parent = g._parent ∧
    (g.remove_edge v w nm)._children = g._children ∧
    (g.remove_edge v w nm)._is_directed = g._is_directed ∧
    (g.remove_edge v w nm)._is_compound = g._is_compound ∧
    alKeys (g.remove_edge v w nm)._preds = alKeys g._preds ∧
    alKeys (g.remove_edge v w nm)._sucs = alKeys g._sucs ∧
    alKeys (g.remove_edge v w nm)._in = alKeys g._in ∧
    alKeys (g.remove_edge v w nm)._out = alKeys g._out := by
  rcases hget : alGet g._edge_objs (edge_args_to_id g._is_directed v w nm)
    with _ | edge
  · rw [remove_edge_noop g v w nm hget]
    exact ⟨rfl, rfl, rfl, rfl, rfl, rfl, rfl, rfl, rfl⟩
  · rw [remove_edge_eq_of_get g v w nm edge hget]
    refine ⟨rfl, rfl, rfl, rfl, rfl, ?_, ?_, ?_, ?_⟩ <;>
    · show alKeys (if _ then _ else _) = _
      split <;> simp [alKeys_alAdjust]

/-- `remove_edge` preserves the edge-component invariant. -/
theorem remove_edge_invE (g : Graph) (v w : String) (nm : Option String)
    (hg : InvE g) : InvE (g.remove_edge v w nm) := by
  rcases hget : alGet g._edge_objs (edge_args_to_id g._is_directed v w nm)
    with _ | edge
  · rw [remove_edge_noop g v w nm hget]
    exact hg
  · set e := edge_args_to_id g._is_directed v w nm with he
    obtain ⟨hrp, hrs, hri, hro⟩ := hg.obj_rows e edge hget
    rw [remove_edge_eq_of_get g v w nm edge hget]
    rw [if_pos hrp, if_pos hrs, if_pos hri, if_pos hro]
    have hkeymem : (edge.v = edge.v ∧ edge.w = edge.w) := ⟨rfl, rfl⟩
    have hcount : ∀ u x, edgeCount (alRemove g._edge_objs e) u x =
        edgeCount g._edge_objs u x - (if edge.v = u ∧ edge.w = x then 1 else 0) :=
      fun u x => edgeCount_alRemove g._edge_objs e edge hg.wf_objs hget u x
    have hgetObjs : ∀ q, alGet (alRemove g._edge_objs e) q =
        if e = q then none else alGet g._edge_objs q :=
      fun q => alGet_alRemove g._edge_objs e q hg.wf_objs
    refine ⟨alNodup_alRemove _ _ hg.wf_objs, alNodup_alRemove _ _ hg.wf_labels,
      ?_, ?_, ?_, ?_, ?_, ?_, ?_, ?_, ?_, ?_, ?_⟩
    · -- wf_preds_inner
      intro x m hm
      rw [alGet_alAdjust] at hm
      by_cases hx : edge.w = x
      · rw [if_pos hx] at hm
        obtain ⟨m0, hget0, hm0⟩ := Option.map_eq_some'.mp hm
        rw [← hm0]
        exact decrement_nodup _ _ (hg.wf_preds_inner x m0 hget0)
      · rw [if_neg hx] at hm
        exact hg.wf_preds_inner x m hm
    · -- wf_sucs_inner
      intro x m hm
      rw [alGet_alAdjust] at hm
      by_cases hx : edge.v = x
      · rw [if_pos hx] at hm
        obtain ⟨m0, hget0, hm0⟩ := Option.map_eq_some'.mp hm
        rw [← hm0]
        exact decrement_nodup _ _ (hg.wf_sucs_inner x m0 hget0)
      · rw [if_neg hx] at hm
        exact hg.wf_sucs_inner x m hm
    · -- wf_in_inner
      intro x m hm
      rw [alGet_alAdjust] at hm
      by_cases hx : edge.w = x
      · rw [if_pos hx] at hm
        obtain ⟨m0, hget0, hm0⟩ := Option.map_eq_some'.mp hm
        rw [← hm0]
        exact alNodup_alRemove _ _ (hg.wf_in_inner x m0 hget0)
      · rw [if_neg hx] at hm
        exact hg.wf_in_inner x m hm
    · -- wf_out_inner
      intro x m hm
      rw [alGet_alAdjust] at hm
      by_cases hx : edge.v = x
      · rw [if_pos hx] at hm
        obtain ⟨m0, hget0, hm0⟩ := Option.map_eq_some'.mp hm
        rw [← hm0]
        exact alNodup_alRemove _ _ (hg.wf_out_inner x m0 hget0)
      · rw [if_neg hx] at hm
        exact hg.wf_out_inner x m hm
    · -- preds_val
      intro x m u hm
      rw [alGet_alAdjust] at hm
      rw [hcount u x]
      by_cases hx : edge.w = x
      · rw [if_pos hx] at hm
        obtain ⟨m0, hget0, hm0⟩ := Option.map_eq_some'.mp hm
        have hold := hg.preds_val x m0 u hget0
        by_cases hu : edge.v = u
        · have hcpos : 0 < edgeCount g._edge_objs u x :=
            edgeCount_pos g._edge_objs e edge u x hget hu hx
          rw [← hm0, decrement_get_count m0 edge.v u
            (hg.wf_preds_inner x m0 hget0) (edgeCount g._edge_objs u x) hcpos
            (by rw [← hu] at hold ⊢; exact hold)]
          rw [if_pos hu, if_pos ⟨hu, hx⟩]
        · rw [← hm0, decrement_get_ne m0 edge.v u hu, hold,
            if_neg (fun hc => hu hc.1), Nat.sub_zero]
      · rw [if_neg hx] at hm
        rw [hg.preds_val x m u hm, if_neg (fun hc => hx hc.2), Nat.sub_zero]
    · -- sucs_val
      intro x m u hm
      rw [alGet_alAdjust] at hm
      rw [hcount x u]
      by_cases hx : edge.v = x
      · rw [if_pos hx] at hm
        obtain ⟨m0, hget0, hm0⟩ := Option.map_eq_some'.mp hm
        have hold := hg.sucs_val x m0 u hget0
        by_cases hu : edge.w = u
        · have hcpos : 0 < edgeCount g._edge_objs x u :=
            edgeCount_pos g._edge_objs e edge x u hget hx hu
          rw [← hm0, decrement_get_count m0 edge.w u
            (hg.wf_sucs_inner x m0 hget0) (edgeCount g._edge_objs x u) hcpos
            (by rw [← hu] at hold ⊢; exact hold)]
          rw [if_pos hu, if_pos ⟨hx, hu⟩]
        · rw [← hm0, decrement_get_ne m0 edge.w u hu, hold,
            if_neg (fun hc => hu hc.2), Nat.sub_zero]
      · rw [if_neg hx] at hm
        rw [hg.sucs_val x m u hm, if_neg (fun hc => hx hc.1), Nat.sub_zero]
    · -- in_mem
      intro x m k hm
      rw [alGet_alAdjust] at hm
      by_cases hx : edge.w = x
      · rw [if_pos hx] at hm
        obtain ⟨m0, hget0, hm0⟩ := Option.map_eq_some'.mp hm
        rw [← hm0, alContains_alRemove m0 e k (hg.wf_in_inner x m0 hget0),
          hgetObjs k]
        by_cases hk : e = k
        · simp [hk]
        · rw [if_neg hk, if_neg hk]
          exact hg.in_mem x m0 k hget0
      · rw [if_neg hx] at hm
        rw [hgetObjs k]
        by_cases hk : e = k
        · rw [if_pos hk]
          constructor
          · intro hc
            rw [hg.in_mem x m k hm] at hc
            obtain ⟨e', hge', hw'⟩ := hc
            rw [← hk, hget] at hge'
            injection hge' with hge'
            rw [← hge'] at hw'
            exact absurd hw' hx
          · rintro ⟨e', he', _⟩
            exact absurd he' (by simp)
        · rw [if_neg hk]
          exact hg.in_mem x m k hm
    · -- out_mem
      intro x m k hm
      rw [alGet_alAdjust] at hm
      by_cases hx : edge.v = x
      · rw [if_pos hx] at hm
        obtain ⟨m0, hget0, hm0⟩ := Option.map_eq_some'.mp hm
        rw [← hm0, alContains_alRemove m0 e k (hg.wf_out_inner x m0 hget0),
          hgetObjs k]
        by_cases hk : e = k
        · simp [hk]
        · rw [if_neg hk, if_neg hk]
          exact hg.out_mem x m0 k hget0
      · rw [if_neg hx] at hm
        rw [hgetObjs k]
        by_cases hk : e = k
        · rw [if_pos hk]
          constructor
          · intro hc
            rw [hg.out_mem x m k hm] at hc
            obtain ⟨e', hge', hv'⟩ := hc
            rw [← hk, hget] at hge'
            injection hge' with hge'
            rw [← hge'] at hv'
            exact absurd hv' hx
          · rintro ⟨e', he', _⟩
            exact absurd he' (by simp)
        · rw [if_neg hk]
          exact hg.out_mem x m k hm
    · -- labels_objs
      intro k
      rw [alContains_alRemove _ _ _ hg.wf_labels,
        alContains_alRemove _ _ _ hg.wf_objs]
      by_cases hk : e = k
      · rw [if_pos hk, if_pos hk]
      · rw [if_neg hk, if_neg hk]
        exact hg.labels_objs k
    · -- obj_key
      intro k e' hke
      rw [hgetObjs k] at hke
      by_cases hk : e = k
      · rw [if_pos hk] at hke
        exact absurd hke (by simp)
      · rw [if_neg hk] at hke
        exact hg.obj_key k e' hke
    · -- obj_rows
      intro k e' hke
      rw [hgetObjs k] at hke
      by_cases hk : e = k
      · rw [if_pos hk] at hke
        exact absurd hke (by simp)
      · rw [if_neg hk] at hke
        obtain ⟨h1, h2, h3, h4⟩ := hg.obj_rows k e' hke
        exact ⟨by rwa [alContains_alAdjust], by rwa [alContains_alAdjust],
          by rwa [alContains_alAdjust], by rwa [alContains_alAdjust]⟩

/-- The full invariant yields the edge-component invariant. -/
theorem invE_of_inv (g : Graph) (hg : Inv g) : InvE g :=
  ⟨hg.wf_objs, hg.wf_labels, hg.wf_preds_inner, hg.wf_sucs_inner,
    hg.wf_in_inner, hg.wf_out_inner, hg.preds_val, hg.sucs_val, hg.in_mem,
    hg.out_mem, hg.labels_objs, hg.obj_key,
    fun k e hke => by
      obtain ⟨h1, h2⟩ := hg.obj_nodes k e hke
      exact ⟨by rw [hg.contains_preds]; exact h2,
        by rw [hg.contains_sucs]; exact h1,
        by rw [hg.contains_in]; exact h2,
        by rw [hg.contains_out]; exact h1⟩⟩

theorem alContains_eq_of_keys_eq {V W : Type} (m : AList V) (m' : AList W)
    (h : alKeys m = alKeys m') (x : String) :
    alContains m x = alContains m' x := by
  by_cases hmem : x ∈ alKeys m'
  · rw [(alContains_iff_mem m x).mpr (by rw [h]; exact hmem),
      (alContains_iff_mem m' x).mpr hmem]
  · rw [(alContains_eq_false_iff m x).mpr (by rw [h]; exact hmem),
      (alContains_eq_false_iff m' x).mpr hmem]

/-- `remove_edge` preserves the full invariant. -/
theorem remove_edge_inv (g : Graph) (v w : String) (nm : Option String)
    (hg : Inv g) : Inv (g.remove_edge v w nm) := by
  have hE := remove_edge_invE g v w nm (invE_of_inv g hg)
  obtain ⟨hfn, hfp, hfc, hfd, hfcmp, hkp, hks, hki, hko⟩ :=
    remove_edge_frame g v w nm
  have hobjsub : ∀ q e', alGet (g.remove_edge v w nm)._edge_objs q = some e' →
      alGet g._edge_objs q = some e' := by
    intro q e' hq
    rcases hget : alGet g._edge_objs (edge_args_to_id g._is_directed v w nm)
      with _ | edge
    · rw [remove_edge_noop g v w nm hget] at hq
      exact hq
    · rw [remove_edge_eq_of_get g v w nm edge hget] at hq
      have := alGet_alRemove g._edge_objs
        (edge_args_to_id g._is_directed v w nm) q hg.wf_objs
      rw [show ({ g with
          _edge_labels := alRemove g._edge_labels (edge_args_to_id g._is_directed v w nm)
          _edge_objs := alRemove g._edge_objs (edge_args_to_id g._is_directed v w nm)
          _preds := if alContains g._preds edge.w then
              alAdjust g._preds edge.w (fun m => decrement_or_remove_entry m edge.v)
            else g._preds
          _sucs := if alContains g._sucs edge.v then
              alAdjust g._sucs edge.v (fun m => decrement_or_remove_entry m edge.w)
            else g._sucs
          _in := if alContains g._in edge.w then
              alAdjust g._in edge.w
                (fun m => alRemove m (edge_args_to_id g._is_directed v w nm))
            else g._in
          _out := if alContains g._out edge.v then
              alAdjust g._out edge.v
                (fun m => alRemove m (edge_args_to_id g._is_directed v w nm))
            else g._out
          _edge_count := g._edge_count - 1 } : Graph)._edge_objs =
        alRemove g._edge_objs (edge_args_to_id g._is_directed v w nm) from rfl]
        at hq
      rw [this] at hq
      by_cases hk : edge_args_to_id g._is_directed v w nm = q
      · rw [if_pos hk] at hq
        exact absurd hq (by simp)
      · rw [if_neg hk] at hq
        exact hq
  refine ⟨?_, ?_, ?_, ?_, ?_, hE.wf_objs, hE.wf_labels, ?_, ?_,
    hE.wf_preds_inner, hE.wf_sucs_inner, hE.wf_in_inner, hE.wf_out_inner, ?_,
    ?_, ?_, ?_, ?_, hE.preds_val, hE.sucs_val, hE.in_mem, hE.out_mem,
    hE.labels_objs, hE.obj_key, ?_, ?_, ?_, ?_⟩
  · rw [hfn]; exact hg.wf_nodes
  · rw [hkp]; exact hg.wf_preds
  · rw [hks]; exact hg.wf_sucs
  · rw [hki]; exact hg.wf_in
  · rw [hko]; exact hg.wf_out
  · rw [hfp]; exact hg.wf_parent
  · rw [hfc]; exact hg.wf_children
  · intro x m hm
    rw [hfc] at hm
    exact hg.wf_children_inner x m hm
  · intro x
    rw [alContains_eq_of_keys_eq _ g._preds hkp x, hg.contains_preds x,
      show alContains g._nodes x = alContains (g.remove_edge v w nm)._nodes x
        from (alContains_eq_of_keys_eq _ _ (by rw [hfn]) x).symm]
  · intro x
    rw [alContains_eq_of_keys_eq _ g._sucs hks x, hg.contains_sucs x,
      show alContains g._nodes x = alContains (g.remove_edge v w nm)._nodes x
        from (alContains_eq_of_keys_eq _ _ (by rw [hfn]) x).symm]
  · intro x
    rw [alContains_eq_of_keys_eq _ g._in hki x, hg.contains_in x,
      show alContains g._nodes x = alContains (g.remove_edge v w nm)._nodes x
        from (alContains_eq_of_keys_eq _ _ (by rw [hfn]) x).symm]
  · intro x
    rw [alContains_eq_of_keys_eq _ g._out hko x, hg.contains_out x,
      show alContains g._nodes x = alContains (g.remove_edge v w nm)._nodes x
        from (alContains_eq_of_keys_eq _ _ (by rw [hfn]) x).symm]
  · intro k e' hke
    have h0 := hg.obj_nodes k e' (hobjsub k e' hke)
    rw [show alContains (g.remove_edge v w nm)._nodes e'.v =
      alContains g._nodes e'.v by unfold alContains; rw [hfn]]
    rw [show alContains (g.remove_edge v w nm)._nodes e'.w =
      alContains g._nodes e'.w by unfold alContains; rw [hfn]]
    exact h0
  · intro p m x hm hxm
    rw [hfc] at hm
    rw [show (g.remove_edge v w nm)._parent = g._parent from hfp]
    exact hg.childparent p m x hm hxm
  · intro x p hxp
    rw [hfp] at hxp
    rw [show alContains (g.remove_edge v w nm)._nodes x =
      alContains g._nodes x by unfold alContains; rw [hfn]]
    exact hg.parent_nodes x p hxp
  · intro hnc
    rw [hfcmp] at hnc
    rw [hfp, hfc]
    exact hg.noncompound hnc

/-- `_remove_from_parents_child_list` only ever shrinks one child list. -/
theorem rfcl_frame (g : Graph) (v : String) :
    (g._remove_from_parents_child_list v)._nodes = g._nodes ∧
    (g._remove_from_parents_child_list v)._parent = g._parent ∧
    (g._remove_from_parents_child_list v)._in = g._in ∧
    (g._remove_from_parents_child_list v)._preds = g._preds ∧
    (g._remove_from_parents_child_list v)._out = g._out ∧
    (g._remove_from_parents_child_list v)._sucs = g._sucs ∧
    (g._remove_from_parents_child_list v)._edge_objs = g._edge_objs ∧
    (g._remove_from_parents_child_list v)._edge_labels = g._edge_labels ∧
    (g._remove_from_parents_child_list v)._is_directed = g._is_directed ∧
    (g._remove_from_parents_child_list v)._is_multigraph = g._is_multigraph ∧
    (g._remove_from_parents_child_list v)._is_compound = g._is_compound ∧
    (g._remove_from_parents_child_list v)._node_count = g._node_count ∧
    (g._remove_from_parents_child_list v)._edge_count = g._edge_count := by
  unfold Graph._remove_from_parents_child_list
  repeat' split
  all_goals exact ⟨rfl, rfl, rfl, rfl, rfl, rfl, rfl, rfl, rfl, rfl, rfl, rfl, rfl⟩

/-- `_remove_from_parents_child_list` preserves the invariant. -/
theorem rfcl_inv (g : Graph) (v : String) (hg : Inv g) :
    Inv (g._remove_from_parents_child_list v) := by
  unfold Graph._remove_from_parents_child_list
  rcases hpv : alGet g._parent v with _ | par
  · exact hg
  · show Inv (match alGet g._children par with
      | some _ => { g with _children := alAdjust g._children par (fun m => alRemove m v) }
      | none => g)
    rcases hcp : alGet g._children par with _ | r
    · exact hg
    · refine ⟨hg.wf_nodes, hg.wf_preds, hg.wf_sucs, hg.wf_in, hg.wf_out,
        hg.wf_objs, hg.wf_labels, hg.wf_parent, ?_, hg.wf_preds_inner,
        hg.wf_sucs_inner, hg.wf_in_inner, hg.wf_out_inner, ?_,
        hg.contains_preds, hg.contains_sucs, hg.contains_in, hg.contains_out,
        hg.preds_val, hg.sucs_val, hg.in_mem, hg.out_mem, hg.labels_objs,
        hg.obj_key, hg.obj_nodes, ?_, hg.parent_nodes,
        fun hnc => absurd hpv (by rw [(hg.noncompound hnc).1]; simp)⟩
      · rw [alKeys_alAdjust]; exact hg.wf_children
      · intro x m hm
        rw [alGet_alAdjust] at hm
        by_cases hx : par = x
        · rw [if_pos hx] at hm
          obtain ⟨m0, hget0, hm0⟩ := Option.map_eq_some'.mp hm
          rw [← hm0]
          exact alNodup_alRemove _ _ (hg.wf_children_inner x m0 hget0)
        · rw [if_neg hx] at hm
          exact hg.wf_children_inner x m hm
      · intro p m x hm hxm
        rw [alGet_alAdjust] at hm
        by_cases hp : par = p
        · rw [if_pos hp] at hm
          obtain ⟨m0, hget0, hm0⟩ := Option.map_eq_some'.mp hm
          rw [← hm0, alContains_alRemove m0 v x
            (hg.wf_children_inner p m0 hget0)] at hxm
          by_cases hx : v = x
          · rw [if_pos hx] at hxm
            exact absurd hxm (by simp)
          · rw [if_neg hx] at hxm
            exact hg.childparent p m0 x hget0 hxm
        · rw [if_neg hp] at hm
          exact hg.childparent p m x hm hxm

/-- After `_remove_from_parents_child_list v`, in an invariant state no
child list contains `v` any more. -/
theorem rfcl_no_self (g : Graph) (v : String) (hg : Inv g) :
    ∀ q m, alGet (g._remove_from_parents_child_list v)._children q = some m →
      alContains m v = false := by
  intro q m hm
  unfold Graph._remove_from_parents_child_list at hm
  rcases hpv : alGet g._parent v with _ | par
  · simp only [hpv] at hm
    rw [← Bool.not_eq_true]
    intro hc
    have := hg.childparent q m v hm hc
    rw [hpv] at this
    exact absurd this (by simp)
  · simp only [hpv] at hm
    rcases hcp : alGet g._children par with _ | r
    · simp only [hcp] at hm
      rw [← Bool.not_eq_true]
      intro hc
      have := hg.childparent q m v hm hc
      rw [hpv] at this
      injection this with this
      rw [this] at hcp
      rw [hm] at hcp
      exact absurd hcp (by simp)
    · simp only [hcp] at hm
      rw [alGet_alAdjust] at hm
      by_cases hq : par = q
      · rw [if_pos hq] at hm
        obtain ⟨m0, hget0, hm0⟩ := Option.map_eq_some'.mp hm
        rw [← hm0, alContains_alRemove m0 v v (hg.wf_children_inner q m0 hget0)]
        rw [if_pos rfl]
      · rw [if_neg hq] at hm
        rw [← Bool.not_eq_true]
        intro hc
        have := hg.childparent q m v hm hc
        rw [hpv] at this
        injection this with this
        exact hq this

/-- `setParentCore` preserves the invariant (`set_parent` only reaches it on
compound graphs). -/
theorem setParentCore_inv (g : Graph) (v p : String) (hg : Inv g)
    (hcomp : g._is_compound = true) : Inv (setParentCore g v p) := by
  unfold setParentCore
  set g1 := g.set_node v none with hg1
  have hinv1 : Inv g1 := set_node_inv g v none hg
  set g2 := g1._remove_from_parents_child_list v with hg2
  have hinv2 : Inv g2 := rfcl_inv g1 v hinv1
  have hnov : ∀ q m, alGet g2._children q = some m → alContains m v = false :=
    rfcl_no_self g1 v hinv1
  have hnodev : alContains g2._nodes v = true := by
    rw [hg2, (rfcl_frame g1 v).1]
    exact set_node_contains_self g v none
  refine ⟨hinv2.wf_nodes, hinv2.wf_preds, hinv2.wf_sucs, hinv2.wf_in,
    hinv2.wf_out, hinv2.wf_objs, hinv2.wf_labels, ?_, ?_,
    hinv2.wf_preds_inner, hinv2.wf_sucs_inner, hinv2.wf_in_inner,
    hinv2.wf_out_inner, ?_, hinv2.contains_preds, hinv2.contains_sucs,
    hinv2.contains_in, hinv2.contains_out, hinv2.preds_val, hinv2.sucs_val,
    hinv2.in_mem, hinv2.out_mem, hinv2.labels_objs, hinv2.obj_key,
    hinv2.obj_nodes, ?_, ?_, ?_⟩
  · exact alNodup_alInsert _ _ _ hinv2.wf_parent
  · exact alNodup_alEntryMod _ _ _ _ hinv2.wf_children
  · intro x m hm
    rw [alGet_alEntryMod] at hm
    by_cases hx : p = x
    · rw [if_pos hx] at hm
      injection hm with hm
      rw [← hm]
      refine alNodup_alInsert _ _ _ ?_
      rcases hB : alGet g2._children p with _ | mB
      · simp [hB]
      · simp only [hB, Option.getD_some]
        exact hinv2.wf_children_inner p mB hB
    · rw [if_neg hx] at hm
      exact hinv2.wf_children_inner x m hm
  · -- childparent
    intro q m x hm hxm
    rw [alGet_alEntryMod] at hm
    by_cases hq : p = q
    · rw [if_pos hq] at hm
      injection hm with hm
      rw [← hm] at hxm
      rcases hB : alGet g2._children p with _ | mB
      · rw [hB] at hxm
        simp only [Option.getD_none] at hxm
        by_cases hx : v = x
        · rw [alGet_alInsert, if_pos hx, hq]
        · simp [alContains, alInsert, hx] at hxm
      · rw [hB, Option.getD_some] at hxm
        rw [alContains_alInsert] at hxm
        by_cases hx : v = x
        · rw [alGet_alInsert, if_pos hx, hq]
        · rw [if_neg hx] at hxm
          have := hinv2.childparent p mB x hB hxm
          rw [alGet_alInsert, if_neg hx, this, hq]
    · rw [if_neg hq] at hm
      have hx : ¬ v = x := by
        intro hvx
        rw [← hvx] at hxm
        rw [hnov q m hm] at hxm
        exact absurd hxm (by simp)
      rw [alGet_alInsert, if_neg hx]
      exact hinv2.childparent q m x hm hxm
  · -- parent_nodes
    intro x q hxq
    rw [alGet_alInsert] at hxq
    by_cases hx : v = x
    · rw [← hx]
      exact hnodev
    · rw [if_neg hx] at hxq
      exact hinv2.parent_nodes x q hxq
  · -- noncompound
    intro hnc
    have hc2 : g2._is_compound = true := by
      rw [hg2, (rfcl_frame g1 v).2.2.2.2.2.2.2.2.2.2.1, hg1,
        (set_node_frame g v none).2.2.2.2]
      exact hcomp
    rw [hnc] at hc2
    exact absurd hc2 (by simp)

/-- `set_parent` preserves the invariant. -/
theorem set_parent_inv (g : Graph) (v : String) (p : Option String)
    (g' : Graph) (r : Option String) (hg : Inv g)
    (h : g.set_parent v p = some (g', r)) : Inv g' := by
  unfold Graph.set_parent at h
  by_cases hcomp : ¬ g._is_compound = true
  · rw [if_pos hcomp] at h
    injection h with h
    injection h with h _
    rw [← h]
    exact hg
  · rw [if_neg hcomp] at h
    rcases p with _ | p0
    · injection h with h
      injection h with h _
      rw [← h]
      exact setParentCore_inv g v GRAPH_NODE hg (not_not.mp hcomp)
    · have h2 : (match ancestorWalk g v (g._parent.length + 1) p0 with
          | none => (none : Option (Graph × Option String))
          | some true => some (g, some ("Setting " ++ p0 ++ " as parent of " ++
              v ++ " would create a cycle"))
          | some false => some (setParentCore (g.set_node p0 none) v p0, none)) =
          some (g', r) := h
      rcases hw : ancestorWalk g v (g._parent.length + 1) p0 with _ | b
      · rw [hw] at h2
        exact absurd h2 (by simp)
      · rw [hw] at h2
        rcases b with _ | _
        · injection h2 with h2
          injection h2 with h2 _
          rw [← h2]
          refine setParentCore_inv (g.set_node p0 none) v p0
            (set_node_inv g p0 none hg) ?_
          rw [(set_node_frame g p0 none).2.2.2.2]
          exact not_not.mp hcomp
        · injection h2 with h2
          injection h2 with h2 _
          rw [← h2]
          exact hg

theorem nonHierFrame_refl (g : Graph) : nonHierFrame g g :=
  ⟨rfl, rfl, rfl, rfl, rfl, rfl, rfl, rfl, rfl, rfl, rfl, rfl⟩

theorem nonHierFrame_trans (a b c : Graph) (h1 : nonHierFrame a b)
    (h2 : nonHierFrame b c) : nonHierFrame a c :=
  ⟨h1.1.trans h2.1, h1.2.1.trans h2.2.1, h1.2.2.1.trans h2.2.2.1,
    h1.2.2.2.1.trans h2.2.2.2.1, h1.2.2.2.2.1.trans h2.2.2.2.2.1,
    h1.2.2.2.2.2.1.trans h2.2.2.2.2.2.1,
    h1.2.2.2.2.2.2.1.trans h2.2.2.2.2.2.2.1,
    h1.2.2.2.2.2.2.2.1.trans h2.2.2.2.2.2.2.2.1,
    h1.2.2.2.2.2.2.2.2.1.trans h2.2.2.2.2.2.2.2.2.1,
    h1.2.2.2.2.2.2.2.2.2.1.trans h2.2.2.2.2.2.2.2.2.2.1,
    h1.2.2.2.2.2.2.2.2.2.2.1.trans h2.2.2.2.2.2.2.2.2.2.2.1,
    h1.2.2.2.2.2.2.2.2.2.2.2.trans h2.2.2.2.2.2.2.2.2.2.2.2⟩

/-- On a compound graph, `set_parent v none` always succeeds and performs the
unconditional tail with the root sentinel. -/
theorem set_parent_none_eq (g : Graph) (x : String)
    (hcomp : g._is_compound = true) :
    g.set_parent x none = some (setParentCore g x GRAPH_NODE, none) := by
  unfold Graph.set_parent
  rw [if_neg (not_not_intro hcomp)]

theorem hinv_of_inv (g : Graph) (hg : Inv g) : HInv g._nodes g :=
  ⟨hg.wf_parent, hg.wf_children, hg.wf_children_inner, hg.childparent,
    hg.parent_nodes⟩

/-- `_remove_from_parents_child_list` preserves the hierarchy fragment. -/
theorem rfcl_hinv (N : AList String) (g : Graph) (v : String) (hh : HInv N g) :
    HInv N (g._remove_from_parents_child_list v) := by
  unfold Graph._remove_from_parents_child_list
  rcases hpv : alGet g._parent v with _ | par
  · exact hh
  · show HInv N (match alGet g._children par with
      | some _ => { g with _children := alAdjust g._children par (fun m => alRemove m v) }
      | none => g)
    rcases hcp : alGet g._children par with _ | r
    · exact hh
    · refine ⟨hh.wfp, ?_, ?_, ?_, hh.pn⟩
      · rw [alKeys_alAdjust]; exact hh.wfc
      · intro x m hm
        rw [alGet_alAdjust] at hm
        by_cases hx : par = x
        · rw [if_pos hx] at hm
          obtain ⟨m0, hget0, hm0⟩ := Option.map_eq_some'.mp hm
          rw [← hm0]
          exact alNodup_alRemove _ _ (hh.wfci x m0 hget0)
        · rw [if_neg hx] at hm
          exact hh.wfci x m hm
      · intro p m x hm hxm
        rw [alGet_alAdjust] at hm
        by_cases hp : par = p
        · rw [if_pos hp] at hm
          obtain ⟨m0, hget0, hm0⟩ := Option.map_eq_some'.mp hm
          rw [← hm0, alContains_alRemove m0 v x (hh.wfci p m0 hget0)] at hxm
          by_cases hx : v = x
          · rw [if_pos hx] at hxm
            exact absurd hxm (by simp)
          · rw [if_neg hx] at hxm
            exact hh.cp p m0 x hget0 hxm
        · rw [if_neg hp] at hm
          exact hh.cp p m x hm hxm

/-- After `_remove_from_parents_child_list v`, no child list contains `v`,
assuming only the hierarchy fragment. -/
theorem rfcl_no_self_h (N : AList String) (g : Graph) (v : String)
    (hh : HInv N g) :
    ∀ q m, alGet (g._remove_from_parents_child_list v)._children q = some m →
      alContains m v = false := by
  intro q m hm
  unfold Graph._remove_from_parents_child_list at hm
  rcases hpv : alGet g._parent v with _ | par
  · simp only [hpv] at hm
    rw [← Bool.not_eq_true]
    intro hc
    have := hh.cp q m v hm hc
    rw [hpv] at this
    exact absurd this (by simp)
  · simp only [hpv] at hm
    rcases hcp : alGet g._children par with _ | r
    · simp only [hcp] at hm
      rw [← Bool.not_eq_true]
      intro hc
      have := hh.cp q m v hm hc
      rw [hpv] at this
      injection this with this
      rw [this] at hcp
      rw [hm] at hcp
      exact absurd hcp (by simp)
    · simp only [hcp] at hm
      rw [alGet_alAdjust] at hm
      by_cases hq : par = q
      · rw [if_pos hq] at hm
        obtain ⟨m0, hget0, hm0⟩ := Option.map_eq_some'.mp hm
        rw [← hm0, alContains_alRemove m0 v v (hh.wfci q m0 hget0)]
        rw [if_pos rfl]
      · rw [if_neg hq] at hm
        rw [← Bool.not_eq_true]
        intro hc
        have := hh.cp q m v hm hc
        rw [hpv] at this
        injection this with this
        exact hq this

/-- `_remove_from_parents_child_list` only touches `_children`. -/
theorem rfcl_nonHierFrame (g : Graph) (v : String) :
    nonHierFrame (g._remove_from_parents_child_list v) g :=
  ⟨(rfcl_frame g v).1, (rfcl_frame g v).2.2.1, (rfcl_frame g v).2.2.2.1,
    (rfcl_frame g v).2.2.2.2.1, (rfcl_frame g v).2.2.2.2.2.1,
    (rfcl_frame g v).2.2.2.2.2.2.1, (rfcl_frame g v).2.2.2.2.2.2.2.1,
    (rfcl_frame g v).2.2.2.2.2.2.2.2.1, (rfcl_frame g v).2.2.2.2.2.2.2.2.2.1,
    (rfcl_frame g v).2.2.2.2.2.2.2.2.2.2.1,
    (rfcl_frame g v).2.2.2.2.2.2.2.2.2.2.2.1,
    (rfcl_frame g v).2.2.2.2.2.2.2.2.2.2.2.2⟩

/-- `setParentCore` on an existing node preserves the hierarchy fragment,
keeps everything outside the hierarchy unchanged, and updates `_parent`
exactly at `v`. -/
theorem setParentCore_hinv (N : AList String) (g : Graph) (v p : String)
    (hh : HInv N g) (hnode : alContains g._nodes v = true)
    (hN : alContains N v = true) :
    HInv N (setParentCore g v p) ∧ nonHierFrame (setParentCore g v p) g ∧
    ∀ z, alGet (setParentCore g v p)._parent z =
      if v = z then some p else alGet g._parent z := by
  have hspc : setParentCore g v p =
      { g._remove_from_parents_child_list v with
        _parent := alInsert (g._remove_from_parents_child_list v)._parent v p
        _children := alEntryMod (g._remove_from_parents_child_list v)._children
          p [] (fun m => alInsert m v true) } := by
    unfold setParentCore
    rw [set_node_exists_none g v hnode]
  have hh2 : HInv N (g._remove_from_parents_child_list v) := rfcl_hinv N g v hh
  have hnov : ∀ q m, alGet (g._remove_from_parents_child_list v)._children q =
      some m → alContains m v = false := rfcl_no_self_h N g v hh
  have hparfr : (g._remove_from_parents_child_list v)._parent = g._parent :=
    (rfcl_frame g v).2.1
  rw [hspc]
  refine ⟨⟨?_, ?_, ?_, ?_, ?_⟩, rfcl_nonHierFrame g v, ?_⟩
  · exact alNodup_alInsert _ _ _ hh2.wfp
  · exact alNodup_alEntryMod _ _ _ _ hh2.wfc
  · -- inner child lists stay duplicate-free
    intro x m hm
    rw [alGet_alEntryMod] at hm
    by_cases hx : p = x
    · rw [if_pos hx] at hm
      injection hm with hm
      rw [← hm]
      refine alNodup_alInsert _ _ _ ?_
      rcases hB : alGet (g._remove_from_parents_child_list v)._children p with _ | mB
      · simp [hB]
      · simp only [hB, Option.getD_some]
        exact hh2.wfci p mB hB
    · rw [if_neg hx] at hm
      exact hh2.wfci x m hm
  · -- child-list membership still points back to `_parent`
    intro q m x hm hxm
    rw [alGet_alEntryMod] at hm
    by_cases hq : p = q
    · rw [if_pos hq] at hm
      injection hm with hm
      rw [← hm] at hxm
      rcases hB : alGet (g._remove_from_parents_child_list v)._children p with _ | mB
      · rw [hB] at hxm
        simp only [Option.getD_none] at hxm
        by_cases hx : v = x
        · rw [alGet_alInsert, if_pos hx, hq]
        · simp [alContains, alInsert, hx] at hxm
      · rw [hB, Option.getD_some] at hxm
        rw [alContains_alInsert] at hxm
        by_cases hx : v = x
        · rw [alGet_alInsert, if_pos hx, hq]
        · rw [if_neg hx] at hxm
          have := hh2.cp p mB x hB hxm
          rw [alGet_alInsert, if_neg hx, this, hq]
    · rw [if_neg hq] at hm
      have hx : ¬ v = x := by
        intro hvx
        rw [← hvx] at hxm
        rw [hnov q m hm] at hxm
        exact absurd hxm (by simp)
      rw [alGet_alInsert, if_neg hx]
      exact hh2.cp q m x hm hxm
  · -- parent keys stay inside the universe
    intro x q hxq
    rw [alGet_alInsert] at hxq
    by_cases hx : v = x
    · rw [← hx]
      exact hN
    · rw [if_neg hx] at hxq
      exact hh2.pn x q hxq
  · -- the `_parent` update is exactly at `v`
    intro z
    show alGet (alInsert (g._remove_from_parents_child_list v)._parent v p) z = _
    rw [alGet_alInsert, hparfr]

/-- The first half of the compound phase: the hierarchy fragment survives,
nothing else changes, `v` loses its `_parent` entry, and no child list
contains `v`. -/
theorem rncHier_spec (N : AList String) (g : Graph) (v : String)
    (hh : HInv N g) :
    HInv N (rncHier g v) ∧ nonHierFrame (rncHier g v) g ∧
    alGet (rncHier g v)._parent v = none ∧
    (∀ q m, alGet (rncHier g v)._children q = some m →
      alContains m v = false) := by
  have hh1 : HInv N (g._remove_from_parents_child_list v) := rfcl_hinv N g v hh
  have hns : ∀ q m, alGet (g._remove_from_parents_child_list v)._children q =
      some m → alContains m v = false := rfcl_no_self_h N g v hh
  unfold rncHier
  by_cases hc : alContains (g._remove_from_parents_child_list v)._parent v = true
  · rw [if_pos hc]
    refine ⟨⟨?_, hh1.wfc, hh1.wfci, ?_, ?_⟩, rfcl_nonHierFrame g v, ?_, hns⟩
    · exact alNodup_alRemove _ _ hh1.wfp
    · intro p m x hm hxm
      have hx : ¬ v = x := by
        intro hvx
        rw [← hvx] at hxm
        rw [hns p m hm] at hxm
        exact absurd hxm (by simp)
      show alGet (alRemove (g._remove_from_parents_child_list v)._parent v) x =
        some p
      rw [alGet_alRemove _ _ _ hh1.wfp, if_neg hx]
      exact hh1.cp p m x hm hxm
    · intro x q hxq
      have hxq2 : alGet (alRemove
          (g._remove_from_parents_child_list v)._parent v) x = some q := hxq
      rw [alGet_alRemove _ _ _ hh1.wfp] at hxq2
      by_cases hx : v = x
      · rw [if_pos hx] at hxq2
        exact absurd hxq2 (by simp)
      · rw [if_neg hx] at hxq2
        exact hh1.pn x q hxq2
    · show alGet (alRemove (g._remove_from_parents_child_list v)._parent v) v =
        none
      exact alGet_alRemove_self _ _ hh1.wfp
  · rw [if_neg hc]
    refine ⟨hh1, rfcl_nonHierFrame g v, ?_, hns⟩
    exact (alGet_eq_none_iff _ _).mpr
      (fun hmem => hc ((alContains_iff_mem _ _).mpr hmem))

/-- The orphaned-children loop: re-parenting existing children to the root
preserves the hierarchy fragment, changes nothing outside the hierarchy, and
keeps `v` out of `_parent`. -/
theorem spFold_spec (N : AList String) (v : String) (L : List String) :
    ∀ g : Graph, g._is_compound = true → HInv N g →
    (∀ c ∈ L, alContains g._nodes c = true ∧ alContains N c = true ∧
      ¬ c = v) →
    alGet g._parent v = none →
    HInv N (L.foldl spFoldFn g) ∧ nonHierFrame (L.foldl spFoldFn g) g ∧
    alGet (L.foldl spFoldFn g)._parent v = none := by
  induction L with
  | nil =>
      intro g hcomp hh _ hvfree
      exact ⟨hh, nonHierFrame_refl g, hvfree⟩
  | cons c t ih =>
      intro g hcomp hh hmem hvfree
      obtain ⟨hcn, hcN, hcv⟩ := hmem c (by simp)
      have hstep : (c :: t).foldl spFoldFn g = t.foldl spFoldFn (spFoldFn g c) :=
        rfl
      have hfc : spFoldFn g c = setParentCore g c GRAPH_NODE := by
        unfold spFoldFn
        rw [set_parent_none_eq g c hcomp]
      obtain ⟨hh1, hfr1, hpar1⟩ := setParentCore_hinv N g c GRAPH_NODE hh hcn hcN
      have hcomp1 : (setParentCore g c GRAPH_NODE)._is_compound = true := by
        rw [hfr1.2.2.2.2.2.2.2.2.2.1]
        exact hcomp
      have hvfree1 : alGet (setParentCore g c GRAPH_NODE)._parent v = none := by
        rw [hpar1 v, if_neg hcv]
        exact hvfree
      have hmem1 : ∀ x ∈ t, alContains (setParentCore g c GRAPH_NODE)._nodes x =
          true ∧ alContains N x = true ∧ ¬ x = v := by
        intro x hx
        obtain ⟨h1, h2, h3⟩ := hmem x (by simp [hx])
        exact ⟨by rw [hfr1.1]; exact h1, h2, h3⟩
      obtain ⟨hhF, hfrF, hvF⟩ :=
        ih (setParentCore g c GRAPH_NODE) hcomp1 hh1 hmem1 hvfree1
      rw [hstep, hfc]
      exact ⟨hhF, nonHierFrame_trans _ _ _ hfrF hfr1, hvF⟩

/-- The whole compound block of `remove_node`: given the hierarchy fragment
over a universe `N` and a node map missing exactly `v`, the result keeps the
fragment, changes nothing outside the hierarchy, and drops `v` from
`_parent`. -/
theorem removeNodeCompound_spec (N : AList String) (g : Graph) (v : String)
    (hcomp : g._is_compound = true) (hh : HInv N g)
    (hNnodes : ∀ c, alContains N c = true → ¬ c = v →
      alContains g._nodes c = true) :
    HInv N (removeNodeCompound g v) ∧
    nonHierFrame (removeNodeCompound g v) g ∧
    alGet (removeNodeCompound g v)._parent v = none := by
  obtain ⟨hh1, hfr1, hvfree1, hns1⟩ := rncHier_spec N g v hh
  have hcomp1 : (rncHier g v)._is_compound = true := by
    rw [hfr1.2.2.2.2.2.2.2.2.2.1]
    exact hcomp
  have hmem : ∀ c ∈ (rncHier g v).children v,
      alContains (rncHier g v)._nodes c = true ∧ alContains N c = true ∧
      ¬ c = v := by
    intro c hcL
    have hrow : ∃ m, alGet (rncHier g v)._children v = some m ∧ c ∈ alKeys m := by
      unfold Graph.children at hcL
      rw [if_pos hcomp1] at hcL
      rcases hrowq : alGet (rncHier g v)._children v with _ | m
      · rw [hrowq] at hcL
        simp at hcL
      · rw [hrowq] at hcL
        exact ⟨m, rfl, hcL⟩
    obtain ⟨m, hrow, hcm⟩ := hrow
    have hcmem : alContains m c = true := (alContains_iff_mem _ _).mpr hcm
    have hparc : alGet (rncHier g v)._parent c = some v := hh1.cp v m c hrow hcmem
    have hcv : ¬ c = v := by
      intro hcv
      rw [hcv, hvfree1] at hparc
      exact absurd hparc (by simp)
    have hcN : alContains N c = true := hh1.pn c v hparc
    exact ⟨by rw [hfr1.1]; exact hNnodes c hcN hcv, hcN, hcv⟩
  obtain ⟨hh3, hfr3, hvfree3⟩ := spFold_spec N v ((rncHier g v).children v)
    (rncHier g v) hcomp1 hh1 hmem hvfree1
  unfold removeNodeCompound
  refine ⟨⟨hh3.wfp, ?_, ?_, ?_, hh3.pn⟩, ?_, hvfree3⟩
  · show (alKeys (alRemove
      (((rncHier g v).children v).foldl spFoldFn (rncHier g v))._children
      v)).Nodup
    exact alNodup_alRemove _ _ hh3.wfc
  · intro x m hm
    have hm2 : alGet (alRemove
        (((rncHier g v).children v).foldl spFoldFn (rncHier g v))._children v)
        x = some m := hm
    rw [alGet_alRemove _ _ _ hh3.wfc] at hm2
    by_cases hx : v = x
    · rw [if_pos hx] at hm2
      exact absurd hm2 (by simp)
    · rw [if_neg hx] at hm2
      exact hh3.wfci x m hm2
  · intro p m x hm hxm
    have hm2 : alGet (alRemove
        (((rncHier g v).children v).foldl spFoldFn (rncHier g v))._children v)
        p = some m := hm
    rw [alGet_alRemove _ _ _ hh3.wfc] at hm2
    by_cases hp : v = p
    · rw [if_pos hp] at hm2
      exact absurd hm2 (by simp)
    · rw [if_neg hp] at hm2
      exact hh3.cp p m x hm2 hxm
  · exact nonHierFrame_trans _ _ _ hfr3 hfr1

/-- Pointwise description of `_edge_objs` after removing a present edge. -/
theorem remove_edge_objs_char (g : Graph) (v w : String) (nm : Option String)
    (edge : Edge) (hwf : (alKeys g._edge_objs).Nodup)
    (hget : alGet g._edge_objs (edge_args_to_id g._is_directed v w nm) =
      some edge) :
    ∀ q, alGet (g.remove_edge v w nm)._edge_objs q =
      if edge_args_to_id g._is_directed v w nm = q then none
      else alGet g._edge_objs q := by
  intro q
  rw [remove_edge_eq_of_get g v w nm edge hget]
  show alGet (alRemove g._edge_objs (edge_args_to_id g._is_directed v w nm)) q = _
  exact alGet_alRemove _ _ _ hwf

/-- The incident-edge removal loops of `remove_node`: the edge fragment is
preserved, hierarchy/nodes/key sets are untouched, and exactly the listed
edge ids disappear from `_edge_objs`. -/
theorem removeIncidentFold_spec (ids : List String) :
    ∀ g : Graph, InvE g →
    InvE (removeIncidentFold ids g) ∧
    (removeIncidentFold ids g)._nodes = g._nodes ∧
    (removeIncidentFold ids g)._parent = g._parent ∧
    (removeIncidentFold ids g)._children = g._children ∧
    (removeIncidentFold ids g)._is_directed = g._is_directed ∧
    (removeIncidentFold ids g)._is_compound = g._is_compound ∧
    alKeys (removeIncidentFold ids g)._preds = alKeys g._preds ∧
    alKeys (removeIncidentFold ids g)._sucs = alKeys g._sucs ∧
    alKeys (removeIncidentFold ids g)._in = alKeys g._in ∧
    alKeys (removeIncidentFold ids g)._out = alKeys g._out ∧
    ∀ q, alGet (removeIncidentFold ids g)._edge_objs q =
      if q ∈ ids then none else alGet g._edge_objs q := by
  induction ids with
  | nil =>
      intro g hg
      refine ⟨hg, rfl, rfl, rfl, rfl, rfl, rfl, rfl, rfl, rfl, ?_⟩
      intro q
      show alGet g._edge_objs q =
        if q ∈ ([] : List String) then none else alGet g._edge_objs q
      simp
  | cons k0 t ih =>
      intro g hg
      rcases hk : alGet g._edge_objs k0 with _ | edge
      · have he : removeIncidentFold (k0 :: t) g = removeIncidentFold t g := by
          show removeIncidentFold t (match alGet g._edge_objs k0 with
            | some edge => g.remove_edge_with_obj edge
            | none => g) = removeIncidentFold t g
          rw [hk]
        obtain ⟨h1, h2, h3, h4, h5, h6, h7, h8, h9, h10, h11⟩ := ih g hg
        rw [he]
        refine ⟨h1, h2, h3, h4, h5, h6, h7, h8, h9, h10, ?_⟩
        intro q
        rw [h11 q]
        by_cases hq : q ∈ t
        · rw [if_pos hq, if_pos (by simp [hq])]
        · rw [if_neg hq]
          by_cases hqk : q = k0
          · rw [if_pos (by simp [hqk]), hqk, hk]
          · rw [if_neg (by
              simp only [List.mem_cons]
              push_neg
              exact ⟨hqk, hq⟩)]
      · have hkey : edge_args_to_id g._is_directed edge.v edge.w edge.name =
            k0 := hg.obj_key k0 edge hk
        have hget2 : alGet g._edge_objs
            (edge_args_to_id g._is_directed edge.v edge.w edge.name) =
            some edge := by
          rw [hkey]
          exact hk
        have hinv1 : InvE (g.remove_edge_with_obj edge) :=
          remove_edge_invE g edge.v edge.w edge.name hg
        have hfr := remove_edge_frame g edge.v edge.w edge.name
        have hobjs1 : ∀ q, alGet (g.remove_edge_with_obj edge)._edge_objs q =
            if k0 = q then none else alGet g._edge_objs q := by
          intro q
          have hc := remove_edge_objs_char g edge.v edge.w edge.name edge
            hg.wf_objs hget2 q
          rw [hkey] at hc
          exact hc
        have he : removeIncidentFold (k0 :: t) g =
            removeIncidentFold t (g.remove_edge_with_obj edge) := by
          show removeIncidentFold t (match alGet g._edge_objs k0 with
            | some edge => g.remove_edge_with_obj edge
            | none => g) = _
          rw [hk]
        obtain ⟨h1, h2, h3, h4, h5, h6, h7, h8, h9, h10, h11⟩ :=
          ih (g.remove_edge_with_obj edge) hinv1
        rw [he]
        refine ⟨h1, h2.trans hfr.1, h3.trans hfr.2.1, h4.trans hfr.2.2.1,
          h5.trans hfr.2.2.2.1, h6.trans hfr.2.2.2.2.1,
          h7.trans hfr.2.2.2.2.2.1, h8.trans hfr.2.2.2.2.2.2.1,
          h9.trans hfr.2.2.2.2.2.2.2.1, h10.trans hfr.2.2.2.2.2.2.2.2, ?_⟩
        intro q
        rw [h11 q]
        by_cases hq : q ∈ t
        · rw [if_pos hq, if_pos (by simp [hq])]
        · rw [if_neg hq, hobjs1 q]
          by_cases hqk : k0 = q
          · rw [if_pos hqk, if_pos (by rw [← hqk]; simp)]
          · rw [if_neg hqk, if_neg (by
              simp only [List.mem_cons]
              push_neg
              exact ⟨fun hh => hqk hh.symm, hq⟩)]

/-- In-edge loop plus `_preds` row removal: the edge fragment survives, all
edges into `v` are gone, the `_preds`/`_in` key sets lose exactly `v`, and
the surviving records come from the input. -/
theorem rnPhaseIn_spec (g : Graph) (v : String) (hg : InvE g)
    (hwfin : (alKeys g._in).Nodup) (hwfpreds : (alKeys g._preds).Nodup)
    (hin : alContains g._in v = true) :
    InvE (rnPhaseIn g v) ∧
    (∀ k e, alGet (rnPhaseIn g v)._edge_objs k = some e → ¬ e.w = v) ∧
    (rnPhaseIn g v)._nodes = g._nodes ∧
    (rnPhaseIn g v)._parent = g._parent ∧
    (rnPhaseIn g v)._children = g._children ∧
    (rnPhaseIn g v)._is_directed = g._is_directed ∧
    (rnPhaseIn g v)._is_compound = g._is_compound ∧
    alKeys (rnPhaseIn g v)._preds = (alKeys g._preds).erase v ∧
    alKeys (rnPhaseIn g v)._sucs = alKeys g._sucs ∧
    alKeys (rnPhaseIn g v)._in = (alKeys g._in).erase v ∧
    alKeys (rnPhaseIn g v)._out = alKeys g._out ∧
    (∀ k e, alGet (rnPhaseIn g v)._edge_objs k = some e →
      alGet g._edge_objs k = some e) := by
  rcases hrow : alGet g._in v with _ | inE
  · have hs : (alGet g._in v).isSome = true := hin
    rw [hrow] at hs
    exact absurd hs (by simp)
  · obtain ⟨hE, hn, hp, hc, hd, hcomp, hkp, hks, hki, hko, hobjs⟩ :=
      removeIncidentFold_spec (alKeys inE) g hg
    have heq : rnEdgesIn g v = { removeIncidentFold (alKeys inE) g with
        _in := alRemove (removeIncidentFold (alKeys inE) g)._in v } := by
      unfold rnEdgesIn
      rw [hrow]
    have heq2 : rnPhaseIn g v = { removeIncidentFold (alKeys inE) g with
        _in := alRemove (removeIncidentFold (alKeys inE) g)._in v
        _preds := alRemove (removeIncidentFold (alKeys inE) g)._preds v } := by
      unfold rnPhaseIn
      rw [heq]
    have hwfinA : (alKeys (removeIncidentFold (alKeys inE) g)._in).Nodup := by
      rw [hki]
      exact hwfin
    have hwfpredsA :
        (alKeys (removeIncidentFold (alKeys inE) g)._preds).Nodup := by
      rw [hkp]
      exact hwfpreds
    have hW : ∀ k e,
        alGet (removeIncidentFold (alKeys inE) g)._edge_objs k = some e →
        ¬ e.w = v := by
      intro k e hk hwv
      rw [hobjs k] at hk
      by_cases hkmem : k ∈ alKeys inE
      · rw [if_pos hkmem] at hk
        exact absurd hk (by simp)
      · rw [if_neg hkmem] at hk
        have hmem : alContains inE k = true :=
          (hg.in_mem v inE k hrow).mpr ⟨e, hk, hwv⟩
        exact hkmem ((alContains_iff_mem _ _).mp hmem)
    have hsub : ∀ k e,
        alGet (removeIncidentFold (alKeys inE) g)._edge_objs k = some e →
        alGet g._edge_objs k = some e := by
      intro k e hk
      rw [hobjs k] at hk
      by_cases hkmem : k ∈ alKeys inE
      · rw [if_pos hkmem] at hk
        exact absurd hk (by simp)
      · rw [if_neg hkmem] at hk
        exact hk
    rw [heq2]
    refine ⟨⟨hE.wf_objs, hE.wf_labels, ?_, hE.wf_sucs_inner, ?_,
      hE.wf_out_inner, ?_, hE.sucs_val, ?_, hE.out_mem, hE.labels_objs,
      hE.obj_key, ?_⟩, hW, hn, hp, hc, hd, hcomp, ?_, hks, ?_, hko, hsub⟩
    · intro x m hm
      have hm2 : alGet (alRemove
          (removeIncidentFold (alKeys inE) g)._preds v) x = some m := hm
      rw [alGet_alRemove _ _ _ hwfpredsA] at hm2
      by_cases hx : v = x
      · rw [if_pos hx] at hm2
        exact absurd hm2 (by simp)
      · rw [if_neg hx] at hm2
        exact hE.wf_preds_inner x m hm2
    · intro x m hm
      have hm2 : alGet (alRemove
          (removeIncidentFold (alKeys inE) g)._in v) x = some m := hm
      rw [alGet_alRemove _ _ _ hwfinA] at hm2
      by_cases hx : v = x
      · rw [if_pos hx] at hm2
        exact absurd hm2 (by simp)
      · rw [if_neg hx] at hm2
        exact hE.wf_in_inner x m hm2
    · intro x m u hm
      have hm2 : alGet (alRemove
          (removeIncidentFold (alKeys inE) g)._preds v) x = some m := hm
      rw [alGet_alRemove _ _ _ hwfpredsA] at hm2
      by_cases hx : v = x
      · rw [if_pos hx] at hm2
        exact absurd hm2 (by simp)
      · rw [if_neg hx] at hm2
        exact hE.preds_val x m u hm2
    · intro x m k hm
      have hm2 : alGet (alRemove
          (removeIncidentFold (alKeys inE) g)._in v) x = some m := hm
      rw [alGet_alRemove _ _ _ hwfinA] at hm2
      by_cases hx : v = x
      · rw [if_pos hx] at hm2
        exact absurd hm2 (by simp)
      · rw [if_neg hx] at hm2
        exact hE.in_mem x m k hm2
    · intro k e hk
      obtain ⟨hp1, hs1, hi1, ho1⟩ := hE.obj_rows k e hk
      have hwv : ¬ e.w = v := hW k e hk
      have hvw : ¬ v = e.w := fun hh => hwv hh.symm
      refine ⟨?_, hs1, ?_, ho1⟩
      · show alContains (alRemove
          (removeIncidentFold (alKeys inE) g)._preds v) e.w = true
        rw [alContains_alRemove _ _ _ hwfpredsA, if_neg hvw]
        exact hp1
      · show alContains (alRemove
          (removeIncidentFold (alKeys inE) g)._in v) e.w = true
        rw [alContains_alRemove _ _ _ hwfinA, if_neg hvw]
        exact hi1
    · show alKeys (alRemove
        (removeIncidentFold (alKeys inE) g)._preds v) = (alKeys g._preds).erase v
      rw [alKeys_alRemove, hkp]
    · show alKeys (alRemove
        (removeIncidentFold (alKeys inE) g)._in v) = (alKeys g._in).erase v
      rw [alKeys_alRemove, hki]

/-- Out-edge loop plus `_sucs` row removal, the mirror image of
`rnPhaseIn_spec`. -/
theorem rnPhaseOut_spec (g : Graph) (v : String) (hg : InvE g)
    (hwfout : (alKeys g._out).Nodup) (hwfsucs : (alKeys g._sucs).Nodup)
    (hout : alContains g._out v = true) :
    InvE (rnPhaseOut g v) ∧
    (∀ k e, alGet (rnPhaseOut g v)._edge_objs k = some e → ¬ e.v = v) ∧
    (rnPhaseOut g v)._nodes = g._nodes ∧
    (rnPhaseOut g v)._parent = g._parent ∧
    (rnPhaseOut g v)._children = g._children ∧
    (rnPhaseOut g v)._is_directed = g._is_directed ∧
    (rnPhaseOut g v)._is_compound = g._is_compound ∧
    alKeys (rnPhaseOut g v)._preds = alKeys g._preds ∧
    alKeys (rnPhaseOut g v)._sucs = (alKeys g._sucs).erase v ∧
    alKeys (rnPhaseOut g v)._in = alKeys g._in ∧
    alKeys (rnPhaseOut g v)._out = (alKeys g._out).erase v ∧
    (∀ k e, alGet (rnPhaseOut g v)._edge_objs k = some e →
      alGet g._edge_objs k = some e) := by
  rcases hrow : alGet g._out v with _ | outE
  · have hs : (alGet g._out v).isSome = true := hout
    rw [hrow] at hs
    exact absurd hs (by simp)
  · obtain ⟨hE, hn, hp, hc, hd, hcomp, hkp, hks, hki, hko, hobjs⟩ :=
      removeIncidentFold_spec (alKeys outE) g hg
    have heq : rnEdgesOut g v = { removeIncidentFold (alKeys outE) g with
        _out := alRemove (removeIncidentFold (alKeys outE) g)._out v } := by
      unfold rnEdgesOut
      rw [hrow]
    have heq2 : rnPhaseOut g v = { removeIncidentFold (alKeys outE) g with
        _out := alRemove (removeIncidentFold (alKeys outE) g)._out v
        _sucs := alRemove (removeIncidentFold (alKeys outE) g)._sucs v } := by
      unfold rnPhaseOut
      rw [heq]
    have hwfoutA : (alKeys (removeIncidentFold (alKeys outE) g)._out).Nodup := by
      rw [hko]
      exact hwfout
    have hwfsucsA :
        (alKeys (removeIncidentFold (alKeys outE) g)._sucs).Nodup := by
      rw [hks]
      exact hwfsucs
    have hW : ∀ k e,
        alGet (removeIncidentFold (alKeys outE) g)._edge_objs k = some e →
        ¬ e.v = v := by
      intro k e hk hwv
      rw [hobjs k] at hk
      by_cases hkmem : k ∈ alKeys outE
      · rw [if_pos hkmem] at hk
        exact absurd hk (by simp)
      · rw [if_neg hkmem] at hk
        have hmem : alContains outE k = true :=
          (hg.out_mem v outE k hrow).mpr ⟨e, hk, hwv⟩
        exact hkmem ((alContains_iff_mem _ _).mp hmem)
    have hsub : ∀ k e,
        alGet (removeIncidentFold (alKeys outE) g)._edge_objs k = some e →
        alGet g._edge_objs k = some e := by
      intro k e hk
      rw [hobjs k] at hk
      by_cases hkmem : k ∈ alKeys outE
      · rw [if_pos hkmem] at hk
        exact absurd hk (by simp)
      · rw [if_neg hkmem] at hk
        exact hk
    rw [heq2]
    refine ⟨⟨hE.wf_objs, hE.wf_labels, hE.wf_preds_inner, ?_, hE.wf_in_inner,
      ?_, hE.preds_val, ?_, hE.in_mem, ?_, hE.labels_objs,
      hE.obj_key, ?_⟩, hW, hn, hp, hc, hd, hcomp, hkp, ?_, hki, ?_, hsub⟩
    · intro x m hm
      have hm2 : alGet (alRemove
          (removeIncidentFold (alKeys outE) g)._sucs v) x = some m := hm
      rw [alGet_alRemove _ _ _ hwfsucsA] at hm2
      by_cases hx : v = x
      · rw [if_pos hx] at hm2
        exact absurd hm2 (by simp)
      · rw [if_neg hx] at hm2
        exact hE.wf_sucs_inner x m hm2
    · intro x m hm
      have hm2 : alGet (alRemove
          (removeIncidentFold (alKeys outE) g)._out v) x = some m := hm
      rw [alGet_alRemove _ _ _ hwfoutA] at hm2
      by_cases hx : v = x
      · rw [if_pos hx] at hm2
        exact absurd hm2 (by simp)
      · rw [if_neg hx] at hm2
        exact hE.wf_out_inner x m hm2
    · intro x m u hm
      have hm2 : alGet (alRemove
          (removeIncidentFold (alKeys outE) g)._sucs v) x = some m := hm
      rw [alGet_alRemove _ _ _ hwfsucsA] at hm2
      by_cases hx : v = x
      · rw [if_pos hx] at hm2
        exact absurd hm2 (by simp)
      · rw [if_neg hx] at hm2
        exact hE.sucs_val x m u hm2
    · intro x m k hm
      have hm2 : alGet (alRemove
          (removeIncidentFold (alKeys outE) g)._out v) x = some m := hm
      rw [alGet_alRemove _ _ _ hwfoutA] at hm2
      by_cases hx : v = x
      · rw [if_pos hx] at hm2
        exact absurd hm2 (by simp)
      · rw [if_neg hx] at hm2
        exact hE.out_mem x m k hm2
    · intro k e hk
      obtain ⟨hp1, hs1, hi1, ho1⟩ := hE.obj_rows k e hk
      have hwv : ¬ e.v = v := hW k e hk
      have hvw : ¬ v = e.v := fun hh => hwv hh.symm
      refine ⟨hp1, ?_, hi1, ?_⟩
      · show alContains (alRemove
          (removeIncidentFold (alKeys outE) g)._sucs v) e.v = true
        rw [alContains_alRemove _ _ _ hwfsucsA, if_neg hvw]
        exact hs1
      · show alContains (alRemove
          (removeIncidentFold (alKeys outE) g)._out v) e.v = true
        rw [alContains_alRemove _ _ _ hwfoutA, if_neg hvw]
        exact ho1
    · show alKeys (alRemove
        (removeIncidentFold (alKeys outE) g)._sucs v) = (alKeys g._sucs).erase v
      rw [alKeys_alRemove, hks]
    · show alKeys (alRemove
        (removeIncidentFold (alKeys outE) g)._out v) = (alKeys g._out).erase v
      rw [alKeys_alRemove, hko]

theorem bool_eq_of_iff (a b : Bool) (h : a = true ↔ b = true) : a = b := by
  cases a <;> cases b <;> simp_all

theorem nodup_erase_of (l : List String) (a : String) (h : l.Nodup) :
    (l.erase a).Nodup := h.erase a

/-- `InvE` only depends on the seven fields it mentions. -/
theorem invE_transport (g' g : Graph) (hE : InvE g)
    (h1 : g'._preds = g._preds) (h2 : g'._sucs = g._sucs)
    (h3 : g'._in = g._in) (h4 : g'._out = g._out)
    (h5 : g'._edge_objs = g._edge_objs)
    (h6 : g'._edge_labels = g._edge_labels)
    (h7 : g'._is_directed = g._is_directed) : InvE g' :=
  ⟨by rw [h5]; exact hE.wf_objs, by rw [h6]; exact hE.wf_labels,
    by rw [h1]; exact hE.wf_preds_inner, by rw [h2]; exact hE.wf_sucs_inner,
    by rw [h3]; exact hE.wf_in_inner, by rw [h4]; exact hE.wf_out_inner,
    by rw [h1, h5]; exact hE.preds_val, by rw [h2, h5]; exact hE.sucs_val,
    by rw [h3, h5]; exact hE.in_mem, by rw [h4, h5]; exact hE.out_mem,
    by rw [h6, h5]; exact hE.labels_objs, by rw [h5, h7]; exact hE.obj_key,
    by rw [h5, h1, h2, h3, h4]; exact hE.obj_rows⟩

/-- `remove_node` preserves the invariant. -/
theorem remove_node_inv (g : Graph) (v : String) (hg : Inv g) :
    Inv (g.remove_node v) := by
  by_cases hv : alContains g._nodes v = true
  case neg =>
    unfold Graph.remove_node
    rw [if_neg hv]
    exact hg
  case pos =>
  have hhA : HInv g._nodes ({ g with _nodes := alRemove g._nodes v } : Graph) :=
    ⟨hg.wf_parent, hg.wf_children, hg.wf_children_inner, hg.childparent,
      hg.parent_nodes⟩
  have hNnodesA : ∀ c, alContains g._nodes c = true → ¬ c = v →
      alContains ({ g with _nodes := alRemove g._nodes v } : Graph)._nodes c =
      true := by
    intro c hc hcv
    show alContains (alRemove g._nodes v) c = true
    rw [alContains_alRemove _ _ _ hg.wf_nodes, if_neg (fun hh => hcv hh.symm)]
    exact hc
  have hB : HInv g._nodes
        (rnStage2 { g with _nodes := alRemove g._nodes v } v) ∧
      nonHierFrame (rnStage2 { g with _nodes := alRemove g._nodes v } v)
        { g with _nodes := alRemove g._nodes v } ∧
      alGet (rnStage2 { g with _nodes := alRemove g._nodes v } v)._parent v =
        none ∧
      (g._is_compound = false →
        (rnStage2 { g with _nodes := alRemove g._nodes v } v)._parent =
          g._parent ∧
        (rnStage2 { g with _nodes := alRemove g._nodes v } v)._children =
          g._children) := by
    unfold rnStage2
    by_cases hcomp :
        ({ g with _nodes := alRemove g._nodes v } : Graph)._is_compound = true
    · rw [if_pos hcomp]
      obtain ⟨ha, hb, hc⟩ := removeNodeCompound_spec g._nodes
        { g with _nodes := alRemove g._nodes v } v hcomp hhA hNnodesA
      refine ⟨ha, hb, hc, ?_⟩
      intro hnc
      have hcomp2 : g._is_compound = true := hcomp
      rw [hnc] at hcomp2
      exact absurd hcomp2 (by simp)
    · rw [if_neg hcomp]
      refine ⟨hhA, nonHierFrame_refl _, ?_, fun _ => ⟨rfl, rfl⟩⟩
      have hnc : g._is_compound = false := by
        have h2 : ¬ g._is_compound = true := hcomp
        simp only [Bool.not_eq_true] at h2
        exact h2
      show alGet g._parent v = none
      rw [(hg.noncompound hnc).1]
      rfl
  obtain ⟨hhB, hfrB, hvfreeB, hBnc⟩ := hB
  have hBnodes : (rnStage2 { g with _nodes := alRemove g._nodes v } v)._nodes =
      alRemove g._nodes v := hfrB.1
  have hBin : (rnStage2 { g with _nodes := alRemove g._nodes v } v)._in =
      g._in := hfrB.2.1
  have hBpreds : (rnStage2 { g with _nodes := alRemove g._nodes v } v)._preds =
      g._preds := hfrB.2.2.1
  have hBout : (rnStage2 { g with _nodes := alRemove g._nodes v } v)._out =
      g._out := hfrB.2.2.2.1
  have hBsucs : (rnStage2 { g with _nodes := alRemove g._nodes v } v)._sucs =
      g._sucs := hfrB.2.2.2.2.1
  have hBobjs :
      (rnStage2 { g with _nodes := alRemove g._nodes v } v)._edge_objs =
      g._edge_objs := hfrB.2.2.2.2.2.1
  have hBdir :
      (rnStage2 { g with _nodes := alRemove g._nodes v } v)._is_directed =
      g._is_directed := hfrB.2.2.2.2.2.2.2.1
  have hBcomp :
      (rnStage2 { g with _nodes := alRemove g._nodes v } v)._is_compound =
      g._is_compound := hfrB.2.2.2.2.2.2.2.2.2.1
  have hEB : InvE (rnStage2 { g with _nodes := alRemove g._nodes v } v) :=
    invE_transport _ g (invE_of_inv g hg) hBpreds hBsucs hBin hBout hBobjs
      hfrB.2.2.2.2.2.2.1 hBdir
  have hwfinB :
      (alKeys (rnStage2 { g with _nodes := alRemove g._nodes v } v)._in).Nodup := by
    rw [hBin]
    exact hg.wf_in
  have hwfpredsB :
      (alKeys (rnStage2 { g with _nodes := alRemove g._nodes v } v)._preds).Nodup := by
    rw [hBpreds]
    exact hg.wf_preds
  have hinB : alContains
      (rnStage2 { g with _nodes := alRemove g._nodes v } v)._in v = true := by
    rw [hBin, hg.contains_in v]
    exact hv
  obtain ⟨hEC, hWC, hnC, hpC, hcC, hdC, hcompC, hkpC, hksC, hkiC, hkoC, hsubC⟩ :=
    rnPhaseIn_spec (rnStage2 { g with _nodes := alRemove g._nodes v } v) v
      hEB hwfinB hwfpredsB hinB
  have hwfoutC : (alKeys (rnPhaseIn
      (rnStage2 { g with _nodes := alRemove g._nodes v } v) v)._out).Nodup := by
    rw [hkoC, hBout]
    exact hg.wf_out
  have hwfsucsC : (alKeys (rnPhaseIn
      (rnStage2 { g with _nodes := alRemove g._nodes v } v) v)._sucs).Nodup := by
    rw [hksC, hBsucs]
    exact hg.wf_sucs
  have houtC : alContains (rnPhaseIn
      (rnStage2 { g with _nodes := alRemove g._nodes v } v) v)._out v = true := by
    refine (alContains_iff_mem _ _).mpr ?_
    rw [hkoC, hBout]
    exact (alContains_iff_mem _ _).mp (by rw [hg.contains_out v]; exact hv)
  obtain ⟨hED, hVD, hnD, hpD, hcD, hdD, hcompD, hkpD, hksD, hkiD, hkoD, hsubD⟩ :=
    rnPhaseOut_spec (rnPhaseIn
      (rnStage2 { g with _nodes := alRemove g._nodes v } v) v) v
      hEC hwfoutC hwfsucsC houtC
  have hDnodes : (rnBody g v)._nodes = alRemove g._nodes v :=
    (hnD.trans hnC).trans hBnodes
  have hDpar : (rnBody g v)._parent =
      (rnStage2 { g with _nodes := alRemove g._nodes v } v)._parent :=
    hpD.trans hpC
  have hDchil : (rnBody g v)._children =
      (rnStage2 { g with _nodes := alRemove g._nodes v } v)._children :=
    hcD.trans hcC
  have hDcomp : (rnBody g v)._is_compound = g._is_compound :=
    (hcompD.trans hcompC).trans hBcomp
  have hDkp : alKeys (rnBody g v)._preds = (alKeys g._preds).erase v := by
    show alKeys (rnPhaseOut (rnPhaseIn
      (rnStage2 { g with _nodes := alRemove g._nodes v } v) v) v)._preds = _
    rw [hkpD, hkpC, hBpreds]
  have hDks : alKeys (rnBody g v)._sucs = (alKeys g._sucs).erase v := by
    show alKeys (rnPhaseOut (rnPhaseIn
      (rnStage2 { g with _nodes := alRemove g._nodes v } v) v) v)._sucs = _
    rw [hksD, hksC, hBsucs]
  have hDki : alKeys (rnBody g v)._in = (alKeys g._in).erase v := by
    show alKeys (rnPhaseOut (rnPhaseIn
      (rnStage2 { g with _nodes := alRemove g._nodes v } v) v) v)._in = _
    rw [hkiD, hkiC, hBin]
  have hDko : alKeys (rnBody g v)._out = (alKeys g._out).erase v := by
    show alKeys (rnPhaseOut (rnPhaseIn
      (rnStage2 { g with _nodes := alRemove g._nodes v } v) v) v)._out = _
    rw [hkoD, hkoC, hBout]
  have hDknodes : alKeys (rnBody g v)._nodes = (alKeys g._nodes).erase v := by
    rw [hDnodes, alKeys_alRemove]
  have hsubG : ∀ k e, alGet (rnBody g v)._edge_objs k = some e →
      alGet g._edge_objs k = some e := by
    intro k e hk
    have h2 := hsubC k e (hsubD k e hk)
    rw [hBobjs] at h2
    exact h2
  have hVv : ∀ k e, alGet (rnBody g v)._edge_objs k = some e → ¬ e.v = v := hVD
  have hVw : ∀ k e, alGet (rnBody g v)._edge_objs k = some e → ¬ e.w = v :=
    fun k e hk => hWC k e (hsubD k e hk)
  unfold Graph.remove_node
  rw [if_pos hv]
  refine ⟨?_, ?_, ?_, ?_, ?_, hED.wf_objs, hED.wf_labels, ?_, ?_,
    hED.wf_preds_inner, hED.wf_sucs_inner, hED.wf_in_inner, hED.wf_out_inner,
    ?_, ?_, ?_, ?_, ?_, hED.preds_val, hED.sucs_val, hED.in_mem, hED.out_mem,
    hED.labels_objs, hED.obj_key, ?_, ?_, ?_, ?_⟩
  · show (alKeys (rnBody g v)._nodes).Nodup
    rw [hDnodes]
    exact alNodup_alRemove _ _ hg.wf_nodes
  · show (alKeys (rnBody g v)._preds).Nodup
    rw [hDkp]
    exact nodup_erase_of _ v hg.wf_preds
  · show (alKeys (rnBody g v)._sucs).Nodup
    rw [hDks]
    exact nodup_erase_of _ v hg.wf_sucs
  · show (alKeys (rnBody g v)._in).Nodup
    rw [hDki]
    exact nodup_erase_of _ v hg.wf_in
  · show (alKeys (rnBody g v)._out).Nodup
    rw [hDko]
    exact nodup_erase_of _ v hg.wf_out
  · show (alKeys (rnBody g v)._parent).Nodup
    rw [hDpar]
    exact hhB.wfp
  · show (alKeys (rnBody g v)._children).Nodup
    rw [hDchil]
    exact hhB.wfc
  · -- wf_children_inner
    intro x m hm
    have hm2 : alGet
        (rnStage2 { g with _nodes := alRemove g._nodes v } v)._children x =
        some m := by
      rw [← hDchil]
      exact hm
    exact hhB.wfci x m hm2
  · -- contains_preds
    intro x
    show alContains (rnBody g v)._preds x = alContains (rnBody g v)._nodes x
    apply bool_eq_of_iff
    rw [alContains_iff_mem, alContains_iff_mem, hDkp, hDknodes,
      List.Nodup.mem_erase_iff hg.wf_preds,
      List.Nodup.mem_erase_iff hg.wf_nodes]
    have hmm : x ∈ alKeys g._preds ↔ x ∈ alKeys g._nodes := by
      rw [← alContains_iff_mem, ← alContains_iff_mem, hg.contains_preds x]
    rw [hmm]
  · -- contains_sucs
    intro x
    show alContains (rnBody g v)._sucs x = alContains (rnBody g v)._nodes x
    apply bool_eq_of_iff
    rw [alContains_iff_mem, alContains_iff_mem, hDks, hDknodes,
      List.Nodup.mem_erase_iff hg.wf_sucs,
      List.Nodup.mem_erase_iff hg.wf_nodes]
    have hmm : x ∈ alKeys g._sucs ↔ x ∈ alKeys g._nodes := by
      rw [← alContains_iff_mem, ← alContains_iff_mem, hg.contains_sucs x]
    rw [hmm]
  · -- contains_in
    intro x
    show alContains (rnBody g v)._in x = alContains (rnBody g v)._nodes x
    apply bool_eq_of_iff
    rw [alContains_iff_mem, alContains_iff_mem, hDki, hDknodes,
      List.Nodup.mem_erase_iff hg.wf_in,
      List.Nodup.mem_erase_iff hg.wf_nodes]
    have hmm : x ∈ alKeys g._in ↔ x ∈ alKeys g._nodes := by
      rw [← alContains_iff_mem, ← alContains_iff_mem, hg.contains_in x]
    rw [hmm]
  · -- contains_out
    intro x
    show alContains (rnBody g v)._out x = alContains (rnBody g v)._nodes x
    apply bool_eq_of_iff
    rw [alContains_iff_mem, alContains_iff_mem, hDko, hDknodes,
      List.Nodup.mem_erase_iff hg.wf_out,
      List.Nodup.mem_erase_iff hg.wf_nodes]
    have hmm : x ∈ alKeys g._out ↔ x ∈ alKeys g._nodes := by
      rw [← alContains_iff_mem, ← alContains_iff_mem, hg.contains_out x]
    rw [hmm]
  · -- obj_nodes
    intro k e hk
    have hkD : alGet (rnBody g v)._edge_objs k = some e := hk
    obtain ⟨h1, h2⟩ := hg.obj_nodes k e (hsubG k e hkD)
    constructor
    · show alContains (rnBody g v)._nodes e.v = true
      rw [hDnodes, alContains_alRemove _ _ _ hg.wf_nodes,
        if_neg (fun hh => hVv k e hkD hh.symm)]
      exact h1
    · show alContains (rnBody g v)._nodes e.w = true
      rw [hDnodes, alContains_alRemove _ _ _ hg.wf_nodes,
        if_neg (fun hh => hVw k e hkD hh.symm)]
      exact h2
  · -- childparent
    intro p m x hm hxm
    have hm2 : alGet
        (rnStage2 { g with _nodes := alRemove g._nodes v } v)._children p =
        some m := by
      rw [← hDchil]
      exact hm
    have hcp := hhB.cp p m x hm2 hxm
    show alGet (rnBody g v)._parent x = some p
    rw [hDpar]
    exact hcp
  · -- parent_nodes
    intro x p hxp
    have hxp2 : alGet
        (rnStage2 { g with _nodes := alRemove g._nodes v } v)._parent x =
        some p := by
      rw [← hDpar]
      exact hxp
    have hxN : alContains g._nodes x = true := hhB.pn x p hxp2
    have hxv : ¬ x = v := by
      intro hxv
      rw [hxv, hvfreeB] at hxp2
      exact absurd hxp2 (by simp)
    show alContains (rnBody g v)._nodes x = true
    rw [hDnodes, alContains_alRemove _ _ _ hg.wf_nodes,
      if_neg (fun hh => hxv hh.symm)]
    exact hxN
  · -- noncompound
    intro hnc
    have hnc2 : (rnBody g v)._is_compound = false := hnc
    rw [hDcomp] at hnc2
    obtain ⟨hp0, hc0⟩ := hg.noncompound hnc2
    obtain ⟨hbp, hbc⟩ := hBnc hnc2
    constructor
    · show (rnBody g v)._parent = []
      rw [hDpar, hbp]
      exact hp0
    · show (rnBody g v)._children = []
      rw [hDchil, hbc]
      exact hc0

/-- A graph whose seven maps are empty (with the compound root child-list
variant) satisfies the invariant. -/
theorem empty_maps_inv (g : Graph)
    (h1 : g._nodes = []) (h2 : g._preds = []) (h3 : g._sucs = [])
    (h4 : g._in = []) (h5 : g._out = []) (h6 : g._edge_objs = [])
    (h7 : g._edge_labels = []) (h8 : g._parent = [])
    (h9 : g._children = [] ∨
      (g._children = alInsert [] GRAPH_NODE [] ∧ g._is_compound = true)) :
    Inv g := by
  refine ⟨by rw [h1]; simp, by rw [h2]; simp, by rw [h3]; simp,
    by rw [h4]; simp, by rw [h5]; simp, by rw [h6]; simp, by rw [h7]; simp,
    by rw [h8]; simp, ?_,
    ?_, ?_, ?_, ?_, ?_,
    ?_, ?_, ?_, ?_,
    ?_, ?_, ?_, ?_, ?_, ?_, ?_, ?_, ?_, ?_⟩
  · rcases h9 with h9 | ⟨h9, _⟩ <;> rw [h9] <;> simp [alInsert]
  · intro x m hm
    rw [h2] at hm
    exact absurd hm (by simp)
  · intro x m hm
    rw [h3] at hm
    exact absurd hm (by simp)
  · intro x m hm
    rw [h4] at hm
    exact absurd hm (by simp)
  · intro x m hm
    rw [h5] at hm
    exact absurd hm (by simp)
  · intro x m hm
    rcases h9 with h9 | ⟨h9, _⟩
    · rw [h9] at hm
      exact absurd hm (by simp)
    · rw [h9] at hm
      simp only [alInsert, alGet] at hm
      by_cases hx : GRAPH_NODE = x
      · rw [if_pos hx] at hm
        injection hm with hm
        rw [← hm]
        simp
      · rw [if_neg hx] at hm
        exact absurd hm (by simp)
  · intro x
    rw [h1, h2]
    rfl
  · intro x
    rw [h1, h3]
    rfl
  · intro x
    rw [h1, h4]
    rfl
  · intro x
    rw [h1, h5]
    rfl
  · intro x m u hm
    rw [h2] at hm
    exact absurd hm (by simp)
  · intro x m u hm
    rw [h3] at hm
    exact absurd hm (by simp)
  · intro x m k hm
    rw [h4] at hm
    exact absurd hm (by simp)
  · intro x m k hm
    rw [h5] at hm
    exact absurd hm (by simp)
  · intro k
    rw [h6, h7]
    rfl
  · intro k e hk
    rw [h6] at hk
    exact absurd hk (by simp)
  · intro k e hk
    rw [h6] at hk
    exact absurd hk (by simp)
  · intro p m x hm hxm
    rcases h9 with h9 | ⟨h9, _⟩
    · rw [h9] at hm
      exact absurd hm (by simp)
    · rw [h9] at hm
      simp only [alInsert, alGet] at hm
      by_cases hp : GRAPH_NODE = p
      · rw [if_pos hp] at hm
        injection hm with hm
        rw [← hm] at hxm
        exact absurd hxm (by simp [alContains, alGet])
      · rw [if_neg hp] at hm
        exact absurd hm (by simp)
  · intro x p hxp
    rw [h8] at hxp
    exact absurd hxp (by simp)
  · intro hncp
    refine ⟨h8, ?_⟩
    rcases h9 with h9 | ⟨_, h9c⟩
    · exact h9
    · rw [h9c] at hncp
      exact absurd hncp (by simp)

/-- `Graph::new` satisfies the invariant. -/
theorem new_inv (opts : Option GraphOption) : Inv (Graph.new opts) := by
  unfold Graph.new
  rcases opts with _ | o
  · exact empty_maps_inv Graph.mkDefault rfl rfl rfl rfl rfl rfl rfl rfl
      (Or.inl rfl)
  · show Inv (if (o.compound.getD false) = true then
        ({ Graph.mkDefault with
          _is_directed := o.directed.getD true
          _is_multigraph := o.multigraph.getD false
          _is_compound := o.compound.getD false
          _parent := []
          _children := alInsert [] GRAPH_NODE [] } : Graph)
      else { Graph.mkDefault with
        _is_directed := o.directed.getD true
        _is_multigraph := o.multigraph.getD false
        _is_compound := o.compound.getD false })
    by_cases hc : (o.compound.getD false) = true
    · rw [if_pos hc]
      exact empty_maps_inv _ rfl rfl rfl rfl rfl rfl rfl rfl
        (Or.inr ⟨rfl, hc⟩)
    · rw [if_neg hc]
      exact empty_maps_inv _ rfl rfl rfl rfl rfl rfl rfl rfl (Or.inl rfl)

theorem set_nodes_inv (vs : List String) (val : Option String) :
    ∀ g : Graph, Inv g → Inv (g.set_nodes vs val) := by
  induction vs with
  | nil =>
      intro g hg
      exact hg
  | cons x t ih =>
      intro g hg
      exact ih (g.set_node x val) (set_node_inv g x val hg)

theorem set_edge_with_obj_inv (g : Graph) (e : Edge) (lbl : Option String)
    (hg : Inv g) : Inv (g.set_edge_with_obj e lbl).1 :=
  set_edge_inv g e.v e.w lbl none hg

theorem remove_edge_with_obj_inv (g : Graph) (e : Edge) (hg : Inv g) :
    Inv (g.remove_edge_with_obj e) :=
  remove_edge_inv g e.v e.w e.name hg

theorem set_path_aux_inv (val : Option String) (rest : List String) :
    ∀ (g : Graph) (v1 : String), Inv g → Inv (set_path_aux val g v1 rest) := by
  induction rest with
  | nil =>
      intro g v1 hg
      exact hg
  | cons v2 t ih =>
      intro g v1 hg
      exact ih (g.set_edge v1 v2 val none).1 v2 (set_edge_inv g v1 v2 val none hg)

theorem set_path_inv (g : Graph) (vs : List String) (val : Option String)
    (hg : Inv g) : Inv (g.set_path vs val) := by
  unfold Graph.set_path
  rcases vs with _ | ⟨v, rest⟩
  · exact hg
  · exact set_path_aux_inv val rest g v hg

theorem set_graph_inv (g : Graph) (lbl : String) (hg : Inv g) :
    Inv (g.set_graph lbl) :=
  ⟨hg.wf_nodes, hg.wf_preds, hg.wf_sucs, hg.wf_in, hg.wf_out, hg.wf_objs,
    hg.wf_labels, hg.wf_parent, hg.wf_children, hg.wf_preds_inner,
    hg.wf_sucs_inner, hg.wf_in_inner, hg.wf_out_inner, hg.wf_children_inner,
    hg.contains_preds, hg.contains_sucs, hg.contains_in, hg.contains_out,
    hg.preds_val, hg.sucs_val, hg.in_mem, hg.out_mem, hg.labels_objs,
    hg.obj_key, hg.obj_nodes, hg.childparent, hg.parent_nodes, hg.noncompound⟩

theorem set_default_node_label_inv (g : Graph) (d : DefaultLabel) (hg : Inv g) :
    Inv (g.set_default_node_label d) :=
  ⟨hg.wf_nodes, hg.wf_preds, hg.wf_sucs, hg.wf_in, hg.wf_out, hg.wf_objs,
    hg.wf_labels, hg.wf_parent, hg.wf_children, hg.wf_preds_inner,
    hg.wf_sucs_inner, hg.wf_in_inner, hg.wf_out_inner, hg.wf_children_inner,
    hg.contains_preds, hg.contains_sucs, hg.contains_in, hg.contains_out,
    hg.preds_val, hg.sucs_val, hg.in_mem, hg.out_mem, hg.labels_objs,
    hg.obj_key, hg.obj_nodes, hg.childparent, hg.parent_nodes, hg.noncompound⟩

theorem set_default_edge_label_inv (g : Graph) (d : DefaultLabel) (hg : Inv g) :
    Inv (g.set_default_edge_label d) :=
  ⟨hg.wf_nodes, hg.wf_preds, hg.wf_sucs, hg.wf_in, hg.wf_out, hg.wf_objs,
    hg.wf_labels, hg.wf_parent, hg.wf_children, hg.wf_preds_inner,
    hg.wf_sucs_inner, hg.wf_in_inner, hg.wf_out_inner, hg.wf_children_inner,
    hg.contains_preds, hg.contains_sucs, hg.contains_in, hg.contains_out,
    hg.preds_val, hg.sucs_val, hg.in_mem, hg.out_mem, hg.labels_objs,
    hg.obj_key, hg.obj_nodes, hg.childparent, hg.parent_nodes, hg.noncompound⟩

/-- Invariant preservation for an arbitrary left fold. -/
theorem foldl_inv {α : Type} (f : Graph → α → Graph)
    (hstep : ∀ c a, Inv c → Inv (f c a)) :
    ∀ (l : List α) (c : Graph), Inv c → Inv (l.foldl f c) := by
  intro l
  induction l with
  | nil =>
      intro c hc
      exact hc
  | cons x t ih =>
      intro c hc
      exact ih (f c x) (hstep c x hc)

/-- The compound loop of `filter_nodes` preserves the invariant. -/
theorem filterParentsFold_inv (g : Graph) (l : List String) :
    ∀ (parents : AList String) (copy g' : Graph), Inv copy →
    filterParentsFold g l parents copy = some g' → Inv g' := by
  induction l with
  | nil =>
      intro parents copy g' hc h
      have h2 : some copy = some g' := h
      injection h2 with h2
      rw [← h2]
      exact hc
  | cons v rest ih =>
      intro parents copy g' hc h
      have h2 : (match find_parent g (g._parent.length + 1) v parents copy with
        | none => (none : Option Graph)
        | some (p, parents') =>
            match copy.set_parent v p with
            | none => none
            | some pr => filterParentsFold g rest parents' pr.1) = some g' := h
      rcases hfp : find_parent g (g._parent.length + 1) v parents copy
        with _ | ⟨p, parents'⟩
      · rw [hfp] at h2
        exact absurd (show (none : Option Graph) = some g' from h2) (by simp)
      · rw [hfp] at h2
        have h3 : (match copy.set_parent v p with
          | none => (none : Option Graph)
          | some pr => filterParentsFold g rest parents' pr.1) = some g' := h2
        rcases hsp : copy.set_parent v p with _ | pr
        · rw [hsp] at h3
          exact absurd (show (none : Option Graph) = some g' from h3) (by simp)
        · rw [hsp] at h3
          exact ih parents' pr.1 g'
            (set_parent_inv copy v p pr.1 pr.2 hc (by rw [hsp])) h3

/-- `filter_nodes` preserves the invariant (the copy is built from scratch by
invariant-preserving operations). -/
theorem filter_nodes_inv (g : Graph) (f : String → Bool) (g' : Graph)
    (h : g.filter_nodes f = some g') : Inv g' := by
  have hC2 : Inv (g._edge_objs.foldl
      (fun c p =>
        if alContains c._nodes p.2.v ∧ alContains c._nodes p.2.w then
          match g.edge_with_obj p.2 with
          | some lbl => (c.set_edge_with_obj p.2 (some lbl)).1
          | none => c
        else c)
      (g._nodes.foldl
        (fun c p => if f p.1 then c.set_node p.1 (some p.2) else c)
        (Graph.new (some
          { directed := some g._is_directed
            multigraph := some g._is_multigraph
            compound := some g._is_compound })))) := by
    refine foldl_inv _ ?_ _ _ (foldl_inv _ ?_ _ _ (new_inv _))
    · intro c p hc
      by_cases hcond : alContains c._nodes p.2.v = true ∧
          alContains c._nodes p.2.w = true
      · rw [if_pos hcond]
        rcases hX : g.edge_with_obj p.2 with _ | lbl
        · exact hc
        · exact set_edge_with_obj_inv c p.2 (some lbl) hc
      · rw [if_neg hcond]
        exact hc
    · intro c p hc
      by_cases hcond : f p.1 = true
      · rw [if_pos hcond]
        exact set_node_inv c p.1 (some p.2) hc
      · rw [if_neg hcond]
        exact hc
  have h2 : (if g._is_compound then
      filterParentsFold g (alKeys (g._edge_objs.foldl
        (fun c p =>
          if alContains c._nodes p.2.v ∧ alContains c._nodes p.2.w then
            match g.edge_with_obj p.2 with
            | some lbl => (c.set_edge_with_obj p.2 (some lbl)).1
            | none => c
          else c)
        (g._nodes.foldl
          (fun c p => if f p.1 then c.set_node p.1 (some p.2) else c)
          (Graph.new (some
            { directed := some g._is_directed
              multigraph := some g._is_multigraph
              compound := some g._is_compound }))))._nodes) []
        (g._edge_objs.foldl
          (fun c p =>
            if alContains c._nodes p.2.v ∧ alContains c._nodes p.2.w then
              match g.edge_with_obj p.2 with
              | some lbl => (c.set_edge_with_obj p.2 (some lbl)).1
              | none => c
            else c)
          (g._nodes.foldl
            (fun c p => if f p.1 then c.set_node p.1 (some p.2) else c)
            (Graph.new (some
              { directed := some g._is_directed
                multigraph := some g._is_multigraph
                compound := some g._is_compound }))))
    else some (g._edge_objs.foldl
      (fun c p =>
        if alContains c._nodes p.2.v ∧ alContains c._nodes p.2.w then
          match g.edge_with_obj p.2 with
          | some lbl => (c.set_edge_with_obj p.2 (some lbl)).1
          | none => c
        else c)
      (g._nodes.foldl
        (fun c p => if f p.1 then c.set_node p.1 (some p.2) else c)
        (Graph.new (some
          { directed := some g._is_directed
            multigraph := some g._is_multigraph
            compound := some g._is_compound }))))) = some g' := h
  by_cases hcomp : g._is_compound = true
  · rw [if_pos hcomp] at h2
    exact filterParentsFold_inv g _ [] _ g' hC2 h2
  · rw [if_neg hcomp] at h2
    injection h2 with h2
    rw [← h2]
    exact hC2

/-- Every reachable graph state satisfies the invariant. -/
theorem inv_of_reachable (g : Graph) (h : Reachable g) : Inv g := by
  induction h with
  | new opts => exact new_inv opts
  | set_node v val _ ih => exact set_node_inv _ v val ih
  | set_nodes vs val _ ih => exact set_nodes_inv vs val _ ih
  | remove_node v _ ih => exact remove_node_inv _ v ih
  | set_edge v w lbl nm _ ih => exact set_edge_inv _ v w lbl nm ih
  | set_edge_with_obj e lbl _ ih => exact set_edge_with_obj_inv _ e lbl ih
  | remove_edge v w nm _ ih => exact remove_edge_inv _ v w nm ih
  | remove_edge_with_obj e _ ih => exact remove_edge_with_obj_inv _ e ih
  | set_path vs lbl _ ih => exact set_path_inv _ vs lbl ih
  | set_parent v p _ heq ih => exact set_parent_inv _ v p _ _ ih heq
  | set_graph lbl _ ih => exact set_graph_inv _ lbl ih
  | set_default_node_label d _ ih => exact set_default_node_label_inv _ d ih
  | set_default_edge_label d _ ih => exact set_default_edge_label_inv _ d ih
  | filter_nodes f _ heq _ => exact filter_nodes_inv _ f _ heq

/-- **C9.** In every graph state reachable through the public operations,
`predecessors(v)` and `successors(v)` return `None` exactly when `v` is not
a node of the graph, and on a node with no incoming (respectively outgoing)
edges they return `Some` of the empty list. -/
theorem c9_predecessors_successors (g : Graph) (v : String)
    (hr : Reachable g) :
    (g.predecessors v = none ↔ g.has_node v = false) ∧
    (g.successors v = none ↔ g.has_node v = false) ∧
    (g.has_node v = true → (∀ e ∈ g.edges, ¬ e.w = v) →
      g.predecessors v = some []) ∧
    (g.has_node v = true → (∀ e ∈ g.edges, ¬ e.v = v) →
      g.successors v = some []) := by
  have hg : Inv g := inv_of_reachable g hr
  have hiffp : alGet g._preds v = none ↔ g.has_node v = false := by
    constructor
    · intro hrow
      show alContains g._nodes v = false
      rw [← hg.contains_preds v]
      show (alGet g._preds v).isSome = false
      rw [hrow]
      rfl
    · intro hnode
      have hcp : alContains g._preds v = false := by
        rw [hg.contains_preds v]
        exact hnode
      have hs : (alGet g._preds v).isSome = false := hcp
      rcases hrow : alGet g._preds v with _ | m
      · rfl
      · rw [hrow] at hs
        exact absurd hs (by simp)
  have hiffs : alGet g._sucs v = none ↔ g.has_node v = false := by
    constructor
    · intro hrow
      show alContains g._nodes v = false
      rw [← hg.contains_sucs v]
      show (alGet g._sucs v).isSome = false
      rw [hrow]
      rfl
    · intro hnode
      have hcp : alContains g._sucs v = false := by
        rw [hg.contains_sucs v]
        exact hnode
      have hs : (alGet g._sucs v).isSome = false := hcp
      rcases hrow : alGet g._sucs v with _ | m
      · rfl
      · rw [hrow] at hs
        exact absurd hs (by simp)
  refine ⟨?_, ?_, ?_, ?_⟩
  · rw [← hiffp]
    unfold Graph.predecessors
    rcases hrow : alGet g._preds v with _ | m <;> simp
  · rw [← hiffs]
    unfold Graph.successors
    rcases hrow : alGet g._sucs v with _ | m <;> simp
  · intro hnode hnoedge
    have hcount : ∀ u, edgeCount g._edge_objs u v = 0 := by
      intro u
      rw [edgeCount_zero_iff]
      intro p hp hcontra
      exact hnoedge p.2 (List.mem_map_of_mem Prod.snd hp) hcontra.2
    rcases hrow : alGet g._preds v with _ | m
    · have hcp : alContains g._preds v = true := by
        rw [hg.contains_preds v]
        exact hnode
      have hs : (alGet g._preds v).isSome = true := hcp
      rw [hrow] at hs
      exact absurd hs (by simp)
    · have hkeys : alKeys m = [] := by
        rcases hk : alKeys m with _ | ⟨u, rest⟩
        · rfl
        · have hu : u ∈ alKeys m := by
            rw [hk]
            simp
          have husome : (alGet m u).isSome = true := (alGet_isSome_iff m u).mpr hu
          have hval := hg.preds_val v m u hrow
          rw [hcount u] at hval
          have hnone : alGet m u = none := by
            rw [hval]
            rfl
          rw [hnone] at husome
          exact absurd husome (by simp)
      show (match alGet g._preds v with
        | some preds => some (alKeys preds)
        | none => none) = some []
      rw [hrow]
      show some (alKeys m) = some []
      rw [hkeys]
  · intro hnode hnoedge
    have hcount : ∀ u, edgeCount g._edge_objs v u = 0 := by
      intro u
      rw [edgeCount_zero_iff]
      intro p hp hcontra
      exact hnoedge p.2 (List.mem_map_of_mem Prod.snd hp) hcontra.1
    rcases hrow : alGet g._sucs v with _ | m
    · have hcp : alContains g._sucs v = true := by
        rw [hg.contains_sucs v]
        exact hnode
      have hs : (alGet g._sucs v).isSome = true := hcp
      rw [hrow] at hs
      exact absurd hs (by simp)
    · have hkeys : alKeys m = [] := by
        rcases hk : alKeys m with _ | ⟨u, rest⟩
        · rfl
        · have hu : u ∈ alKeys m := by
            rw [hk]
            simp
          have husome : (alGet m u).isSome = true := (alGet_isSome_iff m u).mpr hu
          have hval := hg.sucs_val v m u hrow
          rw [hcount u] at hval
          have hnone : alGet m u = none := by
            rw [hval]
            rfl
          rw [hnone] at husome
          exact absurd husome (by simp)
      show (match alGet g._sucs v with
        | some sucs => some (alKeys sucs)
        | none => none) = some []
      rw [hrow]
      show some (alKeys m) = some []
      rw [hkeys]

/-- Witness for C9 at a concrete reachable state: the graph with the single
node `"A"`, which has no edges at all. -/
theorem c9_predecessors_successors_witness :
    ((Graph.new none).set_node "A" none).has_node "A" = true ∧
    ((Graph.new none).set_node "A" none).predecessors "A" = some [] ∧
    ((Graph.new none).set_node "A" none).successors "A" = some [] := by
  have h := c9_predecessors_successors ((Graph.new none).set_node "A" none)
    "A" (Reachable.set_node "A" none (Reachable.new none))
  exact ⟨by decide, h.2.2.1 (by decide) (by decide),
    h.2.2.2 (by decide) (by decide)⟩

end GraphlibRust
